import Mathlib


/-!
# Suffix tree (Ukkonen) and longest common substring

Shallow embedding of `C++/Homework/1517 (suffix tree).cpp`.

* Pointers are natural numbers (addresses in two heaps, one of nodes and one
  of edges, filled in allocation order); `NULL` is `none`.
* `int` values are `Int`; `INF` is `std::numeric_limits<int>::max()`.
* `char` is `Char` (a byte is the `Char` of its code); `std::string` is
  `List Char`; `std::map<char, edge*>` is an association list kept sorted by
  key, in the order of `char` as a signed byte.
* Dereferencing `NULL`, reading the text outside `[0, length)` and
  `std::out_of_range` are the failure `none`; the two `while` loops and the
  recursive search take fuel, and running out of fuel is `none` as well.
* The intrusive deletion chains (`next_to_delete`, `update_last_node`,
  `update_last_edge`) and the `tree` back pointer only serve the destructor
  and are left out.
-/

/-- The constant `INF`, `std::numeric_limits<int>::max()`. -/
def INF : Int := 2147483647

/-- Conversion of a `size_t` value to `int` (two's complement, 32 bits). -/
def to_int (n : Nat) : Int :=
  if n % 4294967296 < 2147483648 then ((n % 4294967296 : Nat) : Int)
  else ((n % 4294967296 : Nat) : Int) - 4294967296

/-- Conversion of an `int` value to `size_t` (64 bits). -/
def to_size_t (i : Int) : Nat := (i % 18446744073709551616).toNat

/-- Heap update: the object at address `a` becomes `v`. -/
def upd {α : Type} (h : Nat → α) (a : Nat) (v : α) : Nat → α :=
  fun x => if x = a then v else h x

/-- The struct `search_result`. -/
structure search_result where
  depth : Int
  first : Bool
  second : Bool
  end_index : Int
deriving DecidableEq, Repr

/-- The constructor `search_result(depth, first, second)`: `end_index` is `-1`. -/
def search_result.init (depth : Int) (first second : Bool) : search_result :=
  ⟨depth, first, second, -1⟩

/-- The value of a `char`, a signed byte: the symbols with the codes 128 to
255 have the values -128 to -1. (A `Char` with a code beyond 255 is the image
of no `char`; it keeps its code, which keeps the values distinct.) -/
def char_value (c : Char) : Int :=
  if 128 ≤ c.toNat ∧ c.toNat < 256 then (c.toNat : Int) - 256 else (c.toNat : Int)

/-- `std::less<char>`, the key order of `std::map<char, suffix_tree_edge *>`. -/
def char_lt (a b : Char) : Prop := char_value a < char_value b

instance (a b : Char) : Decidable (char_lt a b) :=
  inferInstanceAs (Decidable (char_value a < char_value b))

/-- `std::map::insert`: keeps the map sorted and leaves an existing key alone. -/
def map_insert (ch : Char) (edge : Nat) : List (Char × Nat) → List (Char × Nat)
  | [] => [(ch, edge)]
  | (k, v) :: rest =>
    if char_lt ch k then (ch, edge) :: (k, v) :: rest
    else if ch = k then (k, v) :: rest
    else (k, v) :: map_insert ch edge rest

/-- `std::map::erase` by key. -/
def map_erase (ch : Char) : List (Char × Nat) → List (Char × Nat)
  | [] => []
  | (k, v) :: rest => if k = ch then map_erase ch rest else (k, v) :: map_erase ch rest

/-- `std::map::find`, `none` for `end()`. -/
def map_find (ch : Char) : List (Char × Nat) → Option Nat
  | [] => none
  | (k, v) :: rest => if k = ch then some v else map_find ch rest

/-- The struct `suffix_tree_node`. -/
structure suffix_tree_node where
  suffix_link : Option Nat
  edges : List (Char × Nat)

/-- The constructor `suffix_tree_node(suffix_link, tree)`: no edges. -/
def suffix_tree_node.init (suffix_link : Option Nat) : suffix_tree_node :=
  ⟨suffix_link, []⟩

def suffix_tree_node.add_edge (n : suffix_tree_node) (ch : Char) (edge : Nat) :
    suffix_tree_node :=
  { n with edges := map_insert ch edge n.edges }

def suffix_tree_node.remove_edge (n : suffix_tree_node) (ch : Char) : suffix_tree_node :=
  { n with edges := map_erase ch n.edges }

def suffix_tree_node.find_edge (n : suffix_tree_node) (ch : Char) : Option Nat :=
  map_find ch n.edges

/-- The struct `suffix_tree_edge`. -/
structure suffix_tree_edge where
  begin_index : Int
  end_index : Int
  start_node : Nat
  end_node : Nat

def suffix_tree_edge.get_span (e : suffix_tree_edge) : Int :=
  e.end_index - e.begin_index

def suffix_tree_edge.contains (e : suffix_tree_edge) (char_index : Int) : Bool :=
  decide (char_index ≥ e.begin_index) && decide (char_index ≤ e.end_index)

/-- The struct `suffix_tree_suffix`. -/
structure suffix_tree_suffix where
  origin_node : Nat
  begin_index : Int
  end_index : Int

def suffix_tree_suffix.is_explicit (s : suffix_tree_suffix) : Bool :=
  decide (s.begin_index > s.end_index)

def suffix_tree_suffix.is_implicit (s : suffix_tree_suffix) : Bool :=
  decide (s.end_index ≥ s.begin_index)

def suffix_tree_suffix.get_span (s : suffix_tree_suffix) : Int :=
  s.end_index - s.begin_index

def suffix_tree_suffix.inc_begin_index (s : suffix_tree_suffix) : suffix_tree_suffix :=
  { s with begin_index := s.begin_index + 1 }

def suffix_tree_suffix.inc_end_index (s : suffix_tree_suffix) : suffix_tree_suffix :=
  { s with end_index := s.end_index + 1 }

/-- The class `suffix_tree`: its members and the two heaps. -/
structure suffix_tree where
  text : List Char
  node : Nat → suffix_tree_node
  node_count : Nat
  edge : Nat → suffix_tree_edge
  edge_count : Nat
  root : Nat
  delimiters_count : Nat
  active : suffix_tree_suffix

/-- The constructor `suffix_tree()`: a root without suffix link, the active
point `(root, 0, -1)`. The constructor does not initialise
`delimiters_count`; its initial value is the argument. -/
def suffix_tree.init (delimiters_count : Nat) : suffix_tree where
  text := []
  node := fun _ => suffix_tree_node.init none
  node_count := 1
  edge := fun _ => ⟨0, 0, 0, 0⟩
  edge_count := 0
  root := 0
  delimiters_count := delimiters_count
  active := ⟨0, 0, -1⟩

/-- `get_char(index)`, that is `text[index]`. -/
def suffix_tree.get_char (t : suffix_tree) (index : Int) : Option Char :=
  if 0 ≤ index then t.text[index.toNat]? else none

/-- `new suffix_tree_edge(begin, end, start)`: the new edge owns a new end
node without suffix link; returns the tree and the address of the edge. -/
def suffix_tree.new_edge (t : suffix_tree) (b e : Int) (start : Nat) : suffix_tree × Nat :=
  ({ t with
      node := upd t.node t.node_count (suffix_tree_node.init none)
      node_count := t.node_count + 1
      edge := upd t.edge t.edge_count ⟨b, e, start, t.node_count⟩
      edge_count := t.edge_count + 1 }, t.edge_count)

/-- `suffix_tree_edge::insert` of the edge at address `e`. -/
def suffix_tree.insert (t : suffix_tree) (e : Nat) : Option suffix_tree :=
  match t.get_char (t.edge e).begin_index with
  | none => none
  | some begin_char =>
    let start := (t.edge e).start_node
    some { t with node := upd t.node start ((t.node start).add_edge begin_char e) }

/-- `suffix_tree_edge::remove` of the edge at address `e`. -/
def suffix_tree.remove (t : suffix_tree) (e : Nat) : Option suffix_tree :=
  match t.get_char (t.edge e).begin_index with
  | none => none
  | some begin_char =>
    let start := (t.edge e).start_node
    some { t with node := upd t.node start ((t.node start).remove_edge begin_char) }

/-- `suffix_tree_edge::split_edge(suffix)` of the edge at address `e`, the
suffix being the active point; returns the tree and the new inner node. -/
def suffix_tree.split_edge (t : suffix_tree) (e : Nat) : Option (suffix_tree × Nat) :=
  match t.remove e with
  | none => none
  | some t1 =>
    let b := (t1.edge e).begin_index
    let span := t1.active.get_span
    let t2 := (t1.new_edge b (b + span) t1.active.origin_node).1
    let new_edge := (t1.new_edge b (b + span) t1.active.origin_node).2
    match t2.insert new_edge with
    | none => none
    | some t3 =>
      let mid := (t3.edge new_edge).end_node
      let mid_node := { t3.node mid with suffix_link := some t3.active.origin_node }
      let t4 := { t3 with node := upd t3.node mid mid_node }
      let this_edge := { t4.edge e with begin_index := b + span + 1, start_node := mid }
      let t5 := { t4 with edge := upd t4.edge e this_edge }
      match t5.insert e with
      | none => none
      | some t6 => some (t6, mid)

/-- The `while` loop of `suffix_tree_suffix::canonize`, with the loop
variables `edge` and `edge_span`. -/
def suffix_tree.canonize_loop (t : suffix_tree) :
    Nat → Nat → Int → suffix_tree_suffix → Option suffix_tree_suffix
  | 0, _, _, _ => none
  | fuel + 1, edge, edge_span, s =>
    if edge_span ≤ s.get_span then
      let s1 : suffix_tree_suffix :=
        { s with begin_index := s.begin_index + edge_span + 1,
                 origin_node := (t.edge edge).end_node }
      if s1.begin_index ≤ s1.end_index then
        match t.get_char s1.begin_index with
        | none => none
        | some ch =>
          match (t.node (t.edge edge).end_node).find_edge ch with
          | none => none
          | some edge1 => t.canonize_loop fuel edge1 (t.edge edge1).get_span s1
      else t.canonize_loop fuel edge edge_span s1
    else some s

/-- `suffix_tree_suffix::canonize` applied to the suffix `s`. -/
def suffix_tree.canonize_suffix (t : suffix_tree) (s : suffix_tree_suffix) :
    Option suffix_tree_suffix :=
  if s.is_explicit then some s
  else
    match t.get_char s.begin_index with
    | none => none
    | some ch =>
      match (t.node s.origin_node).find_edge ch with
      | none => none
      | some edge => t.canonize_loop (t.text.length + 2) edge (t.edge edge).get_span s

/-- `active.canonize()`. -/
def suffix_tree.canonize (t : suffix_tree) : Option suffix_tree :=
  match t.canonize_suffix t.active with
  | none => none
  | some s => some { t with active := s }

/-- `update_suffix_link(node, suffix_link)`. -/
def suffix_tree.update_suffix_link (t : suffix_tree) (node : Option Nat) (suffix_link : Nat) :
    suffix_tree :=
  match node with
  | none => t
  | some n =>
    if n ≠ t.root then
      { t with node := upd t.node n { t.node n with suffix_link := some suffix_link } }
    else t

/-- `suffix_tree_suffix::change_origin_node` on the active point. -/
def suffix_tree.change_origin_node (t : suffix_tree) : Option suffix_tree :=
  match (t.node t.active.origin_node).suffix_link with
  | none => none
  | some l => some { t with active := { t.active with origin_node := l } }

/-- Lines 299 to 313 of `add_prefix`: the new leaf edge from `parent_node`,
the suffix link of the previous parent, the move to the next shorter suffix. -/
def suffix_tree.add_leaf (t : suffix_tree) (end_index : Int) (last_parent_node : Option Nat)
    (parent_node : Nat) : Option suffix_tree :=
  let t1 := (t.new_edge end_index INF parent_node).1
  let new_edge := (t.new_edge end_index INF parent_node).2
  match t1.insert new_edge with
  | none => none
  | some t2 =>
    let t3 := t2.update_suffix_link last_parent_node parent_node
    if t3.active.origin_node = t3.root then
      suffix_tree.canonize { t3 with active := t3.active.inc_begin_index }
    else
      match t3.change_origin_node with
      | none => none
      | some t4 => t4.canonize

/-- The `while(true)` loop of `add_prefix`; at `break` it returns the tree,
`last_parent_node` and `parent_node`. -/
def suffix_tree.add_prefix_loop (end_index : Int) :
    Nat → suffix_tree → Option Nat → Option (suffix_tree × Option Nat × Nat)
  | 0, _, _ => none
  | fuel + 1, t, last_parent_node =>
    if t.active.is_explicit then
      match t.get_char end_index with
      | none => none
      | some end_char =>
        match (t.node t.active.origin_node).find_edge end_char with
        | some _ => some (t, last_parent_node, t.active.origin_node)
        | none =>
          match t.add_leaf end_index last_parent_node t.active.origin_node with
          | none => none
          | some t1 => suffix_tree.add_prefix_loop end_index fuel t1 (some t.active.origin_node)
    else
      match t.get_char t.active.begin_index with
      | none => none
      | some active_begin_char =>
        match (t.node t.active.origin_node).find_edge active_begin_char with
        | none => none
        | some edge =>
          match t.get_char ((t.edge edge).begin_index + t.active.get_span + 1),
                t.get_char end_index with
          | some c1, some c2 =>
            if c1 = c2 then some (t, last_parent_node, t.active.origin_node)
            else
              match t.split_edge edge with
              | none => none
              | some (t1, parent_node) =>
                match t1.add_leaf end_index last_parent_node parent_node with
                | none => none
                | some t2 => suffix_tree.add_prefix_loop end_index fuel t2 (some parent_node)
          | _, _ => none

/-- `add_prefix(&active, end_index)`. -/
def suffix_tree.add_prefix (t : suffix_tree) (end_index : Int) : Option suffix_tree :=
  match suffix_tree.add_prefix_loop end_index (t.text.length + 2) t none with
  | none => none
  | some (t1, last_parent_node, parent_node) =>
    let t2 := t1.update_suffix_link last_parent_node parent_node
    suffix_tree.canonize { t2 with active := t2.active.inc_end_index }

/-- `add_character(character)`. -/
def suffix_tree.add_character (t : suffix_tree) (character : Char) : Option suffix_tree :=
  let t1 := { t with text := t.text ++ [character] }
  suffix_tree.add_prefix t1 (to_int (t1.text.length - 1))

/-- `add_delimiter()`: the sum `'Z' + delimiters_count` narrowed to `char`. -/
def suffix_tree.add_delimiter (t : suffix_tree) : Option suffix_tree :=
  let t1 := { t with delimiters_count := t.delimiters_count + 1 }
  t1.add_character (Char.ofNat (('Z'.toNat + t1.delimiters_count) % 256))

/-- The `for` loop of `add_string`. -/
def suffix_tree.add_characters (t : suffix_tree) : List Char → Option suffix_tree
  | [] => some t
  | c :: rest =>
    match t.add_character c with
    | none => none
    | some t1 => t1.add_characters rest

/-- `add_string(string)`. -/
def suffix_tree.add_string (t : suffix_tree) (string : List Char) : Option suffix_tree :=
  match t.add_characters string with
  | none => none
  | some t1 => t1.add_delimiter

/-- `suffix_tree_edge::find_delimiters` of the edge `e`; `below` is
`end_node->find_delimiters(first_delimiter, second_delimiter, ·)`. -/
def edge_find_delimiters (e : suffix_tree_edge) (below : Int → Option search_result)
    (first_delimiter second_delimiter current_depth : Int) : Option search_result :=
  let result : search_result :=
    { search_result.init (-1) false false with
      first := e.contains first_delimiter, second := e.contains second_delimiter }
  if result.first && result.second then
    some { result with first := true, second := false }
  else
    match below (current_depth + e.get_span + 1) with
    | none => none
    | some temp =>
      let result1 : search_result :=
        if temp.first && temp.second then
          { result with end_index := if temp.end_index = -1 then e.end_index else temp.end_index }
        else result
      let temp1 : search_result :=
        if temp.first && temp.second then { temp with end_index := result1.end_index } else temp
      if !result1.first && !result1.second then some temp1
      else
        let result2 : search_result :=
          { result1 with first := result1.first || temp1.first,
                         second := result1.second || temp1.second }
        if !result2.first || !result2.second then some { result2 with depth := -1 }
        else some result2

/-- The `for` loop of `suffix_tree_node::find_delimiters` over the edges in
key order; `find e` is `e->find_delimiters(first, second, current_depth)`. -/
def node_loop (find : Nat → Option search_result) :
    List (Char × Nat) → search_result → Option search_result
  | [], result => some result
  | (_, e) :: rest, result =>
    match find e with
    | none => none
    | some temp =>
      let result1 : search_result :=
        { result with first := result.first || temp.first,
                      second := result.second || temp.second }
      let result2 : search_result :=
        if result1.depth < temp.depth then
          { result1 with depth := temp.depth, end_index := temp.end_index }
        else result1
      node_loop find rest result2

/-- `suffix_tree_node::find_delimiters` of the node at address `n`. -/
def suffix_tree.find_delimiters (t : suffix_tree) (first_delimiter second_delimiter : Int) :
    Nat → Nat → Int → Option search_result
  | 0, _, _ => none
  | fuel + 1, n, current_depth =>
    let result := search_result.init (-1) false false
    if (t.node n).edges.isEmpty then some result
    else
      match node_loop
          (fun e => edge_find_delimiters (t.edge e)
            (suffix_tree.find_delimiters t first_delimiter second_delimiter fuel
              (t.edge e).end_node)
            first_delimiter second_delimiter current_depth)
          (t.node n).edges { result with depth := current_depth } with
      | none => none
      | some result1 =>
        if !result1.first || !result1.second then some { result1 with depth := -1 }
        else some result1

/-- `std::string::substr(pos, count)`; `std::out_of_range` is `none`. -/
def substr (text : List Char) (pos count : Nat) : Option (List Char) :=
  if pos > text.length then none else some ((text.drop pos).take count)

/-- `get_lcs(string1_length, string2_length)`. -/
def suffix_tree.get_lcs (t : suffix_tree) (string1_length string2_length : Nat) :
    Option (List Char) :=
  match t.find_delimiters (to_int string1_length) (to_int (string1_length + string2_length + 1))
      (t.text.length + 2) t.root 0 with
  | none => none
  | some result =>
    if result.depth = 0 then some []
    else substr t.text (to_size_t (result.end_index - result.depth + 1)) (to_size_t result.depth)

/-- The calls of `main`: `add_string(string1)`, `add_string(string2)`,
`get_lcs(string1.length(), string2.length())` on a new tree whose
`delimiters_count` starts at `delimiters_count`. -/
def lcs_main (delimiters_count : Nat) (string1 string2 : List Char) : Option (List Char) :=
  match (suffix_tree.init delimiters_count).add_string string1 with
  | none => none
  | some t1 =>
    match t1.add_string string2 with
    | none => none
    | some t2 => t2.get_lcs string1.length string2.length

/-- A sequence of `add_string` calls, one for each string of the list. -/
def suffix_tree.add_strings (t : suffix_tree) : List (List Char) → Option suffix_tree
  | [] => some t
  | s :: rest =>
    match t.add_string s with
    | none => none
    | some t1 => t1.add_strings rest


/-! ## Specification vocabulary and invariants -/

/-- The `l` symbols of `T` from index `b` on. -/
def seg (T : List Char) (b l : Nat) : List Char := (T.drop b).take l

/-- The word `w` occurs in `T` at index `q`. -/
def Occ (T : List Char) (q : Nat) (w : List Char) : Prop := seg T q w.length = w

/-- The association list is strictly sorted by key. -/
def map_sorted (m : List (Char × Nat)) : Prop := m.Pairwise (fun a b => char_lt a.1 b.1)

namespace suffix_tree

/-- Begin index of the edge `e`, as a natural number. -/
def eb (t : suffix_tree) (e : Nat) : Nat := (t.edge e).begin_index.toNat

/-- Start node of the edge `e`. -/
def es (t : suffix_tree) (e : Nat) : Nat := (t.edge e).start_node

/-- The edge `e` is an open leaf edge. -/
def is_open (t : suffix_tree) (e : Nat) : Prop := (t.edge e).end_index = INF

instance (t : suffix_tree) (e : Nat) : Decidable (t.is_open e) := by
  unfold is_open; infer_instance

/-- Number of symbols on the edge `e`; an open edge runs to the end of the text. -/
def lab_len (t : suffix_tree) (e : Nat) : Nat :=
  if (t.edge e).end_index = INF then t.text.length - t.eb e
  else ((t.edge e).end_index - (t.edge e).begin_index + 1).toNat

/-- Inner nodes: the root and the end nodes of the closed edges. -/
def Internal (t : suffix_tree) (u : Nat) : Prop :=
  u = 0 ∨ ∃ e, e < t.edge_count ∧ u = e + 1 ∧ ¬ t.is_open e

/-- Text index at which the path word of the edge `e` starts, for the node labels `L`. -/
def edge_pos (t : suffix_tree) (L : Nat → List Char) (e : Nat) : Nat :=
  t.eb e - (L (t.es e)).length

/-- Well-formedness of the edge `e` for the node labels `L`. -/
structure EdgeOK (t : suffix_tree) (L : Nat → List Char) (e : Nat) : Prop where
  end_node : (t.edge e).end_node = e + 1
  start_int : t.Internal (t.es e)
  begin_nonneg : 0 ≤ (t.edge e).begin_index
  begin_lt : t.eb e < t.text.length
  depth_le : (L (t.es e)).length ≤ t.eb e
  occ_start : Occ t.text (t.edge_pos L e) (L (t.es e))
  closed_le : ¬ t.is_open e → (t.edge e).begin_index ≤ (t.edge e).end_index
  closed_lt : ¬ t.is_open e → (t.edge e).end_index + 2 ≤ t.text.length
  closed_len : ¬ t.is_open e → (L (e + 1)).length = (L (t.es e)).length + t.lab_len e
  closed_occ : ¬ t.is_open e → Occ t.text (t.edge_pos L e) (L (e + 1))

/-- The structural invariant of the tree, for the node labels `L`. -/
structure TreeInv (t : suffix_tree) (L : Nat → List Char) : Prop where
  root0 : t.root = 0
  counts : t.node_count = t.edge_count + 1
  Lroot : L 0 = []
  find_iff : ∀ u ch e, (t.node u).find_edge ch = some e ↔
    (e < t.edge_count ∧ t.es e = u ∧ t.text[t.eb e]? = some ch)
  edge_ok : ∀ e, e < t.edge_count → t.EdgeOK L e
  sorted : ∀ u, map_sorted (t.node u).edges

/-- The node `u` has two different outgoing edges. -/
def TwoChildren (t : suffix_tree) (u : Nat) : Prop :=
  ∃ f g, f < t.edge_count ∧ g < t.edge_count ∧ f ≠ g ∧ t.es f = u ∧ t.es g = u

/-- The position reached by spelling `w` from the root lies on the edge `e`
(after its start node, up to its end node). -/
def OnEdge (t : suffix_tree) (L : Nat → List Char) (e : Nat) (w : List Char) : Prop :=
  e < t.edge_count ∧ (L (t.es e)).length < w.length ∧
    w.length ≤ (L (t.es e)).length + t.lab_len e ∧ Occ t.text (t.edge_pos L e) w

/-- The word `w` can be spelled from the root. -/
def Spelled (t : suffix_tree) (L : Nat → List Char) (w : List Char) : Prop :=
  w = [] ∨ ∃ e, t.OnEdge L e w

/-- The suffix link of the inner node `u` leads to the inner node labelled
with the label of `u` less its first symbol. -/
def LinkOK (t : suffix_tree) (L : Nat → List Char) (u : Nat) : Prop :=
  ∃ v, (t.node u).suffix_link = some v ∧ t.Internal v ∧ L v = (L u).tail

end suffix_tree

namespace suffix_tree

/-- The suffix `s` denotes the word `text[j .. p1 - 1]`: its origin is an
inner node whose label occurs at `j`, and the word is spelled by the tree. -/
structure SuffixOK (t : suffix_tree) (L : Nat → List Char) (s : suffix_tree_suffix)
    (j p1 : Nat) : Prop where
  int : t.Internal s.origin_node
  begin_eq : s.begin_index = ((j + (L s.origin_node).length : Nat) : Int)
  end_eq : s.end_index = (p1 : Int) - 1
  le : j + (L s.origin_node).length ≤ p1
  bound : p1 ≤ t.text.length
  occ : Occ t.text j (L s.origin_node)
  spelled : t.Spelled L (seg t.text j (p1 - j))

/-- The suffix `s` is canonical: explicit, or strictly inside the edge from
its origin that starts with `text[begin_index]`. -/
def Canonical (t : suffix_tree) (s : suffix_tree_suffix) : Prop :=
  s.begin_index > s.end_index ∨
    ∃ ch f, t.get_char s.begin_index = some ch ∧
      (t.node s.origin_node).find_edge ch = some f ∧ s.get_span < (t.edge f).get_span

end suffix_tree

namespace suffix_tree

/-- The tree after `new suffix_tree_edge(i, INF, u)` and the `insert` of that
edge under its first symbol `c`. -/
def leaf_state (t : suffix_tree) (i u : Nat) (c : Char) : suffix_tree :=
  { t with
    node := upd (upd t.node t.node_count (suffix_tree_node.init none)) u
              ((t.node u).add_edge c t.edge_count)
    node_count := t.node_count + 1
    edge := upd t.edge t.edge_count ⟨(i : Int), INF, u, t.node_count⟩
    edge_count := t.edge_count + 1 }

end suffix_tree

namespace suffix_tree

/-- The tree after `split_edge` of the edge `e` at `span + 1` symbols below
its start node; `cb` is the first symbol of the edge and `d` the first symbol
of its lower part. -/
def split_state (t : suffix_tree) (e : Nat) (span : Int) (cb d : Char) : suffix_tree :=
  { t with
    node := upd (upd t.node (t.es e)
                  (((t.node (t.es e)).remove_edge cb).add_edge cb t.edge_count))
              t.node_count ⟨some (t.es e), [(d, e)]⟩
    node_count := t.node_count + 1
    edge := upd (upd t.edge t.edge_count
                  ⟨(t.edge e).begin_index, (t.edge e).begin_index + span, t.es e, t.node_count⟩)
              e { t.edge e with begin_index := (t.edge e).begin_index + span + 1,
                                start_node := t.node_count }
    edge_count := t.edge_count + 1 }

end suffix_tree

namespace suffix_tree

/-- The open edges are the leaves of the suffixes that start before `j`. -/
structure LeavesOK (t : suffix_tree) (L : Nat → List Char) (j : Nat) : Prop where
  lt : ∀ e, e < t.edge_count → t.is_open e → t.edge_pos L e < j
  ex : ∀ j', j' < j → ∃ e, e < t.edge_count ∧ t.is_open e ∧ t.edge_pos L e = j'

/-- Every substring of the first `m` symbols of the text is spelled by the tree. -/
def Complete (t : suffix_tree) (L : Nat → List Char) (m : Nat) : Prop :=
  ∀ q l, q + l ≤ m → t.Spelled L (seg t.text q l)

/-- Every edge carries the text indices of the first occurrence of its word:
the label of its start node followed by the first symbol of the edge occurs
nowhere in the text before `edge_pos`. -/
def FirstOcc (t : suffix_tree) (L : Nat → List Char) : Prop :=
  ∀ e, e < t.edge_count → ∀ q, Occ t.text q (L (t.es e)) →
    t.text[q + (L (t.es e)).length]? = t.text[t.eb e]? → t.edge_pos L e ≤ q

/-- Every inner node other than the root has two outgoing edges. -/
def Branching (t : suffix_tree) : Prop :=
  ∀ e, e < t.edge_count → ¬ t.is_open e → t.TwoChildren (e + 1)

/-- What is known of `last_parent_node` inside `add_prefix` while the suffix
that starts at `j` is handled in the phase of index `i`. -/
def LastParentOK (t : suffix_tree) (L : Nat → List Char) (lp : Option Nat) (i j : Nat) : Prop :=
  ∀ m, lp = some m → m ≠ 0 → t.Internal m ∧ 1 ≤ j ∧ L m = seg t.text (j - 1) (i + 1 - j) ∧
    ∃ d, t.text[i]? ≠ some d ∧ t.Spelled L (seg t.text j (i - j) ++ [d])

/-- The invariant between two calls of `add_character`; `j` is the start of
the suffix the active point denotes. -/
structure PhaseInv (t : suffix_tree) (L : Nat → List Char) (j : Nat) : Prop where
  inv : t.TreeInv L
  branching : t.Branching
  act : t.SuffixOK L t.active j t.text.length
  can : t.Canonical t.active
  leaves : t.LeavesOK L j
  complete : t.Complete L t.text.length
  links : ∀ u, t.Internal u → u ≠ 0 → t.LinkOK L u
  first : t.FirstOcc L

/-- The invariant of the `while(true)` loop of `add_prefix` in the phase of
index `i`, at the suffix that starts at `j`. -/
structure LoopInv (t : suffix_tree) (L : Nat → List Char) (lp : Option Nat) (i j : Nat) :
    Prop where
  inv : t.TreeInv L
  branching : t.Branching
  len : t.text.length = i + 1
  act_int : t.Internal t.active.origin_node
  act_end : t.active.end_index = (i : Int) - 1
  act_begin : t.active.begin_index = ((j + (L t.active.origin_node).length : Nat) : Int)
  act_le : j + (L t.active.origin_node).length ≤ i + 1
  act_root : j + (L t.active.origin_node).length = i + 1 → t.active.origin_node = 0
  act_occ : Occ t.text j (L t.active.origin_node)
  act_can : t.Canonical t.active
  leaves : t.LeavesOK L j
  complete : t.Complete L i
  links : ∀ u, t.Internal u → u ≠ 0 → (lp = some u ∨ t.LinkOK L u)
  last : t.LastParentOK L lp i j
  first : t.FirstOcc L

/-- The state inside one round of the loop of `add_prefix`, before the new
leaf is hung below `u`, the node of the suffix that starts at `j`. -/
structure MidInv (t : suffix_tree) (L : Nat → List Char) (lp : Option Nat) (i j u : Nat) :
    Prop where
  inv : t.TreeInv L
  len : t.text.length = i + 1
  le : j ≤ i
  u_int : t.Internal u
  u_len : (L u).length = i - j
  u_occ : Occ t.text j (L u)
  u_none : ∀ c, t.text[i]? = some c → (t.node u).find_edge c = none
  branching : ∀ e, e < t.edge_count → ¬ t.is_open e →
    (e + 1 ≠ u → t.TwoChildren (e + 1)) ∧ (e + 1 = u → ∃ f, f < t.edge_count ∧ t.es f = u)
  act_int : t.Internal t.active.origin_node
  act_end : t.active.end_index = (i : Int) - 1
  act_begin : t.active.begin_index = ((j + (L t.active.origin_node).length : Nat) : Int)
  act_le : j + (L t.active.origin_node).length ≤ i
  act_occ : Occ t.text j (L t.active.origin_node)
  act_link : t.active.origin_node ≠ 0 → t.LinkOK L t.active.origin_node
  leaves : t.LeavesOK L j
  complete : t.Complete L i
  links : ∀ v, t.Internal v → v ≠ 0 → v ≠ u → (lp = some v ∨ t.LinkOK L v)
  last : t.LastParentOK L lp i j
  next : u ≠ 0 → ∃ d, t.text[i]? ≠ some d ∧ t.Spelled L (seg t.text (j + 1) (i - (j + 1)) ++ [d])
  first : t.FirstOcc L

end suffix_tree

namespace suffix_tree

/-- The state at the `break` of the loop of `add_prefix`: the suffix that
starts at `j`, extended by `text[i]`, is spelled already, and `parent` is the
node the pending suffix link has to lead to. -/
structure ExitOK (t : suffix_tree) (L : Nat → List Char) (lp : Option Nat) (parent : Nat)
    (i j : Nat) : Prop where
  loop : t.LoopInv L lp i j
  parent_int : t.Internal parent
  parent_link : ∀ v, lp = some v → v ≠ 0 → L parent = (L v).tail
  spelled : t.Spelled L (seg t.text j (i + 1 - j))

/-- The invariant of the tree between two calls of `add_character`. -/
def Good (t : suffix_tree) : Prop := ∃ L j, t.PhaseInv L j

end suffix_tree

/-- The terminator symbol that `add_delimiter` appends when the counter is `n`. -/
def delimiter (n : Nat) : Char := Char.ofNat (('Z'.toNat + (n + 1)) % 256)

namespace suffix_tree

/-- The operations of the construction leave the text and the delimiter counter alone. -/
def Frame (t t' : suffix_tree) : Prop :=
  t'.text = t.text ∧ t'.delimiters_count = t.delimiters_count

end suffix_tree

namespace suffix_tree

/-- The label of the edge `e`: `text[begin_index .. end_index]`, the label of
an open leaf edge running to the end of the text. -/
def edge_label (t : suffix_tree) (e : Nat) : List Char := seg t.text (t.eb e) (t.lab_len e)

/-- Following edges downward from the node `u` to the node `u'` spells `v`,
the concatenation of the labels of the edges passed. -/
inductive Reaches (t : suffix_tree) : Nat → List Char → Nat → Prop
  | here (u : Nat) : Reaches t u [] u
  | step {u u' : Nat} {c : Char} {e : Nat} {v : List Char} :
      (c, e) ∈ (t.node u).edges → Reaches t (t.edge e).end_node v u' →
      Reaches t u (t.edge_label e ++ v) u'

/-- The word `w` can be spelled from the root by following edges: it is a
prefix of the concatenation of the edge labels along a downward path. -/
def PathSpells (t : suffix_tree) (w : List Char) : Prop :=
  ∃ u v, t.Reaches t.root v u ∧ w <+: v

end suffix_tree

/-- Lexicographic order of words, by the order of the symbols (the key order
of the edge maps). -/
def lex_lt : List Char → List Char → Prop
  | [], [] => False
  | [], _ :: _ => True
  | _ :: _, [] => False
  | a :: as, b :: bs => char_lt a b ∨ (a = b ∧ lex_lt as bs)

/-- Lexicographic order of words, reflexive. -/
def lex_le (x y : List Char) : Prop := x = y ∨ lex_lt x y

namespace suffix_tree

/-- The state in which `get_lcs` is called: every suffix of the text ends in
a leaf, and the symbols at the first marker `m1` and at the last index occur
nowhere else in the text. -/
structure QueryPre (t : suffix_tree) (L : Nat → List Char) (m1 : Nat) : Prop where
  inv : t.TreeInv L
  branching : t.Branching
  leaves : t.LeavesOK L t.text.length
  complete : t.Complete L t.text.length
  m1_lt : m1 + 1 < t.text.length
  uniq1 : ∀ y, t.text[y]? = t.text[m1]? → y = m1
  uniq2 : ∀ y, t.text[y]? = t.text[t.text.length - 1]? → y = t.text.length - 1
  len_le : (t.text.length : Int) ≤ INF

/-- The label of `u` starts a suffix that begins in the first string (at an
index up to the first marker). -/
def InFirst (t : suffix_tree) (L : Nat → List Char) (m1 u : Nat) : Prop :=
  ∃ q, q ≤ m1 ∧ Occ t.text q (L u)

/-- The label of `u` starts a suffix that begins in the second string (after
the first marker). -/
def InSecond (t : suffix_tree) (L : Nat → List Char) (m1 u : Nat) : Prop :=
  ∃ q, m1 < q ∧ q < t.text.length ∧ Occ t.text q (L u)

/-- The inner node `v` lies at or below the node `u` and its label starts
suffixes of both strings. -/
def Cand (t : suffix_tree) (L : Nat → List Char) (m1 u v : Nat) : Prop :=
  t.Internal v ∧ t.InFirst L m1 v ∧ t.InSecond L m1 v ∧ (L v).take (L u).length = L u

/-- The subtree of the edge `e` holds a leaf of the first string. -/
def FlagFirst (t : suffix_tree) (L : Nat → List Char) (m1 e : Nat) : Prop :=
  (t.is_open e ∧ t.eb e ≤ m1) ∨ (¬ t.is_open e ∧ t.InFirst L m1 (e + 1))

/-- The subtree of the edge `e` holds a leaf of the second string. -/
def FlagSecond (t : suffix_tree) (L : Nat → List Char) (m1 e : Nat) : Prop :=
  (t.is_open e ∧ m1 < t.eb e) ∨ (¬ t.is_open e ∧ t.InSecond L m1 (e + 1))

end suffix_tree

namespace suffix_tree

/-- The search result `r` reports the node at the end of the closed edge `e'`:
a deepest node at or below `u` whose label starts suffixes of both strings,
the least in lexicographic order among those of its depth. -/
structure Witness (t : suffix_tree) (L : Nat → List Char) (m1 u : Nat) (r : search_result)
    (e' : Nat) : Prop where
  lt : e' < t.edge_count
  closed : ¬ t.is_open e'
  cand : t.Cand L m1 u (e' + 1)
  depth : r.depth = ((L (e' + 1)).length : Int)
  end_index : r.end_index = (t.edge e').end_index
  least : ∀ v, t.Cand L m1 u v → (L v).length = (L (e' + 1)).length →
    lex_le (L (e' + 1)) (L v)

/-- What `find_delimiters` of the inner node `u` returns. -/
structure NodeSpec (t : suffix_tree) (L : Nat → List Char) (m1 u : Nat) (r : search_result) :
    Prop where
  first : r.first = true ↔ t.InFirst L m1 u
  second : r.second = true ↔ t.InSecond L m1 u
  none : ¬ (t.InFirst L m1 u ∧ t.InSecond L m1 u) → r.depth = -1
  upper : t.InFirst L m1 u → t.InSecond L m1 u →
    ∀ v, t.Cand L m1 u v → ((L v).length : Int) ≤ r.depth
  wit : t.InFirst L m1 u → t.InSecond L m1 u →
    (r.depth = ((L u).length : Int) ∧ r.end_index = -1) ∨
      ∃ e', t.Witness L m1 u r e' ∧ (L u).length < (L (e' + 1)).length

/-- What `find_delimiters` of the edge `e` returns. -/
structure EdgeSpec (t : suffix_tree) (L : Nat → List Char) (m1 e : Nat) (r : search_result) :
    Prop where
  first : r.first = true ↔ t.FlagFirst L m1 e
  second : r.second = true ↔ t.FlagSecond L m1 e
  none : (t.is_open e ∨ ¬ (t.InFirst L m1 (e + 1) ∧ t.InSecond L m1 (e + 1))) → r.depth = -1
  upper : ¬ t.is_open e → ∀ v, t.Cand L m1 (e + 1) v → ((L v).length : Int) ≤ r.depth
  wit : ¬ t.is_open e → t.InFirst L m1 (e + 1) → t.InSecond L m1 (e + 1) →
    ∃ e', t.Witness L m1 (e + 1) r e'

/-- The invariant of the `for` loop of the node `u` after the edges `done`. -/
structure LoopAcc (t : suffix_tree) (L : Nat → List Char) (m1 u : Nat)
    (done : List (Char × Nat)) (r : search_result) : Prop where
  first : r.first = true ↔ ∃ p, p ∈ done ∧ t.FlagFirst L m1 p.2
  second : r.second = true ↔ ∃ p, p ∈ done ∧ t.FlagSecond L m1 p.2
  depth_ge : ((L u).length : Int) ≤ r.depth
  upper : ∀ p, p ∈ done → ¬ t.is_open p.2 → ∀ v, t.Cand L m1 (p.2 + 1) v →
    ((L v).length : Int) ≤ r.depth
  wit : (r.depth = ((L u).length : Int) ∧ r.end_index = -1) ∨
    ∃ p e', p ∈ done ∧ ¬ t.is_open p.2 ∧ e' < t.edge_count ∧ ¬ t.is_open e' ∧
      t.Cand L m1 (p.2 + 1) (e' + 1) ∧ r.depth = ((L (e' + 1)).length : Int) ∧
      (L u).length < (L (e' + 1)).length ∧ r.end_index = (t.edge e').end_index ∧
      ∀ p2, p2 ∈ done → ¬ t.is_open p2.2 → ∀ v, t.Cand L m1 (p2.2 + 1) v →
        (L v).length = (L (e' + 1)).length → lex_le (L (e' + 1)) (L v)

end suffix_tree


namespace suffix_tree

/-- Number of open leaf edges (`end_index = INF`) among the edges allocated so far. -/
def leaf_count (t : suffix_tree) : Nat :=
  ((List.range t.edge_count).filter (fun e => decide ((t.edge e).end_index = INF))).length

/-- Number of open leaf edges at the addresses from `k` on: the leaf edges
allocated since the edge counter was `k`. -/
def new_leaf_count (t : suffix_tree) (k : Nat) : Nat :=
  ((List.range t.edge_count).filter
    (fun e => decide (k ≤ e) && decide ((t.edge e).end_index = INF))).length

/-- The root is an allocated node and its suffix link is null. -/
def RootNull (t : suffix_tree) : Prop :=
  t.root < t.node_count ∧ (t.node t.root).suffix_link = none

/-- The text is a string of `k` symbols, a terminator, the same `k` symbols
once more and a second terminator that differs from the first; the tree is
the complete tree of this text. -/
structure Doubled (t : suffix_tree) (L : Nat → List Char) (k : Nat) : Prop where
  inv : t.TreeInv L
  branching : t.Branching
  complete : t.Complete L t.text.length
  first : t.FirstOcc L
  len : t.text.length = 2 * k + 2
  len_le : (t.text.length : Int) ≤ INF
  rep : ∀ x, x < k → t.text[k + 1 + x]? = t.text[x]?
  ne : t.text[k]? ≠ t.text[2 * k + 1]?

/-- The label of the node `u` is a prefix of the doubled string. -/
def OnPath (t : suffix_tree) (L : Nat → List Char) (k u : Nat) : Prop :=
  Occ t.text 0 (L u) ∧ (L u).length ≤ k

/-- The result of `find_delimiters` at the inner node `u` of the tree of a
doubled string of `k` symbols, the markers being `k` and `2 * k + 1`. -/
structure DoubledNode (t : suffix_tree) (L : Nat → List Char) (k u : Nat) (r : search_result) :
    Prop where
  far : (∀ f, f < t.edge_count → t.es f = u → k < t.eb f) → r = ⟨-1, false, true, -1⟩
  off : ¬ t.OnPath L k u → r.depth < (k : Int)
  path : t.OnPath L k u → (L u).length < k → r = ⟨(k : Int), true, true, (k : Int) - 1⟩
  top : t.OnPath L k u → (L u).length = k → r = ⟨(k : Int), true, true, -1⟩

/-- The result of `find_delimiters` at the edge `e` of the tree of a doubled
string of `k` symbols, the markers being `k` and `2 * k + 1`. -/
structure DoubledEdge (t : suffix_tree) (L : Nat → List Char) (k e : Nat) (r : search_result) :
    Prop where
  far : k < t.eb e → r = ⟨-1, false, true, -1⟩
  off : ¬ (¬ t.is_open e ∧ t.OnPath L k (e + 1)) → r.depth < (k : Int)
  path : ¬ t.is_open e → t.OnPath L k (e + 1) → r = ⟨(k : Int), true, true, (k : Int) - 1⟩
  mark : t.eb e = k → r.first = true

end suffix_tree


/-! ## Segments and occurrences -/

theorem seg_length (T : List Char) (b l : Nat) :
    (seg T b l).length = min l (T.length - b) := by
  simp [seg]

theorem seg_length_of_le {T : List Char} {b l : Nat} (h : b + l ≤ T.length) :
    (seg T b l).length = l := by
  rw [seg_length]; omega

theorem seg_getElem? (T : List Char) (b l x : Nat) :
    (seg T b l)[x]? = if x < l then T[b + x]? else none := by
  simp [seg, List.getElem?_take, List.getElem?_drop]

theorem seg_zero (T : List Char) (b : Nat) : seg T b 0 = [] := by
  simp [seg]

theorem occ_nil (T : List Char) (q : Nat) : Occ T q [] := by
  simp [Occ, seg]

theorem occ_length {T : List Char} {q : Nat} {w : List Char} (h : Occ T q w) :
    w.length ≤ T.length - q := by
  have := congrArg List.length h
  rw [seg_length] at this
  omega

theorem occ_bound {T : List Char} {q : Nat} {w : List Char} (h : Occ T q w)
    (hw : 0 < w.length) : q + w.length ≤ T.length := by
  have := occ_length h
  omega

theorem occ_iff {T : List Char} {q : Nat} {w : List Char} :
    Occ T q w ↔ ∀ x, x < w.length → T[q + x]? = w[x]? := by
  constructor
  · intro h x hx
    have := congrArg (fun l => l[x]?) h
    simp only [seg_getElem?, hx, if_true] at this
    exact this
  · intro h
    apply List.ext_getElem?
    intro x
    rw [seg_getElem?]
    by_cases hx : x < w.length
    · simp [hx, h x hx]
    · simp [hx, List.getElem?_eq_none (not_lt.mp hx)]

theorem occ_seg {T : List Char} {q l : Nat} (h : q + l ≤ T.length) : Occ T q (seg T q l) := by
  unfold Occ
  rw [seg_length_of_le h]

theorem occ_eq_seg {T : List Char} {q : Nat} {w : List Char} (h : Occ T q w) :
    w = seg T q w.length := h.symm

theorem occ_get {T : List Char} {q : Nat} {w : List Char} (h : Occ T q w) {x : Nat}
    (hx : x < w.length) : T[q + x]? = some (w[x]) := by
  rw [occ_iff.mp h x hx, List.getElem?_eq_getElem hx]

theorem occ_take {T : List Char} {q : Nat} {w : List Char} (h : Occ T q w) (l : Nat) :
    Occ T q (w.take l) := by
  rw [occ_iff] at *
  intro x hx
  simp only [List.length_take] at hx
  rw [h x (by omega), List.getElem?_take]
  simp [show x < l by omega]

theorem occ_drop {T : List Char} {q : Nat} {w : List Char} (h : Occ T q w) (k : Nat) :
    Occ T (q + k) (w.drop k) := by
  rw [occ_iff] at *
  intro x hx
  simp only [List.length_drop] at hx
  rw [List.getElem?_drop, ← h (k + x) (by omega), Nat.add_assoc]

theorem occ_eq_of_length {T : List Char} {q : Nat} {w w' : List Char} (h : Occ T q w)
    (h' : Occ T q w') (hl : w.length = w'.length) : w = w' := by
  rw [← h, ← h', hl]

theorem occ_append_text {T : List Char} {q : Nat} {w : List Char} (h : Occ T q w)
    (T' : List Char) : Occ (T ++ T') q w := by
  rw [occ_iff] at *
  intro x hx
  have hb := h x hx
  have : q + x < T.length := by
    by_contra hc
    rw [List.getElem?_eq_none (not_lt.mp hc), List.getElem?_eq_getElem hx] at hb
    exact absurd hb (by simp)
  rw [List.getElem?_append_left this, hb]

theorem occ_of_append_text {T T' : List Char} {q : Nat} {w : List Char}
    (h : Occ (T ++ T') q w) (hb : q + w.length ≤ T.length) : Occ T q w := by
  rw [occ_iff] at *
  intro x hx
  rw [← h x hx, List.getElem?_append_left (by omega)]

theorem occ_append_iff {T : List Char} {q : Nat} {w v : List Char} :
    Occ T q (w ++ v) ↔ Occ T q w ∧ Occ T (q + w.length) v := by
  simp only [occ_iff, List.length_append]
  constructor
  · intro h
    constructor
    · intro x hx
      rw [h x (by omega), List.getElem?_append_left hx]
    · intro x hx
      rw [Nat.add_assoc, h (w.length + x) (by omega), List.getElem?_append_right (by omega)]
      simp
  · rintro ⟨h1, h2⟩ x hx
    by_cases hxw : x < w.length
    · rw [h1 x hxw, List.getElem?_append_left hxw]
    · rw [List.getElem?_append_right (by omega)]
      have := h2 (x - w.length) (by omega)
      rw [← this]
      congr 1
      omega

theorem occ_take_eq {T : List Char} {q : Nat} {w v : List Char} (hw : Occ T q w)
    (hv : Occ T q v) (hl : v.length ≤ w.length) : w.take v.length = v := by
  apply occ_eq_of_length (occ_take hw _) hv
  simp [List.length_take, hl]

theorem occ_transfer {T : List Char} {q q' : Nat} {w : List Char} (hw : Occ T q w)
    (hw' : Occ T q' w) {v : List Char} (hv : Occ T q v) (hl : v.length ≤ w.length) :
    Occ T q' v := by
  have := occ_take_eq hw hv hl
  rw [← this]
  exact occ_take hw' _

theorem occ_single {T : List Char} {q : Nat} {c : Char} : Occ T q [c] ↔ T[q]? = some c := by
  rw [occ_iff]
  constructor
  · intro h
    simpa using h 0 (by simp)
  · intro h x hx
    simp only [List.length_singleton] at hx
    have : x = 0 := by omega
    subst this
    simpa using h

theorem occ_iff_substring {T : List Char} {w : List Char} : (∃ q, Occ T q w) ↔ w <:+: T := by
  constructor
  · rintro ⟨q, h⟩
    rw [← h]
    unfold seg
    exact (List.take_prefix _ _).isInfix.trans (List.drop_suffix _ _).isInfix
  · rintro ⟨s, r, h⟩
    refine ⟨s.length, ?_⟩
    subst h
    unfold Occ seg
    simp [List.append_assoc]

theorem seg_succ {T : List Char} {q l : Nat} {c : Char} (h : T[q + l]? = some c) :
    seg T q (l + 1) = seg T q l ++ [c] := by
  have hlt : q + l < T.length := by
    by_contra hc
    rw [List.getElem?_eq_none (not_lt.mp hc)] at h
    exact absurd h (by simp)
  have h1 : Occ T q (seg T q l ++ [c]) := by
    rw [occ_append_iff]
    refine ⟨occ_seg (by omega), ?_⟩
    rw [seg_length_of_le (by omega), occ_single]
    exact h
  rw [← h1]
  simp [seg_length_of_le (show q + l ≤ T.length by omega)]

theorem seg_tail {T : List Char} {q l : Nat} : (seg T q (l + 1)).tail = seg T (q + 1) l := by
  apply List.ext_getElem?
  intro x
  rw [List.getElem?_tail, seg_getElem?, seg_getElem?]
  by_cases hx : x < l
  · simp [hx, show x + 1 < l + 1 by omega]
    congr 1
    omega
  · simp [hx]


namespace suffix_tree

variable {t : suffix_tree} {L : Nat → List Char}

theorem lab_len_closed (h : ¬ t.is_open e) :
    t.lab_len e = ((t.edge e).end_index - (t.edge e).begin_index + 1).toNat := by
  unfold is_open at h
  simp [lab_len, h]

theorem lab_len_open (h : t.is_open e) : t.lab_len e = t.text.length - t.eb e := by
  unfold is_open at h
  simp [lab_len, h]

theorem EdgeOK.lab_len_pos (h : t.EdgeOK L e) : 0 < t.lab_len e := by
  by_cases ho : t.is_open e
  · rw [lab_len_open ho]
    have := h.begin_lt
    omega
  · rw [lab_len_closed ho]
    have := h.closed_le ho
    omega

theorem EdgeOK.pos_add (h : t.EdgeOK L e) : t.edge_pos L e + (L (t.es e)).length = t.eb e := by
  have := h.depth_le
  unfold edge_pos
  omega

theorem TreeInv.internal_lt (h : t.TreeInv L) (hu : t.Internal u) : u < t.node_count := by
  rw [h.counts]
  rcases hu with rfl | ⟨e, he, rfl, _⟩ <;> omega

theorem TreeInv.es_lt (h : t.TreeInv L) (he : e < t.edge_count) : t.es e < t.node_count :=
  h.internal_lt (h.edge_ok e he).start_int

theorem TreeInv.label_pos (h : t.TreeInv L) (hu : t.Internal u) (h0 : u ≠ 0) :
    0 < (L u).length := by
  rcases hu with rfl | ⟨e, he, rfl, ho⟩
  · exact absurd rfl h0
  · rw [(h.edge_ok e he).closed_len ho]
    have := (h.edge_ok e he).lab_len_pos
    omega

theorem TreeInv.eq_root (h : t.TreeInv L) (hu : t.Internal u) (h0 : (L u).length = 0) :
    u = 0 := by
  by_contra hc
  have := h.label_pos hu hc
  omega

theorem TreeInv.on_edge_parent (h : t.TreeInv L) (he : e < t.edge_count)
    (ho : ¬ t.is_open e) : t.OnEdge L e (L (e + 1)) := by
  have ok := h.edge_ok e he
  refine ⟨he, ?_, ?_, ok.closed_occ ho⟩
  · rw [ok.closed_len ho]
    have := ok.lab_len_pos
    omega
  · rw [ok.closed_len ho]

theorem OnEdge.first_char (h : t.TreeInv L) (hw : t.OnEdge L e w) :
    t.text[t.eb e]? = w[(L (t.es e)).length]? := by
  obtain ⟨he, hd, _, ho⟩ := hw
  have := occ_iff.mp ho _ hd
  rw [(h.edge_ok e he).pos_add] at this
  exact this

theorem OnEdge.find (h : t.TreeInv L) (hw : t.OnEdge L e w) :
    ∃ c, w[(L (t.es e)).length]? = some c ∧ (t.node (t.es e)).find_edge c = some e := by
  have hf := hw.first_char h
  obtain ⟨he, hd, _, _⟩ := hw
  refine ⟨w[(L (t.es e)).length], List.getElem?_eq_getElem hd, ?_⟩
  rw [h.find_iff]
  refine ⟨he, rfl, ?_⟩
  rw [hf, List.getElem?_eq_getElem hd]

theorem OnEdge.take_start (h : t.TreeInv L) (hw : t.OnEdge L e w) :
    w.take (L (t.es e)).length = L (t.es e) := by
  obtain ⟨he, hd, _, ho⟩ := hw
  exact occ_take_eq ho (h.edge_ok e he).occ_start (le_of_lt hd)

theorem OnEdge.take_on (hw : t.OnEdge L e w) (l : Nat) (hl : (L (t.es e)).length < l) :
    t.OnEdge L e (w.take l) := by
  obtain ⟨he, hd, hle, ho⟩ := hw
  refine ⟨he, ?_, ?_, occ_take ho l⟩
  · simp only [List.length_take]
    omega
  · simp only [List.length_take]
    omega

private theorem on_edge_unique_aux (h : t.TreeInv L) {n : Nat}
    (ih : ∀ m, m < n → ∀ (w : List Char), w.length = m → ∀ e f,
      t.OnEdge L e w → t.OnEdge L f w → e = f)
    {w : List Char} (hw : w.length = n) {e f : Nat} (he : t.OnEdge L e w)
    (hf : t.OnEdge L f w) (hlt : (L (t.es e)).length < (L (t.es f)).length) : False := by
  have hLf := hf.take_start h
  obtain ⟨hfc, hdf, _, _⟩ := hf
  have hint := (h.edge_ok f hfc).start_int
  have h0 : t.es f ≠ 0 := by
    intro h0
    rw [h0, h.Lroot] at hlt
    simp at hlt
  rcases hint with h0' | ⟨g, hg, hgu, hgo⟩
  · exact h0 h0'
  have hpar := h.on_edge_parent hg hgo
  rw [← hgu] at hpar
  have he' : t.OnEdge L e (L (t.es f)) := by
    rw [← hLf]
    exact he.take_on _ hlt
  have heg : e = g := ih _ (by omega) _ rfl e g he' hpar
  obtain ⟨hec, _, hle, _⟩ := he
  have hcl := (h.edge_ok e hec).closed_len (heg ▸ hgo)
  rw [heg, ← hgu] at hcl
  rw [heg] at hle
  omega

theorem TreeInv.on_edge_unique (h : t.TreeInv L) : ∀ (n : Nat) (w : List Char),
    w.length = n → ∀ e f, t.OnEdge L e w → t.OnEdge L f w → e = f := by
  intro n
  induction n using Nat.strong_induction_on with
  | _ n ih =>
    intro w hw e f he hf
    rcases Nat.lt_trichotomy (L (t.es e)).length (L (t.es f)).length with hlt | heq | hgt
    · exact (on_edge_unique_aux h ih hw he hf hlt).elim
    · have hLe := he.take_start h
      have hLf := hf.take_start h
      have hL : L (t.es e) = L (t.es f) := by rw [← hLe, ← hLf, heq]
      have hde := he.2.1
      have hie := (h.edge_ok e he.1).start_int
      have hif := (h.edge_ok f hf.1).start_int
      have hu : t.es e = t.es f := by
        by_cases hz : (L (t.es e)).length = 0
        · rw [h.eq_root hie hz, h.eq_root hif (heq ▸ hz)]
        · have h0e : t.es e ≠ 0 := by
            intro h0; rw [h0, h.Lroot] at hz; simp at hz
          have h0f : t.es f ≠ 0 := by
            intro h0; rw [h0, h.Lroot] at heq; exact hz heq
          rcases hie with h0 | ⟨g, hg, hgu, hgo⟩
          · exact absurd h0 h0e
          rcases hif with h0 | ⟨g', hg', hgu', hgo'⟩
          · exact absurd h0 h0f
          have hp := h.on_edge_parent hg hgo
          have hp' := h.on_edge_parent hg' hgo'
          rw [← hgu] at hp
          rw [← hgu', ← hL] at hp'
          have := ih _ (by omega) _ rfl g g' hp hp'
          omega
      obtain ⟨c, hc, hfe⟩ := he.find h
      obtain ⟨c', hc', hff⟩ := hf.find h
      rw [← heq, hc] at hc'
      cases hc'
      rw [hu, hff] at hfe
      exact (Option.some.inj hfe).symm
    · exact (on_edge_unique_aux h ih hw hf he hgt).elim

theorem TreeInv.on_edge_eq (h : t.TreeInv L) (he : t.OnEdge L e w) (hf : t.OnEdge L f w) :
    e = f :=
  h.on_edge_unique _ w rfl e f he hf

theorem TreeInv.label_inj (h : t.TreeInv L) (hu : t.Internal u) (hv : t.Internal v)
    (hL : L u = L v) : u = v := by
  by_cases hz : (L u).length = 0
  · rw [h.eq_root hu hz, h.eq_root hv (hL ▸ hz)]
  · have h0u : u ≠ 0 := by
      intro h0; rw [h0, h.Lroot] at hz; simp at hz
    have h0v : v ≠ 0 := by
      intro h0; rw [hL, h0, h.Lroot] at hz; simp at hz
    rcases hu with h0 | ⟨g, hg, hgu, hgo⟩
    · exact absurd h0 h0u
    rcases hv with h0 | ⟨g', hg', hgu', hgo'⟩
    · exact absurd h0 h0v
    have hp := h.on_edge_parent hg hgo
    have hp' := h.on_edge_parent hg' hgo'
    rw [← hgu] at hp
    rw [← hgu', ← hL] at hp'
    have := h.on_edge_eq hp hp'
    omega

end suffix_tree


namespace suffix_tree

variable {t : suffix_tree} {L : Nat → List Char}

theorem take_of_take_eq {w v : List Char} {m l : Nat} (h : w.take m = v) (hl : l ≤ m) :
    v.take l = w.take l := by
  rw [← h, List.take_take, Nat.min_eq_left hl]

theorem TreeInv.spelled_label_take (h : t.TreeInv L) : ∀ (n u : Nat), t.Internal u →
    (L u).length = n → ∀ l, t.Spelled L ((L u).take l) := by
  intro n
  induction n using Nat.strong_induction_on with
  | _ n ih =>
    intro u hu hn l
    rcases hu with rfl | ⟨g, hg, rfl, hgo⟩
    · left
      rw [h.Lroot]
      simp
    · have hp := h.on_edge_parent hg hgo
      by_cases hl : (L (t.es g)).length < l
      · right
        exact ⟨g, hp.take_on l hl⟩
      · have hts := hp.take_start h
        have : (L (g + 1)).take l = (L (t.es g)).take l := by
          rw [take_of_take_eq hts (by omega)]
        rw [this]
        exact ih _ (by have := hp.2.1; omega) _ (h.edge_ok g hg).start_int rfl l

theorem TreeInv.spelled_label (h : t.TreeInv L) (hu : t.Internal u) : t.Spelled L (L u) := by
  have := h.spelled_label_take _ u hu rfl (L u).length
  simpa using this

theorem TreeInv.spelled_take (h : t.TreeInv L) (hw : t.Spelled L w) (l : Nat) :
    t.Spelled L (w.take l) := by
  rcases hw with rfl | ⟨e, he⟩
  · left; simp
  · by_cases hl : (L (t.es e)).length < l
    · right
      exact ⟨e, he.take_on l hl⟩
    · have hts := he.take_start h
      have : w.take l = (L (t.es e)).take l := by
        rw [take_of_take_eq hts (by omega)]
      rw [this]
      exact h.spelled_label_take _ _ (h.edge_ok e he.1).start_int rfl l

/-- The trie property: below an inner node whose label is a proper prefix of a
spelled word there is an edge in the direction of the word, and the word ends
on that edge or passes its end node. -/
theorem TreeInv.trie_aux (h : t.TreeInv L) : ∀ (n e : Nat) (w : List Char),
    (L (t.es e)).length = n → t.OnEdge L e w → ∀ u, t.Internal u →
    w.take (L u).length = L u → (L u).length < w.length →
    ∃ f, f < t.edge_count ∧ t.es f = u ∧ t.text[t.eb f]? = w[(L u).length]? ∧
      (t.OnEdge L f w ∨ (¬ t.is_open f ∧ (L (f + 1)).length < w.length ∧
        w.take (L (f + 1)).length = L (f + 1))) := by
  intro n
  induction n using Nat.strong_induction_on with
  | _ n ih =>
    intro e w hn he u hu hpre hlt
    have hts := he.take_start h
    have hes := (h.edge_ok e he.1).start_int
    rcases Nat.lt_trichotomy (L u).length n with hlt' | heq | hgt
    · -- the start of `e` lies below `u`
      have h0 : t.es e ≠ 0 := by
        intro h0; rw [h0, h.Lroot] at hn; simp at hn; omega
      rcases hes with h0' | ⟨g, hg, hgu, hgo⟩
      · exact absurd h0' h0
      have hp := h.on_edge_parent hg hgo
      rw [← hgu] at hp
      have hpre' : (L (t.es e)).take (L u).length = L u := by
        rw [take_of_take_eq hts (by omega), hpre]
      obtain ⟨f, hf, hfu, hfc, hcase⟩ :=
        ih _ (by have := hp.2.1; omega) g (L (t.es e)) rfl hp u hu hpre' (by omega)
      refine ⟨f, hf, hfu, ?_, Or.inr ?_⟩
      · rw [hfc, ← hts, List.getElem?_take]
        simp [hn, hlt']
      · rcases hcase with hon | ⟨hfo, hfl, hft⟩
        · have hfg : f = g := h.on_edge_eq hon hp
          rw [hfg, ← hgu]
          exact ⟨hgo, by have := he.2.1; omega, hts⟩
        · refine ⟨hfo, by have := he.2.1; omega, ?_⟩
          rw [← take_of_take_eq hts (by omega), hft]
    · have hL : L u = L (t.es e) := by rw [← hpre, ← hts, heq, hn]
      have hue : u = t.es e := h.label_inj hu hes hL
      refine ⟨e, he.1, hue.symm, ?_, Or.inl he⟩
      rw [he.first_char h, hL]
    · exfalso
      have h0 : u ≠ 0 := by
        intro h0; rw [h0, h.Lroot] at hgt; simp at hgt
      rcases hu with h0' | ⟨g, hg, hgu, hgo⟩
      · exact absurd h0' h0
      have hp := h.on_edge_parent hg hgo
      rw [← hgu] at hp
      have he' : t.OnEdge L e (L u) := by
        rw [← hpre]
        exact he.take_on _ (by omega)
      have heg : e = g := h.on_edge_eq he' hp
      have hcl := (h.edge_ok e he.1).closed_len (heg ▸ hgo)
      rw [heg, ← hgu] at hcl
      have := he.2.2.1
      rw [heg] at this
      omega

theorem TreeInv.trie (h : t.TreeInv L) (hw : t.Spelled L w) (hu : t.Internal u)
    (hpre : w.take (L u).length = L u) (hlt : (L u).length < w.length) :
    ∃ f, f < t.edge_count ∧ t.es f = u ∧ t.text[t.eb f]? = w[(L u).length]? ∧
      (t.OnEdge L f w ∨ (¬ t.is_open f ∧ (L (f + 1)).length < w.length ∧
        w.take (L (f + 1)).length = L (f + 1))) := by
  rcases hw with rfl | ⟨e, he⟩
  · simp at hlt
  · exact h.trie_aux _ e w rfl he u hu hpre hlt

end suffix_tree


namespace suffix_tree

variable {t : suffix_tree} {L : Nat → List Char}

theorem get_char_nat (t : suffix_tree) (k : Nat) : t.get_char (k : Int) = t.text[k]? := by
  simp [get_char]

theorem seg_getElem?_lt {T : List Char} {q l x : Nat} (h : q + l ≤ T.length) (hx : x < l) :
    (seg T q l)[x]? = T[q + x]? := by
  rw [seg_getElem?]; simp [hx]

/-- Facts about the edge below the origin of a suffix that is not yet at its end. -/
theorem SuffixOK.edge (h : t.TreeInv L) {s : suffix_tree_suffix} {j p1 : Nat}
    (hs : t.SuffixOK L s j p1) (hlt : j + (L s.origin_node).length < p1) :
    ∃ f ch, f < t.edge_count ∧ t.es f = s.origin_node ∧
      t.get_char s.begin_index = some ch ∧
      (t.node s.origin_node).find_edge ch = some f ∧
      (t.OnEdge L f (seg t.text j (p1 - j)) ∨
        (¬ t.is_open f ∧ (L (f + 1)).length < p1 - j ∧ Occ t.text j (L (f + 1)))) := by
  have hb := hs.bound
  have hle := hs.le
  have hwl : (seg t.text j (p1 - j)).length = p1 - j := seg_length_of_le (by omega)
  have hocc : Occ t.text j (seg t.text j (p1 - j)) := occ_seg (by omega)
  have hpre : (seg t.text j (p1 - j)).take (L s.origin_node).length = L s.origin_node :=
    occ_take_eq hocc hs.occ (by omega)
  obtain ⟨f, hf, hfu, hfc, hcase⟩ := h.trie hs.spelled hs.int hpre (by omega)
  obtain ⟨c, hch⟩ : ∃ c, t.text[j + (L s.origin_node).length]? = some c :=
    ⟨_, List.getElem?_eq_getElem (by omega)⟩
  rw [seg_getElem?_lt (by omega) (by omega)] at hfc
  refine ⟨f, c, hf, hfu, ?_, ?_, ?_⟩
  · rw [hs.begin_eq, get_char_nat]
    exact hch
  · rw [h.find_iff]
    exact ⟨hf, hfu, hfc.trans hch⟩
  · rcases hcase with hon | ⟨hfo, hfl, hft⟩
    · exact Or.inl hon
    · refine Or.inr ⟨hfo, by omega, ?_⟩
      rw [← hft]
      exact occ_take hocc _

theorem TreeInv.span_closed (h : t.TreeInv L) (hf : f < t.edge_count) (ho : ¬ t.is_open f) :
    (t.edge f).get_span = (t.lab_len f : Int) - 1 := by
  have := (h.edge_ok f hf).closed_le ho
  rw [lab_len_closed ho]
  unfold suffix_tree_edge.get_span
  omega

theorem TreeInv.span_open (h : t.TreeInv L) (hf : f < t.edge_count) (ho : t.is_open f) :
    (t.edge f).get_span = INF - (t.eb f : Int) := by
  have := (h.edge_ok f hf).begin_nonneg
  unfold is_open at ho
  unfold suffix_tree_edge.get_span eb
  rw [ho]
  omega

theorem canonize_loop_ok (h : t.TreeInv L) (hn : (t.text.length : Int) ≤ INF) {j p1 : Nat} :
    ∀ (fuel : Nat) (s : suffix_tree_suffix) (f : Nat) (span : Int),
    t.SuffixOK L s j p1 → p1 + 2 ≤ fuel + (j + (L s.origin_node).length) →
    ((j + (L s.origin_node).length < p1 ∧
        (∃ ch, t.get_char s.begin_index = some ch ∧
          (t.node s.origin_node).find_edge ch = some f) ∧ span = (t.edge f).get_span) ∨
      (j + (L s.origin_node).length = p1 ∧ 0 ≤ span)) →
    ∃ s', t.canonize_loop fuel f span s = some s' ∧ t.SuffixOK L s' j p1 ∧ t.Canonical s' := by
  intro fuel
  induction fuel with
  | zero =>
    intro s f span hs hfuel _
    have := hs.le
    omega
  | succ fuel ih =>
    intro s f span hs hfuel hcase
    have hbe := hs.begin_eq
    have hee := hs.end_eq
    rcases hcase with ⟨hlt, ⟨ch, hch, hfind⟩, hspan⟩ | ⟨heq, hspan⟩
    · obtain ⟨f', ch', hf', hfu, hch', hfind', hon⟩ := hs.edge h hlt
      rw [hch] at hch'
      cases hch'
      rw [hfind] at hfind'
      cases hfind'
      have ok := h.edge_ok f hf'
      have hb := hs.bound
      have hwl : (seg t.text j (p1 - j)).length = p1 - j := seg_length_of_le (by omega)
      have hocc : Occ t.text j (seg t.text j (p1 - j)) := occ_seg (by omega)
      rw [canonize_loop]
      by_cases hc : span ≤ s.get_span
      · rw [if_pos hc]
        have hgs : s.get_span = (p1 : Int) - 1 - ((j + (L s.origin_node).length : Nat) : Int) := by
          unfold suffix_tree_suffix.get_span
          rw [hbe, hee]
        -- the edge is closed
        have hclosed : ¬ t.is_open f := by
          intro ho
          rcases hon with hon | ⟨hfo, _, _⟩
          · have h1 := hon.2.2.1
            rw [hwl, lab_len_open ho, hfu] at h1
            have h2 := h.span_open hf' ho
            have h3 := ok.begin_lt
            rw [hspan, h2, hgs] at hc
            omega
          · exact hfo ho
        have hsp := h.span_closed hf' hclosed
        have hlen := ok.closed_len hclosed
        rw [hfu] at hlen
        have hlp := ok.lab_len_pos
        -- the label of the end node occurs at `j`
        have hocc1 : Occ t.text j (L (f + 1)) ∧ (L (f + 1)).length ≤ p1 - j := by
          rcases hon with hon | ⟨_, hl, ho⟩
          · have h1 := hon.2.2.1
            rw [hwl, hfu] at h1
            have hll : (L (f + 1)).length = p1 - j := by
              rw [hspan, hsp, hgs] at hc
              omega
            have := occ_eq_of_length (ok.closed_occ hclosed) hon.2.2.2 (by rw [hwl, hll])
            rw [this]
            exact ⟨hocc, by rw [hwl]⟩
          · exact ⟨ho, by omega⟩
        have hs1 : t.SuffixOK L ⟨f + 1, s.begin_index + span + 1, s.end_index⟩ j p1 := by
          refine ⟨Or.inr ⟨f, hf', rfl, hclosed⟩, ?_, hee, ?_, hb, hocc1.1, hs.spelled⟩
          · simp only [hbe, hspan, hsp, hlen]
            omega
          · simp only
            omega
        simp only [ok.end_node]
        by_cases hc2 : s.begin_index + span + 1 ≤ s.end_index
        · rw [if_pos hc2]
          have hlt1 : j + (L (f + 1)).length < p1 := by
            rw [hbe, hee, hspan, hsp] at hc2
            omega
          obtain ⟨f1, ch1, hf1, hfu1, hch1, hfind1, hon1⟩ := hs1.edge h hlt1
          simp only at hch1 hfind1
          rw [hch1]
          simp only
          rw [hfind1]
          simp only
          apply ih _ f1 _ hs1
          · simp only
            omega
          · left
            exact ⟨hlt1, ⟨ch1, hch1, hfind1⟩, rfl⟩
        · rw [if_neg hc2]
          apply ih _ f _ hs1
          · simp only
            omega
          · right
            constructor
            · simp only
              rw [hbe, hee, hspan, hsp] at hc2
              omega
            · rw [hspan, hsp]
              omega
      · rw [if_neg hc]
        refine ⟨s, rfl, hs, Or.inr ⟨ch, f, hch, hfind, ?_⟩⟩
        rw [← hspan]
        omega
    · rw [canonize_loop]
      have hgs : s.get_span = -1 := by
        unfold suffix_tree_suffix.get_span
        rw [hbe, hee]
        omega
      rw [if_neg (by rw [hgs]; omega)]
      refine ⟨s, rfl, hs, Or.inl ?_⟩
      rw [hbe, hee]
      omega

theorem canonize_suffix_ok (h : t.TreeInv L) (hn : (t.text.length : Int) ≤ INF) {j p1 : Nat}
    {s : suffix_tree_suffix} (hs : t.SuffixOK L s j p1) :
    ∃ s', t.canonize_suffix s = some s' ∧ t.SuffixOK L s' j p1 ∧ t.Canonical s' := by
  unfold canonize_suffix
  have hbe := hs.begin_eq
  have hee := hs.end_eq
  have hle := hs.le
  by_cases hx : s.is_explicit = true
  · rw [if_pos hx]
    refine ⟨s, rfl, hs, Or.inl ?_⟩
    simpa [suffix_tree_suffix.is_explicit] using hx
  · rw [if_neg hx]
    have hlt : j + (L s.origin_node).length < p1 := by
      simp only [suffix_tree_suffix.is_explicit, decide_eq_true_eq, hbe, hee] at hx
      omega
    obtain ⟨f, ch, hf, hfu, hch, hfind, hon⟩ := hs.edge h hlt
    rw [hch]
    simp only
    rw [hfind]
    simp only
    apply canonize_loop_ok h hn _ s f _ hs
    · have := hs.bound
      omega
    · left
      exact ⟨hlt, ⟨ch, hch, hfind⟩, rfl⟩

end suffix_tree


/-! ## The edge maps -/

theorem char_value_inj {a b : Char} (h : char_value a = char_value b) : a = b := by
  have hn : a.toNat = b.toNat := by
    unfold char_value at h
    split at h <;> split at h <;> omega
  rw [← Char.ofNat_toNat a, ← Char.ofNat_toNat b, hn]

theorem char_lt_irrefl (a : Char) : ¬ char_lt a a := by
  unfold char_lt
  exact lt_irrefl _

theorem char_lt_trans {a b c : Char} (h1 : char_lt a b) (h2 : char_lt b c) : char_lt a c := by
  unfold char_lt at *
  exact lt_trans h1 h2

theorem char_lt_asymm {a b : Char} (h : char_lt a b) : ¬ char_lt b a := by
  unfold char_lt at *
  exact lt_asymm h

theorem char_lt_of_not {c k : Char} (h1 : ¬ char_lt c k) (h2 : c ≠ k) : char_lt k c := by
  unfold char_lt at *
  exact lt_of_le_of_ne (not_lt.mp h1) (fun e => h2 (char_value_inj e).symm)

theorem map_find_none_of_lt {c : Char} :
    ∀ {m : List (Char × Nat)}, (∀ p ∈ m, char_lt c p.1) → map_find c m = none
  | [], _ => rfl
  | (k, v) :: rest, h => by
    have hk : char_lt c k := h (k, v) (List.mem_cons_self _ _)
    have hne : k ≠ c := fun e => by rw [e] at hk; exact char_lt_irrefl _ hk
    simp only [map_find, if_neg hne]
    exact map_find_none_of_lt (fun p hp => h p (List.mem_cons_of_mem _ hp))

theorem map_find_mem {c : Char} {e : Nat} :
    ∀ {m : List (Char × Nat)}, map_find c m = some e → (c, e) ∈ m
  | [], h => by simp [map_find] at h
  | (k, v) :: rest, h => by
    simp only [map_find] at h
    by_cases hk : k = c
    · rw [if_pos hk] at h
      cases h
      rw [hk]
      exact List.mem_cons_self _ _
    · rw [if_neg hk] at h
      exact List.mem_cons_of_mem _ (map_find_mem h)

theorem map_mem_find {c : Char} {e : Nat} :
    ∀ {m : List (Char × Nat)}, map_sorted m → (c, e) ∈ m → map_find c m = some e
  | [], _, h => by simp at h
  | (k, v) :: rest, hs, h => by
    rw [map_sorted, List.pairwise_cons] at hs
    simp only [map_find]
    rcases List.mem_cons.mp h with heq | hmem
    · cases heq
      simp
    · have hlt : char_lt k c := hs.1 (c, e) hmem
      have hne : k ≠ c := fun e => by rw [e] at hlt; exact char_lt_irrefl _ hlt
      rw [if_neg hne]
      exact map_mem_find hs.2 hmem

theorem map_insert_mem {c : Char} {e : Nat} {p : Char × Nat} :
    ∀ {m : List (Char × Nat)}, p ∈ map_insert c e m → p = (c, e) ∨ p ∈ m
  | [], h => by
    simp only [map_insert, List.mem_singleton] at h
    exact Or.inl h
  | (k, v) :: rest, h => by
    simp only [map_insert] at h
    by_cases h1 : char_lt c k
    · rw [if_pos h1] at h
      rcases List.mem_cons.mp h with h | h
      · exact Or.inl h
      · exact Or.inr h
    · rw [if_neg h1] at h
      by_cases h2 : c = k
      · rw [if_pos h2] at h
        exact Or.inr h
      · rw [if_neg h2] at h
        rcases List.mem_cons.mp h with h | h
        · exact Or.inr (h ▸ List.mem_cons_self _ _)
        · rcases map_insert_mem h with h | h
          · exact Or.inl h
          · exact Or.inr (List.mem_cons_of_mem _ h)

theorem map_sorted_insert {c : Char} {e : Nat} :
    ∀ {m : List (Char × Nat)}, map_sorted m → map_sorted (map_insert c e m)
  | [], _ => by simp [map_insert, map_sorted]
  | (k, v) :: rest, hs => by
    have hs' := hs
    rw [map_sorted, List.pairwise_cons] at hs
    simp only [map_insert]
    by_cases h1 : char_lt c k
    · rw [if_pos h1, map_sorted, List.pairwise_cons]
      refine ⟨?_, hs'⟩
      intro p hp
      rcases List.mem_cons.mp hp with h | h
      · rw [h]; exact h1
      · exact char_lt_trans h1 (hs.1 p h)
    · rw [if_neg h1]
      by_cases h2 : c = k
      · rw [if_pos h2]; exact hs'
      · rw [if_neg h2, map_sorted, List.pairwise_cons]
        refine ⟨?_, map_sorted_insert hs.2⟩
        intro p hp
        rcases map_insert_mem hp with h | h
        · rw [h]
          exact char_lt_of_not h1 h2
        · exact hs.1 p h

theorem map_erase_mem {c : Char} {p : Char × Nat} :
    ∀ {m : List (Char × Nat)}, p ∈ map_erase c m → p ∈ m
  | [], h => by simp [map_erase] at h
  | (k, v) :: rest, h => by
    simp only [map_erase] at h
    by_cases hk : k = c
    · rw [if_pos hk] at h
      exact List.mem_cons_of_mem _ (map_erase_mem h)
    · rw [if_neg hk] at h
      rcases List.mem_cons.mp h with h | h
      · exact h ▸ List.mem_cons_self _ _
      · exact List.mem_cons_of_mem _ (map_erase_mem h)

theorem map_sorted_erase {c : Char} :
    ∀ {m : List (Char × Nat)}, map_sorted m → map_sorted (map_erase c m)
  | [], _ => by simp [map_erase, map_sorted]
  | (k, v) :: rest, hs => by
    rw [map_sorted, List.pairwise_cons] at hs
    simp only [map_erase]
    by_cases hk : k = c
    · rw [if_pos hk]
      exact map_sorted_erase hs.2
    · rw [if_neg hk, map_sorted, List.pairwise_cons]
      exact ⟨fun p hp => hs.1 p (map_erase_mem hp), map_sorted_erase hs.2⟩

theorem map_find_erase {c k : Char} :
    ∀ {m : List (Char × Nat)}, map_find k (map_erase c m) = if k = c then none else map_find k m
  | [] => by simp [map_erase, map_find]
  | (k', v) :: rest => by
    simp only [map_erase]
    by_cases hk : k' = c
    · rw [if_pos hk, map_find_erase]
      by_cases hkc : k = c
      · simp [hkc]
      · have : k' ≠ k := fun e => hkc (e ▸ hk)
        simp [hkc, map_find, this]
    · rw [if_neg hk]
      simp only [map_find]
      by_cases hkk : k' = k
      · have : k ≠ c := fun e => hk (hkk ▸ e)
        simp [hkk, this]
      · rw [if_neg hkk, if_neg hkk, map_find_erase]

theorem map_find_insert {c k : Char} {e : Nat} :
    ∀ {m : List (Char × Nat)}, map_sorted m →
      map_find k (map_insert c e m) =
        if k = c then (match map_find c m with | some x => some x | none => some e)
        else map_find k m
  | [], _ => by
    by_cases hk : k = c
    · simp [map_insert, map_find, hk]
    · have : c ≠ k := fun e => hk e.symm
      simp [map_insert, map_find, hk, this]
  | (k', v) :: rest, hs => by
    have hs' := hs
    rw [map_sorted, List.pairwise_cons] at hs
    simp only [map_insert]
    by_cases h1 : char_lt c k'
    · rw [if_pos h1]
      have hnone : map_find c ((k', v) :: rest) = none := by
        apply map_find_none_of_lt
        intro p hp
        rcases List.mem_cons.mp hp with h | h
        · rw [h]; exact h1
        · exact char_lt_trans h1 (hs.1 p h)
      by_cases hk : k = c
      · rw [if_pos hk, hnone]
        simp [map_find, hk]
      · rw [if_neg hk]
        have : c ≠ k := fun e => hk e.symm
        rw [map_find, if_neg this]
    · rw [if_neg h1]
      by_cases h2 : c = k'
      · rw [if_pos h2]
        by_cases hk : k = c
        · rw [if_pos hk]
          simp [map_find, hk, h2]
        · rw [if_neg hk]
      · rw [if_neg h2]
        simp only [map_find]
        have h2' : k' ≠ c := fun e => h2 e.symm
        rw [if_neg h2']
        by_cases hkk : k' = k
        · have : k ≠ c := fun e => h2' (hkk ▸ e)
          simp [hkk, this]
        · rw [if_neg hkk, map_find_insert hs.2, if_neg hkk]

theorem map_find_none_nil :
    ∀ {m : List (Char × Nat)}, (∀ c, map_find c m = none) → m = []
  | [], _ => rfl
  | (k, v) :: rest, h => by
    have := h k
    simp [map_find] at this

theorem upd_same {α : Type} (h : Nat → α) (a : Nat) (v : α) : upd h a v a = v := by
  simp [upd]

theorem upd_other {α : Type} (h : Nat → α) {a x : Nat} (v : α) (hx : x ≠ a) :
    upd h a v x = h x := by
  simp [upd, hx]


namespace suffix_tree

variable {t t' : suffix_tree} {L L' : Nat → List Char}

theorem eb_congr (h : t'.edge e = t.edge e) : t'.eb e = t.eb e := by
  unfold eb; rw [h]

theorem es_congr (h : t'.edge e = t.edge e) : t'.es e = t.es e := by
  unfold es; rw [h]

theorem is_open_congr (h : t'.edge e = t.edge e) : t'.is_open e ↔ t.is_open e := by
  unfold is_open; rw [h]

theorem lab_len_congr (h : t'.edge e = t.edge e) (ht : t'.text = t.text) :
    t'.lab_len e = t.lab_len e := by
  unfold lab_len eb; rw [h, ht]

theorem edge_pos_congr (h : t'.edge e = t.edge e) (hL : L' (t.es e) = L (t.es e)) :
    t'.edge_pos L' e = t.edge_pos L e := by
  unfold edge_pos
  rw [eb_congr h, es_congr h, hL]

/-- Inner nodes stay inner when edges are only added and closed edges stay closed. -/
theorem Internal.mono (hu : t.Internal u) (hc : t.edge_count ≤ t'.edge_count)
    (he : ∀ e, e < t.edge_count → ¬ t.is_open e → ¬ t'.is_open e) : t'.Internal u := by
  rcases hu with h0 | ⟨e, hlt, hue, ho⟩
  · exact Or.inl h0
  · exact Or.inr ⟨e, by omega, hue, he e hlt ho⟩

theorem EdgeOK.transfer (h : t.EdgeOK L e) (he : t'.edge e = t.edge e)
    (ht : t'.text = t.text) (hi : t.Internal (t.es e) → t'.Internal (t.es e))
    (hL : L' (t.es e) = L (t.es e)) (hL1 : L' (e + 1) = L (e + 1)) : t'.EdgeOK L' e := by
  have hes := es_congr he
  have heb := eb_congr he
  have hop := is_open_congr he
  have hll := lab_len_congr he ht
  have hep := edge_pos_congr he hL
  constructor
  · rw [he]; exact h.end_node
  · rw [hes]; exact hi h.start_int
  · rw [he]; exact h.begin_nonneg
  · rw [heb, ht]; exact h.begin_lt
  · rw [hes, hL, heb]; exact h.depth_le
  · rw [hes, hL, hep, ht]; exact h.occ_start
  · intro ho; rw [he]; exact h.closed_le (fun x => ho (hop.mpr x))
  · intro ho; rw [he, ht]; exact h.closed_lt (fun x => ho (hop.mpr x))
  · intro ho; rw [hes, hL, hL1, hll]; exact h.closed_len (fun x => ho (hop.mpr x))
  · intro ho; rw [hL1, hep, ht]; exact h.closed_occ (fun x => ho (hop.mpr x))

theorem OnEdge.oe_transfer (h : t.OnEdge L e w) (hc : t.edge_count ≤ t'.edge_count)
    (he : t'.edge e = t.edge e) (ht : t'.text = t.text) (hL : L' (t.es e) = L (t.es e)) :
    t'.OnEdge L' e w := by
  obtain ⟨h1, h2, h3, h4⟩ := h
  refine ⟨by omega, ?_, ?_, ?_⟩
  · rw [es_congr he, hL]; exact h2
  · rw [es_congr he, hL, lab_len_congr he ht]; exact h3
  · rw [edge_pos_congr he hL, ht]; exact h4

/-- Two trees of the same shape: they differ at most in the suffix links, the
active point and the delimiter counter. -/
structure SameShape (t t' : suffix_tree) : Prop where
  text : t'.text = t.text
  root : t'.root = t.root
  node_count : t'.node_count = t.node_count
  edge_count : t'.edge_count = t.edge_count
  edge : t'.edge = t.edge
  edges : ∀ u, (t'.node u).edges = (t.node u).edges

theorem SameShape.ss_refl (t : suffix_tree) : SameShape t t :=
  ⟨rfl, rfl, rfl, rfl, rfl, fun _ => rfl⟩

theorem SameShape.ss_trans {t'' : suffix_tree} (h : SameShape t t') (h' : SameShape t' t'') :
    SameShape t t'' :=
  ⟨h'.text.trans h.text, h'.root.trans h.root, h'.node_count.trans h.node_count,
    h'.edge_count.trans h.edge_count, h'.edge.trans h.edge,
    fun u => (h'.edges u).trans (h.edges u)⟩

theorem SameShape.symm (h : SameShape t t') : SameShape t' t :=
  ⟨h.text.symm, h.root.symm, h.node_count.symm, h.edge_count.symm, h.edge.symm,
    fun u => (h.edges u).symm⟩

theorem SameShape.ss_internal (h : SameShape t t') (hu : t.Internal u) : t'.Internal u :=
  hu.mono (le_of_eq h.edge_count.symm)
    (fun e _ ho => fun x => ho ((is_open_congr (congrFun h.edge e)).mp x))

theorem SameShape.ss_internal_iff (h : SameShape t t') : t'.Internal u ↔ t.Internal u :=
  ⟨h.symm.ss_internal, h.ss_internal⟩

theorem SameShape.ss_find (h : SameShape t t') (u : Nat) (ch : Char) :
    (t'.node u).find_edge ch = (t.node u).find_edge ch := by
  unfold suffix_tree_node.find_edge
  rw [h.edges]

theorem SameShape.get_char (h : SameShape t t') (i : Int) : t'.get_char i = t.get_char i := by
  unfold suffix_tree.get_char
  rw [h.text]

theorem SameShape.ss_tree_inv (h : SameShape t t') (hi : t.TreeInv L) : t'.TreeInv L := by
  constructor
  · rw [h.root]; exact hi.root0
  · rw [h.node_count, h.edge_count]; exact hi.counts
  · exact hi.Lroot
  · intro u ch e
    rw [h.ss_find, h.edge_count, es_congr (congrFun h.edge e), eb_congr (congrFun h.edge e),
      h.text]
    exact hi.find_iff u ch e
  · intro e he
    rw [h.edge_count] at he
    exact (hi.edge_ok e he).transfer (congrFun h.edge e) h.text h.ss_internal rfl rfl
  · intro u
    rw [h.edges]
    exact hi.sorted u

theorem SameShape.ss_first_occ (h : SameShape t t') (hf : t.FirstOcc L) : t'.FirstOcc L := by
  intro e hlt q ho hq
  rw [h.edge_count] at hlt
  have hE : t'.edge e = t.edge e := congrFun h.edge e
  rw [es_congr hE, h.text] at ho
  rw [es_congr hE, eb_congr hE, h.text] at hq
  rw [edge_pos_congr hE rfl]
  exact hf e hlt q ho hq

theorem SameShape.ss_on_edge (h : SameShape t t') (hw : t.OnEdge L e w) : t'.OnEdge L e w :=
  hw.oe_transfer (le_of_eq h.edge_count.symm) (congrFun h.edge e) h.text rfl

theorem SameShape.ss_spelled (h : SameShape t t') (hw : t.Spelled L w) : t'.Spelled L w := by
  rcases hw with h0 | ⟨e, he⟩
  · exact Or.inl h0
  · exact Or.inr ⟨e, h.ss_on_edge he⟩

theorem SameShape.suffix_ok (h : SameShape t t') {s : suffix_tree_suffix} {j p1 : Nat}
    (hs : t.SuffixOK L s j p1) : t'.SuffixOK L s j p1 :=
  ⟨h.ss_internal hs.int, hs.begin_eq, hs.end_eq, hs.le, by rw [h.text]; exact hs.bound,
    by rw [h.text]; exact hs.occ, by rw [h.text]; exact h.ss_spelled hs.spelled⟩

theorem SameShape.canonical (h : SameShape t t') {s : suffix_tree_suffix}
    (hs : t.Canonical s) : t'.Canonical s := by
  rcases hs with h1 | ⟨ch, f, h1, h2, h3⟩
  · exact Or.inl h1
  · refine Or.inr ⟨ch, f, ?_, ?_, ?_⟩
    · rw [h.get_char]; exact h1
    · rw [h.ss_find]; exact h2
    · rw [h.edge]; exact h3

theorem SameShape.canonize_loop (h : SameShape t t') :
    ∀ (fuel f : Nat) (span : Int) (s : suffix_tree_suffix),
      t'.canonize_loop fuel f span s = t.canonize_loop fuel f span s := by
  intro fuel
  induction fuel with
  | zero => intro f span s; rfl
  | succ fuel ih =>
    intro f span s
    rw [suffix_tree.canonize_loop, suffix_tree.canonize_loop]
    simp only [h.edge, h.get_char, suffix_tree_node.find_edge, h.edges, ih]

theorem SameShape.canonize_suffix (h : SameShape t t') (s : suffix_tree_suffix) :
    t'.canonize_suffix s = t.canonize_suffix s := by
  unfold suffix_tree.canonize_suffix
  simp only [h.edge, h.get_char, suffix_tree_node.find_edge, h.edges, h.canonize_loop, h.text]

theorem SameShape.set_active (t : suffix_tree) (a : suffix_tree_suffix) :
    SameShape t { t with active := a } :=
  ⟨rfl, rfl, rfl, rfl, rfl, fun _ => rfl⟩

theorem SameShape.update_suffix_link (t : suffix_tree) (n : Option Nat) (l : Nat) :
    SameShape t (t.update_suffix_link n l) := by
  unfold suffix_tree.update_suffix_link
  cases n with
  | none => exact SameShape.ss_refl t
  | some n =>
    simp only
    by_cases hn : n ≠ t.root
    · rw [if_pos hn]
      refine ⟨rfl, rfl, rfl, rfl, rfl, fun u => ?_⟩
      simp only [upd]
      by_cases hu : u = n
      · simp [hu]
      · simp [hu]
    · rw [if_neg hn]
      exact SameShape.ss_refl t

theorem update_suffix_link_active (t : suffix_tree) (n : Option Nat) (l : Nat) :
    (t.update_suffix_link n l).active = t.active := by
  unfold suffix_tree.update_suffix_link
  cases n with
  | none => rfl
  | some n =>
    simp only
    split <;> rfl

theorem update_suffix_link_link (t : suffix_tree) (n : Option Nat) (l u : Nat) :
    ((t.update_suffix_link n l).node u).suffix_link =
      if n = some u ∧ u ≠ t.root then some l else (t.node u).suffix_link := by
  unfold suffix_tree.update_suffix_link
  cases n with
  | none => simp
  | some n =>
    simp only
    by_cases hn : n ≠ t.root
    · rw [if_pos hn]
      simp only [upd]
      by_cases hu : u = n
      · subst hu; simp [hn]
      · have : ¬ n = u := fun e => hu e.symm
        simp [hu, this]
    · rw [if_neg hn]
      have hn' : n = t.root := not_not.mp hn
      by_cases hu : n = u
      · subst hu; simp [hn']
      · simp [hu]

end suffix_tree


namespace suffix_tree

variable {t : suffix_tree} {L : Nat → List Char}

theorem insert_new_leaf {i u : Nat} {c : Char} (hc : t.text[i]? = some c)
    (hu : u ≠ t.node_count) :
    (t.new_edge (i : Int) INF u).1.insert (t.new_edge (i : Int) INF u).2
      = some (t.leaf_state i u c) := by
  unfold suffix_tree.insert suffix_tree.new_edge
  simp only [upd_same]
  have : suffix_tree.get_char
      { t with node := upd t.node t.node_count (suffix_tree_node.init none),
               node_count := t.node_count + 1,
               edge := upd t.edge t.edge_count ⟨(i : Int), INF, u, t.node_count⟩,
               edge_count := t.edge_count + 1 } (i : Int) = some c := by
    rw [get_char_nat]; exact hc
  rw [this]
  simp only [upd_other _ _ hu, leaf_state]

theorem TreeInv.find_none_of_not_internal (h : t.TreeInv L) (hu : ¬ t.Internal u) (ch : Char) :
    (t.node u).find_edge ch = none := by
  cases hf : (t.node u).find_edge ch with
  | none => rfl
  | some e =>
    have := (h.find_iff u ch e).mp hf
    exact absurd (this.2.1 ▸ (h.edge_ok e this.1).start_int) hu

theorem TreeInv.not_internal_of_ge (h : t.TreeInv L) (hu : t.node_count ≤ u) :
    ¬ t.Internal u := fun hi => by
  have := h.internal_lt hi
  omega

theorem leaf_state_find (h : t.TreeInv L) {i u : Nat} {c : Char} (hu : t.Internal u)
    (hnone : (t.node u).find_edge c = none) (v : Nat) (ch : Char) :
    ((t.leaf_state i u c).node v).find_edge ch =
      if v = u ∧ ch = c then some t.edge_count else (t.node v).find_edge ch := by
  have hult := h.internal_lt hu
  simp only [leaf_state]
  by_cases hv : v = u
  · subst hv
    rw [upd_same]
    simp only [suffix_tree_node.find_edge, suffix_tree_node.add_edge]
    rw [map_find_insert (h.sorted v)]
    by_cases hch : ch = c
    · subst hch
      simp only [suffix_tree_node.find_edge] at hnone
      simp [hnone]
    · simp [hch]
  · rw [upd_other _ _ hv]
    simp only [hv, false_and, if_false]
    by_cases hn : v = t.node_count
    · subst hn
      rw [upd_same, h.find_none_of_not_internal (h.not_internal_of_ge (le_refl _))]
      rfl
    · rw [upd_other _ _ hn]

theorem leaf_state_edge_old {i u : Nat} {c : Char} {e : Nat} (he : e < t.edge_count) :
    (t.leaf_state i u c).edge e = t.edge e := by
  simp only [leaf_state]
  exact upd_other _ _ (by omega)

theorem leaf_state_edge_new {i u : Nat} {c : Char} :
    (t.leaf_state i u c).edge t.edge_count = ⟨(i : Int), INF, u, t.node_count⟩ := by
  simp only [leaf_state, upd_same]

theorem leaf_state_internal {i u : Nat} {c : Char} {v : Nat} (hv : t.Internal v) :
    (t.leaf_state i u c).Internal v :=
  hv.mono (by simp [leaf_state]) (fun e he ho => by
    rw [is_open_congr (leaf_state_edge_old he)]; exact ho)

theorem leaf_state_internal_iff (h : t.TreeInv L) {i u : Nat} {c : Char} {v : Nat} :
    (t.leaf_state i u c).Internal v ↔ t.Internal v := by
  constructor
  · rintro (h0 | ⟨e, he, hve, ho⟩)
    · exact Or.inl h0
    · have he' : e < t.edge_count + 1 := he
      by_cases hee : e = t.edge_count
      · exfalso
        apply ho
        rw [hee]
        unfold is_open
        rw [leaf_state_edge_new]
      · have hlt : e < t.edge_count := by omega
        exact Or.inr ⟨e, hlt, hve, by rw [← is_open_congr (leaf_state_edge_old hlt)]; exact ho⟩
  · exact leaf_state_internal

theorem leaf_state_tree_inv (h : t.TreeInv L) {i u : Nat} {c : Char} (hu : t.Internal u)
    (hnone : (t.node u).find_edge c = none) (hc : t.text[i]? = some c)
    (hd : (L u).length ≤ i) (hocc : Occ t.text (i - (L u).length) (L u)) :
    (t.leaf_state i u c).TreeInv L := by
  have hilt : i < t.text.length := by
    by_contra hcon
    rw [List.getElem?_eq_none (not_lt.mp hcon)] at hc
    exact absurd hc (by simp)
  constructor
  · exact h.root0
  · simp only [leaf_state]; rw [h.counts]
  · exact h.Lroot
  · intro v ch e
    rw [leaf_state_find h hu hnone]
    show _ ↔ (e < t.edge_count + 1 ∧ _ ∧ _)
    by_cases hee : e = t.edge_count
    · subst hee
      have hes : (t.leaf_state i u c).es t.edge_count = u := by
        unfold es; rw [leaf_state_edge_new]
      have heb : (t.leaf_state i u c).eb t.edge_count = i := by
        unfold eb; rw [leaf_state_edge_new]; simp
      rw [hes, heb]
      show _ ↔ (_ ∧ _ ∧ t.text[i]? = some ch)
      rw [hc]
      by_cases hvc : v = u ∧ ch = c
      · rw [if_pos hvc]
        simp [hvc.1, hvc.2]
      · rw [if_neg hvc]
        constructor
        · intro hf
          have := ((h.find_iff v ch _).mp hf).1
          omega
        · rintro ⟨_, h1, h2⟩
          exact absurd ⟨h1.symm, (Option.some.inj h2).symm⟩ hvc
    · have hiff : e < t.edge_count + 1 ↔ e < t.edge_count := by omega
      rw [hiff]
      by_cases hvc : v = u ∧ ch = c
      · rw [if_pos hvc]
        constructor
        · intro hf
          exact absurd (Option.some.inj hf).symm hee
        · rintro ⟨h1, h2, h3⟩
          exfalso
          rw [es_congr (leaf_state_edge_old h1)] at h2
          rw [eb_congr (leaf_state_edge_old h1)] at h3
          have : (t.node v).find_edge ch = some e := (h.find_iff v ch e).mpr ⟨h1, h2, h3⟩
          rw [hvc.1, hvc.2, hnone] at this
          exact absurd this (by simp)
      · rw [if_neg hvc, h.find_iff]
        constructor
        · rintro ⟨h1, h2, h3⟩
          refine ⟨h1, ?_, ?_⟩
          · rw [es_congr (leaf_state_edge_old h1)]; exact h2
          · rw [eb_congr (leaf_state_edge_old h1)]; exact h3
        · rintro ⟨h1, h2, h3⟩
          refine ⟨h1, ?_, ?_⟩
          · rw [← es_congr (leaf_state_edge_old (i := i) (u := u) (c := c) h1)]; exact h2
          · rw [← eb_congr (leaf_state_edge_old (i := i) (u := u) (c := c) h1)]; exact h3
  · intro e he
    have he' : e < t.edge_count + 1 := he
    by_cases hee : e = t.edge_count
    · subst hee
      have hes : (t.leaf_state i u c).es t.edge_count = u := by
        unfold es; rw [leaf_state_edge_new]
      have heb : (t.leaf_state i u c).eb t.edge_count = i := by
        unfold eb; rw [leaf_state_edge_new]; simp
      have hop : (t.leaf_state i u c).is_open t.edge_count := by
        unfold is_open; rw [leaf_state_edge_new]
      constructor
      · rw [leaf_state_edge_new]; exact h.counts
      · rw [hes]; exact leaf_state_internal hu
      · rw [leaf_state_edge_new]; simp
      · rw [heb]; exact hilt
      · rw [hes, heb]; exact hd
      · unfold edge_pos
        rw [hes, heb]; exact hocc
      · intro ho; exact absurd hop ho
      · intro ho; exact absurd hop ho
      · intro ho; exact absurd hop ho
      · intro ho; exact absurd hop ho
    · have hlt : e < t.edge_count := by omega
      exact (h.edge_ok e hlt).transfer (leaf_state_edge_old hlt) rfl leaf_state_internal rfl rfl
  · intro v
    simp only [leaf_state]
    by_cases hv : v = u
    · subst hv
      rw [upd_same]
      exact map_sorted_insert (h.sorted v)
    · rw [upd_other _ _ hv]
      by_cases hn : v = t.node_count
      · subst hn
        rw [upd_same]
        simp [suffix_tree_node.init, map_sorted]
      · rw [upd_other _ _ hn]
        exact h.sorted v

end suffix_tree


namespace suffix_tree

variable {t : suffix_tree} {L : Nat → List Char}

theorem split_edge_eq {e : Nat} {cb d : Char}
    (hcb : t.get_char (t.edge e).begin_index = some cb)
    (hd : t.get_char ((t.edge e).begin_index + t.active.get_span + 1) = some d)
    (horig : t.active.origin_node = t.es e) (hs : t.es e ≠ t.node_count)
    (he : e ≠ t.edge_count) :
    t.split_edge e = some (t.split_state e t.active.get_span cb d, t.node_count) := by
  unfold suffix_tree.get_char at hcb hd
  simp only [suffix_tree.split_edge, suffix_tree.remove, suffix_tree.get_char, hcb,
    suffix_tree.new_edge, suffix_tree.insert, upd_same, upd_other _ _ he, hd]
  simp only [Option.some.injEq, Prod.mk.injEq, and_true]
  unfold split_state
  have hs' : t.active.origin_node ≠ t.node_count := horig ▸ hs
  congr 1
  · funext v
    simp only [upd, horig, es, suffix_tree_node.add_edge, suffix_tree_node.remove_edge,
      suffix_tree_node.init, map_insert]
    by_cases hv : v = t.node_count
    · subst hv
      have : ¬ t.node_count = (t.edge e).start_node := fun x => hs x.symm
      simp [this]
      rfl
    · by_cases hv2 : v = (t.edge e).start_node
      · subst hv2
        simp [hv]
      · simp [hv, hv2]
  · funext x
    simp only [upd, horig, es]

end suffix_tree

namespace suffix_tree

variable {t : suffix_tree} {L : Nat → List Char}

section
variable {e : Nat} {span : Int} {cb d : Char}

theorem split_state_edge_self (he : e < t.edge_count) :
    (t.split_state e span cb d).edge e =
      { t.edge e with begin_index := (t.edge e).begin_index + span + 1,
                      start_node := t.node_count } := by
  simp only [split_state, upd_same]

theorem split_state_edge_new (he : e < t.edge_count) :
    (t.split_state e span cb d).edge t.edge_count =
      ⟨(t.edge e).begin_index, (t.edge e).begin_index + span, t.es e, t.node_count⟩ := by
  simp only [split_state]
  rw [upd_other _ _ (by omega), upd_same]

theorem split_state_edge_old {g : Nat} (hg : g ≠ e) (hg' : g ≠ t.edge_count) :
    (t.split_state e span cb d).edge g = t.edge g := by
  simp only [split_state]
  rw [upd_other _ _ hg, upd_other _ _ hg']

theorem split_state_find (h : t.TreeInv L) (he : e < t.edge_count) (v : Nat) (ch : Char) :
    ((t.split_state e span cb d).node v).find_edge ch =
      if v = t.node_count then (if ch = d then some e else none)
      else if v = t.es e ∧ ch = cb then some t.edge_count
      else (t.node v).find_edge ch := by
  have hs : t.es e ≠ t.node_count := Nat.ne_of_lt (h.es_lt he)
  simp only [split_state]
  by_cases hv : v = t.node_count
  · subst hv
    rw [upd_same, if_pos rfl]
    simp only [suffix_tree_node.find_edge, map_find]
    by_cases hch : ch = d
    · simp [hch]
    · have : ¬ d = ch := fun x => hch x.symm
      simp [hch, this]
  · rw [upd_other _ _ hv, if_neg hv]
    by_cases hv2 : v = t.es e
    · subst hv2
      rw [upd_same]
      simp only [suffix_tree_node.find_edge, suffix_tree_node.add_edge,
        suffix_tree_node.remove_edge]
      rw [map_find_insert (map_sorted_erase (h.sorted _)), map_find_erase, map_find_erase]
      by_cases hch : ch = cb
      · simp [hch]
      · simp [hch]
    · rw [upd_other _ _ hv2]
      simp [hv2]

end

/-- Hypotheses under which the edge `e` is split `len` symbols below its start node. -/
structure SplitPre (t : suffix_tree) (L : Nat → List Char) (e len : Nat) (cb d : Char)
    (α : List Char) : Prop where
  inv : t.TreeInv L
  text_le : (t.text.length : Int) ≤ INF
  lt : e < t.edge_count
  len_pos : 0 < len
  len_lt : len < t.lab_len e
  first : t.text[t.eb e]? = some cb
  next : t.text[t.eb e + len]? = some d
  length : α.length = (L (t.es e)).length + len
  occ : Occ t.text (t.edge_pos L e) α

section
variable {e len : Nat} {cb d : Char} {α : List Char}

theorem SplitPre.next_lt (hp : t.SplitPre L e len cb d α) : t.eb e + len < t.text.length := by
  by_contra hcon
  have := hp.next
  rw [List.getElem?_eq_none (not_lt.mp hcon)] at this
  exact absurd this (by simp)

theorem SplitPre.begin_eq (hp : t.SplitPre L e len cb d α) :
    (t.edge e).begin_index = (t.eb e : Int) := by
  have := (hp.inv.edge_ok e hp.lt).begin_nonneg
  unfold eb
  omega

theorem SplitPre.es_self (hp : t.SplitPre L e len cb d α) :
    (t.split_state e ((len : Int) - 1) cb d).es e = t.node_count := by
  unfold es; rw [split_state_edge_self hp.lt]

theorem SplitPre.eb_self (hp : t.SplitPre L e len cb d α) :
    (t.split_state e ((len : Int) - 1) cb d).eb e = t.eb e + len := by
  unfold eb; rw [split_state_edge_self hp.lt]
  have := (hp.inv.edge_ok e hp.lt).begin_nonneg
  simp only
  omega

theorem SplitPre.open_self (hp : t.SplitPre L e len cb d α) :
    (t.split_state e ((len : Int) - 1) cb d).is_open e ↔ t.is_open e := by
  unfold is_open; rw [split_state_edge_self hp.lt]

theorem SplitPre.es_new (hp : t.SplitPre L e len cb d α) :
    (t.split_state e ((len : Int) - 1) cb d).es t.edge_count = t.es e := by
  unfold es; rw [split_state_edge_new hp.lt]; rfl

theorem SplitPre.eb_new (hp : t.SplitPre L e len cb d α) :
    (t.split_state e ((len : Int) - 1) cb d).eb t.edge_count = t.eb e := by
  unfold eb; rw [split_state_edge_new hp.lt]

theorem SplitPre.closed_new (hp : t.SplitPre L e len cb d α) :
    ¬ (t.split_state e ((len : Int) - 1) cb d).is_open t.edge_count := by
  unfold is_open; rw [split_state_edge_new hp.lt]
  simp only
  have := hp.next_lt
  have := hp.begin_eq
  have := hp.text_le
  omega

theorem SplitPre.lab_len_new (hp : t.SplitPre L e len cb d α) :
    (t.split_state e ((len : Int) - 1) cb d).lab_len t.edge_count = len := by
  rw [lab_len_closed hp.closed_new, split_state_edge_new hp.lt]
  simp only
  omega

theorem SplitPre.lab_len_self (hp : t.SplitPre L e len cb d α) :
    (t.split_state e ((len : Int) - 1) cb d).lab_len e + len = t.lab_len e := by
  have hlt := hp.len_lt
  have hb := hp.begin_eq
  by_cases ho : t.is_open e
  · rw [lab_len_open (hp.open_self.mpr ho), hp.eb_self]
    rw [lab_len_open ho] at hlt ⊢
    show t.text.length - (t.eb e + len) + len = _
    omega
  · rw [lab_len_closed (fun x => ho (hp.open_self.mp x)), split_state_edge_self hp.lt]
    rw [lab_len_closed ho] at hlt ⊢
    simp only
    omega

theorem SplitPre.internal (hp : t.SplitPre L e len cb d α) {v : Nat} (hv : t.Internal v) :
    (t.split_state e ((len : Int) - 1) cb d).Internal v := by
  apply hv.mono (by simp [split_state])
  intro g hg ho
  by_cases hge : g = e
  · subst hge
    exact fun x => ho (hp.open_self.mp x)
  · rw [is_open_congr (split_state_edge_old hge (by omega))]
    exact ho

theorem SplitPre.internal_new (hp : t.SplitPre L e len cb d α) :
    (t.split_state e ((len : Int) - 1) cb d).Internal t.node_count :=
  Or.inr ⟨t.edge_count, by simp [split_state], hp.inv.counts, hp.closed_new⟩

theorem SplitPre.internal_iff (hp : t.SplitPre L e len cb d α) {v : Nat} :
    (t.split_state e ((len : Int) - 1) cb d).Internal v ↔
      (t.Internal v ∨ v = t.node_count) := by
  constructor
  · rintro (h0 | ⟨g, hg, hvg, ho⟩)
    · exact Or.inl (Or.inl h0)
    · have hg' : g < t.edge_count + 1 := hg
      by_cases hgn : g = t.edge_count
      · right; rw [hvg, hgn, hp.inv.counts]
      · left
        refine Or.inr ⟨g, by omega, hvg, ?_⟩
        by_cases hge : g = e
        · subst hge
          exact fun x => ho (hp.open_self.mpr x)
        · rw [← is_open_congr (@split_state_edge_old t e ((len : Int) - 1) cb d g hge hgn)]
          exact ho
  · rintro (hv | hv)
    · exact hp.internal hv
    · rw [hv]; exact hp.internal_new

theorem SplitPre.label_old (hp : t.SplitPre L e len cb d α) {v : Nat} (hv : v < t.node_count) :
    upd L t.node_count α v = L v :=
  upd_other _ _ (by omega)

theorem SplitPre.tree_inv (hp : t.SplitPre L e len cb d α) :
    (t.split_state e ((len : Int) - 1) cb d).TreeInv (upd L t.node_count α) := by
  have h := hp.inv
  have oke := h.edge_ok e hp.lt
  have hnc := h.counts
  have hslt := h.es_lt hp.lt
  constructor
  · exact h.root0
  · simp only [split_state]; rw [h.counts]
  · rw [hp.label_old (by omega)]; exact h.Lroot
  · intro v ch g
    rw [split_state_find h hp.lt]
    show _ ↔ (g < t.edge_count + 1 ∧ _ ∧ _)
    have hfe : (t.node (t.es e)).find_edge cb = some e :=
      (h.find_iff _ _ _).mpr ⟨hp.lt, rfl, hp.first⟩
    by_cases hgn : g = t.edge_count
    · subst hgn
      rw [hp.es_new, hp.eb_new]
      show _ ↔ (_ ∧ _ ∧ t.text[t.eb e]? = some ch)
      rw [hp.first]
      by_cases hv : v = t.node_count
      · rw [if_pos hv]
        constructor
        · intro hf
          exfalso
          split at hf
          · have := Option.some.inj hf
            have := hp.lt
            omega
          · exact absurd hf (by simp)
        · rintro ⟨_, h1, _⟩
          omega
      · rw [if_neg hv]
        by_cases hvc : v = t.es e ∧ ch = cb
        · rw [if_pos hvc]
          simp [hvc.1, hvc.2]
        · rw [if_neg hvc]
          constructor
          · intro hf
            have := ((h.find_iff v ch _).mp hf).1
            omega
          · rintro ⟨_, h1, h2⟩
            exact absurd ⟨h1.symm, (Option.some.inj h2).symm⟩ hvc
    · by_cases hge : g = e
      · subst hge
        rw [hp.es_self, hp.eb_self]
        show _ ↔ (_ ∧ _ ∧ t.text[t.eb g + len]? = some ch)
        rw [hp.next]
        by_cases hv : v = t.node_count
        · rw [if_pos hv]
          by_cases hch : ch = d
          · rw [if_pos hch]
            simp [hv, hch]
            have := hp.lt
            omega
          · rw [if_neg hch]
            constructor
            · intro hf; exact absurd hf (by simp)
            · rintro ⟨_, _, h2⟩
              exact absurd (Option.some.inj h2).symm hch
        · rw [if_neg hv]
          by_cases hvc : v = t.es g ∧ ch = cb
          · rw [if_pos hvc]
            constructor
            · intro hf
              exact absurd (Option.some.inj hf).symm hgn
            · rintro ⟨_, h1, _⟩
              exact absurd h1.symm hv
          · rw [if_neg hvc]
            constructor
            · intro hf
              have hf' := (h.find_iff v ch g).mp hf
              exfalso
              apply hvc
              refine ⟨hf'.2.1.symm, ?_⟩
              have := hf'.2.2
              rw [hp.first] at this
              exact (Option.some.inj this).symm
            · rintro ⟨_, h1, _⟩
              exact absurd h1.symm hv
      · have hedge := @split_state_edge_old t e ((len : Int) - 1) cb d g hge hgn
        rw [es_congr hedge, eb_congr hedge]
        have hiff : g < t.edge_count + 1 ↔ g < t.edge_count := by omega
        rw [hiff]
        by_cases hv : v = t.node_count
        · rw [if_pos hv]
          constructor
          · intro hf
            exfalso
            split at hf
            · exact hge (Option.some.inj hf).symm
            · exact absurd hf (by simp)
          · rintro ⟨h1, h2, _⟩
            have := h.es_lt h1
            omega
        · rw [if_neg hv]
          by_cases hvc : v = t.es e ∧ ch = cb
          · rw [if_pos hvc]
            constructor
            · intro hf
              exact absurd (Option.some.inj hf).symm hgn
            · rintro ⟨h1, h2, h3⟩
              exfalso
              have : (t.node v).find_edge ch = some g := (h.find_iff v ch g).mpr ⟨h1, h2, h3⟩
              rw [hvc.1, hvc.2, hfe] at this
              exact hge (Option.some.inj this).symm
          · rw [if_neg hvc, h.find_iff]
            exact Iff.rfl
  · intro g hg
    have hg' : g < t.edge_count + 1 := hg
    by_cases hgn : g = t.edge_count
    · subst hgn
      have hcl := hp.closed_new
      have hLs : upd L t.node_count α (t.es e) = L (t.es e) := hp.label_old hslt
      have hLn : upd L t.node_count α (t.edge_count + 1) = α := by
        rw [← hnc]; exact upd_same _ _ _
      have hpos : (t.split_state e ((len : Int) - 1) cb d).edge_pos (upd L t.node_count α)
          t.edge_count = t.edge_pos L e := by
        unfold edge_pos
        rw [hp.es_new, hp.eb_new, hLs]
      constructor
      · rw [split_state_edge_new hp.lt]; exact hnc
      · rw [hp.es_new]; exact hp.internal oke.start_int
      · rw [split_state_edge_new hp.lt]; exact oke.begin_nonneg
      · rw [hp.eb_new]; exact oke.begin_lt
      · rw [hp.es_new, hp.eb_new, hLs]; exact oke.depth_le
      · rw [hp.es_new, hLs, hpos]; exact oke.occ_start
      · intro _
        rw [split_state_edge_new hp.lt]
        simp only
        have := hp.len_pos
        omega
      · intro _
        rw [split_state_edge_new hp.lt]
        simp only
        have := hp.next_lt
        have := hp.begin_eq
        show (t.edge e).begin_index + (↑len - 1) + 2 ≤ (t.text.length : Int)
        omega
      · intro _
        rw [hLn, hp.es_new, hLs, hp.lab_len_new]; exact hp.length
      · intro _
        rw [hLn, hpos]; exact hp.occ
    · by_cases hge : g = e
      · subst hge
        have hLs : upd L t.node_count α t.node_count = α := upd_same _ _ _
        have hLn : upd L t.node_count α (g + 1) = L (g + 1) := hp.label_old (by omega)
        have hpos : (t.split_state g ((len : Int) - 1) cb d).edge_pos (upd L t.node_count α)
            g = t.edge_pos L g := by
          unfold edge_pos
          rw [hp.es_self, hp.eb_self, hLs, hp.length]
          have := oke.depth_le
          omega
        have hll := hp.lab_len_self
        constructor
        · rw [split_state_edge_self hp.lt]; exact oke.end_node
        · rw [hp.es_self]; exact hp.internal_new
        · rw [split_state_edge_self hp.lt]
          simp only
          have := oke.begin_nonneg
          omega
        · rw [hp.eb_self]; exact hp.next_lt
        · rw [hp.es_self, hp.eb_self, hLs, hp.length]
          have := oke.depth_le
          omega
        · rw [hp.es_self, hLs, hpos]; exact hp.occ
        · intro ho
          have ho' : ¬ t.is_open g := fun x => ho (hp.open_self.mpr x)
          have := oke.closed_le ho'
          have hlt := hp.len_lt
          rw [lab_len_closed ho'] at hlt
          rw [split_state_edge_self hp.lt]
          simp only
          omega
        · intro ho
          have ho' : ¬ t.is_open g := fun x => ho (hp.open_self.mpr x)
          rw [split_state_edge_self hp.lt]
          exact oke.closed_lt ho'
        · intro ho
          have ho' : ¬ t.is_open g := fun x => ho (hp.open_self.mpr x)
          rw [hLn, hp.es_self, hLs, hp.length, oke.closed_len ho']
          omega
        · intro ho
          have ho' : ¬ t.is_open g := fun x => ho (hp.open_self.mpr x)
          rw [hLn, hpos]; exact oke.closed_occ ho'
      · have hlt : g < t.edge_count := by omega
        have hedge := @split_state_edge_old t e ((len : Int) - 1) cb d g hge hgn
        exact (h.edge_ok g hlt).transfer hedge rfl hp.internal
          (hp.label_old (h.es_lt hlt)) (hp.label_old (by omega))
  · intro v
    simp only [split_state]
    by_cases hv : v = t.node_count
    · subst hv
      rw [upd_same]
      simp [map_sorted]
    · rw [upd_other _ _ hv]
      by_cases hv2 : v = t.es e
      · subst hv2
        rw [upd_same]
        exact map_sorted_insert (map_sorted_erase (h.sorted _))
      · rw [upd_other _ _ hv2]
        exact h.sorted v

end

end suffix_tree


namespace suffix_tree

variable {t : suffix_tree} {L : Nat → List Char}

section leaf
variable {i u : Nat} {c : Char}

theorem leaf_state_on_edge (hw : t.OnEdge L e w) : (t.leaf_state i u c).OnEdge L e w :=
  hw.oe_transfer (by simp [leaf_state]) (leaf_state_edge_old hw.1) rfl rfl

theorem leaf_state_spelled (hw : t.Spelled L w) : (t.leaf_state i u c).Spelled L w := by
  rcases hw with h0 | ⟨e, he⟩
  · exact Or.inl h0
  · exact Or.inr ⟨e, leaf_state_on_edge he⟩

theorem leaf_state_edge_pos_old (he : e < t.edge_count) :
    (t.leaf_state i u c).edge_pos L e = t.edge_pos L e :=
  edge_pos_congr (leaf_state_edge_old he) rfl

theorem leaf_state_edge_pos_new :
    (t.leaf_state i u c).edge_pos L t.edge_count = i - (L u).length := by
  unfold edge_pos eb es
  rw [leaf_state_edge_new]
  simp

theorem leaf_state_open_new : (t.leaf_state i u c).is_open t.edge_count := by
  unfold is_open; rw [leaf_state_edge_new]

theorem leaf_state_leaves {j : Nat} (hl : t.LeavesOK L j) (hj : i - (L u).length = j) :
    (t.leaf_state i u c).LeavesOK L (j + 1) := by
  constructor
  · intro e he ho
    have he' : e < t.edge_count + 1 := he
    by_cases hee : e = t.edge_count
    · rw [hee, leaf_state_edge_pos_new, hj]; omega
    · have hlt : e < t.edge_count := by omega
      rw [leaf_state_edge_pos_old hlt]
      have := hl.lt e hlt ((is_open_congr (leaf_state_edge_old hlt)).mp ho)
      omega
  · intro j' hj'
    by_cases hjj : j' = j
    · refine ⟨t.edge_count, by simp [leaf_state], leaf_state_open_new, ?_⟩
      rw [leaf_state_edge_pos_new, hj, hjj]
    · obtain ⟨e, he, ho, hp⟩ := hl.ex j' (by omega)
      refine ⟨e, by simp [leaf_state]; omega, ?_, ?_⟩
      · rw [is_open_congr (leaf_state_edge_old he)]; exact ho
      · rw [leaf_state_edge_pos_old he]; exact hp

theorem leaf_state_two_children {v : Nat} (h : t.TwoChildren v) :
    (t.leaf_state i u c).TwoChildren v := by
  obtain ⟨f, g, hf, hg, hfg, hfv, hgv⟩ := h
  refine ⟨f, g, by simp [leaf_state]; omega, by simp [leaf_state]; omega, hfg, ?_, ?_⟩
  · rw [es_congr (leaf_state_edge_old hf)]; exact hfv
  · rw [es_congr (leaf_state_edge_old hg)]; exact hgv

theorem leaf_state_link (h : t.TreeInv L) (hu : t.Internal u) (v : Nat) :
    ((t.leaf_state i u c).node v).suffix_link = (t.node v).suffix_link ∨
      ¬ t.Internal v := by
  by_cases hv : v = u
  · left
    subst hv
    simp only [leaf_state, upd_same, suffix_tree_node.add_edge]
  · by_cases hn : v = t.node_count
    · right
      rw [hn]
      exact h.not_internal_of_ge (le_refl _)
    · left
      simp only [leaf_state]
      rw [upd_other _ _ hv, upd_other _ _ hn]

end leaf

section split
variable {e len : Nat} {cb d : Char} {α : List Char}

theorem SplitPre.edge_pos_self (hp : t.SplitPre L e len cb d α) :
    (t.split_state e ((len : Int) - 1) cb d).edge_pos (upd L t.node_count α) e
      = t.edge_pos L e := by
  unfold edge_pos
  rw [hp.es_self, hp.eb_self, upd_same, hp.length]
  have := (hp.inv.edge_ok e hp.lt).depth_le
  omega

theorem SplitPre.edge_pos_new (hp : t.SplitPre L e len cb d α) :
    (t.split_state e ((len : Int) - 1) cb d).edge_pos (upd L t.node_count α) t.edge_count
      = t.edge_pos L e := by
  unfold edge_pos
  rw [hp.es_new, hp.eb_new, hp.label_old (hp.inv.es_lt hp.lt)]

theorem SplitPre.edge_pos_old (hp : t.SplitPre L e len cb d α) {g : Nat}
    (hg : g < t.edge_count) (hge : g ≠ e) :
    (t.split_state e ((len : Int) - 1) cb d).edge_pos (upd L t.node_count α) g
      = t.edge_pos L g :=
  edge_pos_congr (split_state_edge_old hge (by omega)) (hp.label_old (hp.inv.es_lt hg))

theorem SplitPre.on_edge (hp : t.SplitPre L e len cb d α) {g : Nat} {w : List Char}
    (hw : t.OnEdge L g w) :
    (t.split_state e ((len : Int) - 1) cb d).Spelled (upd L t.node_count α) w := by
  right
  by_cases hge : g = e
  · subst hge
    obtain ⟨h1, h2, h3, h4⟩ := hw
    by_cases hwl : w.length ≤ α.length
    · refine ⟨t.edge_count, by simp [split_state], ?_, ?_, ?_⟩
      · rw [hp.es_new, hp.label_old (hp.inv.es_lt hp.lt)]; exact h2
      · rw [hp.es_new, hp.label_old (hp.inv.es_lt hp.lt), hp.lab_len_new, ← hp.length]
        exact hwl
      · rw [hp.edge_pos_new]; exact h4
    · refine ⟨g, by simp [split_state]; omega, ?_, ?_, ?_⟩
      · rw [hp.es_self, upd_same]; omega
      · rw [hp.es_self, upd_same, hp.length]
        have := hp.lab_len_self
        omega
      · rw [hp.edge_pos_self]; exact h4
  · refine ⟨g, hw.oe_transfer (by simp [split_state]) (split_state_edge_old hge
      (by have := hw.1; omega)) rfl (hp.label_old (hp.inv.es_lt hw.1))⟩

theorem SplitPre.spelled (hp : t.SplitPre L e len cb d α) {w : List Char}
    (hw : t.Spelled L w) :
    (t.split_state e ((len : Int) - 1) cb d).Spelled (upd L t.node_count α) w := by
  rcases hw with h0 | ⟨g, hg⟩
  · exact Or.inl h0
  · exact hp.on_edge hg

theorem SplitPre.leaves (hp : t.SplitPre L e len cb d α) {j : Nat} (hl : t.LeavesOK L j) :
    (t.split_state e ((len : Int) - 1) cb d).LeavesOK (upd L t.node_count α) j := by
  constructor
  · intro g hg ho
    have hg' : g < t.edge_count + 1 := hg
    by_cases hgn : g = t.edge_count
    · rw [hgn] at ho
      exact absurd ho hp.closed_new
    · have hlt : g < t.edge_count := by omega
      by_cases hge : g = e
      · rw [hge, hp.edge_pos_self]
        rw [hge] at ho
        exact hl.lt e hp.lt (hp.open_self.mp ho)
      · rw [hp.edge_pos_old hlt hge]
        exact hl.lt g hlt ((is_open_congr (split_state_edge_old hge hgn)).mp ho)
  · intro j' hj'
    obtain ⟨g, hg, ho, hpos⟩ := hl.ex j' hj'
    refine ⟨g, by simp [split_state]; omega, ?_, ?_⟩
    · by_cases hge : g = e
      · rw [hge]; rw [hge] at ho; exact hp.open_self.mpr ho
      · rw [is_open_congr (split_state_edge_old hge (by omega))]; exact ho
    · by_cases hge : g = e
      · rw [hge, hp.edge_pos_self, ← hge]; exact hpos
      · rw [hp.edge_pos_old hg hge]; exact hpos

theorem SplitPre.two_children (hp : t.SplitPre L e len cb d α) {v : Nat}
    (h : t.TwoChildren v) : (t.split_state e ((len : Int) - 1) cb d).TwoChildren v := by
  obtain ⟨f, g, hf, hg, hfg, hfv, hgv⟩ := h
  have key : ∀ x, x < t.edge_count → t.es x = v →
      ∃ y, y < t.edge_count + 1 ∧ (t.split_state e ((len : Int) - 1) cb d).es y = v ∧
        (x ≠ e → y = x) ∧ (x = e → y = t.edge_count) := by
    intro x hx hxv
    by_cases hxe : x = e
    · refine ⟨t.edge_count, by omega, ?_, fun h => absurd hxe h, fun _ => rfl⟩
      rw [hp.es_new, ← hxe]; exact hxv
    · refine ⟨x, by omega, ?_, fun _ => rfl, fun h => absurd h hxe⟩
      rw [es_congr (split_state_edge_old hxe (by omega))]; exact hxv
  obtain ⟨f', hf'1, hf'2, hf'3, hf'4⟩ := key f hf hfv
  obtain ⟨g', hg'1, hg'2, hg'3, hg'4⟩ := key g hg hgv
  refine ⟨f', g', hf'1, hg'1, ?_, hf'2, hg'2⟩
  intro heq
  by_cases hfe : f = e
  · have hge : g ≠ e := fun x => hfg (hfe.trans x.symm)
    rw [hf'4 hfe, hg'3 hge] at heq
    omega
  · by_cases hge : g = e
    · rw [hf'3 hfe, hg'4 hge] at heq
      omega
    · rw [hf'3 hfe, hg'3 hge] at heq
      exact hfg heq

theorem SplitPre.link (hp : t.SplitPre L e len cb d α) {v : Nat} (hv : v ≠ t.node_count) :
    ((t.split_state e ((len : Int) - 1) cb d).node v).suffix_link = (t.node v).suffix_link := by
  simp only [split_state]
  rw [upd_other _ _ hv]
  by_cases hv2 : v = t.es e
  · rw [hv2, upd_same]
    simp only [suffix_tree_node.add_edge, suffix_tree_node.remove_edge]
  · rw [upd_other _ _ hv2]

theorem SplitPre.link_ok (hp : t.SplitPre L e len cb d α) {v : Nat} (hv : t.Internal v)
    (hl : t.LinkOK L v) :
    (t.split_state e ((len : Int) - 1) cb d).LinkOK (upd L t.node_count α) v := by
  obtain ⟨w, h1, h2, h3⟩ := hl
  have hvlt := hp.inv.internal_lt hv
  have hwlt := hp.inv.internal_lt h2
  refine ⟨w, ?_, hp.internal h2, ?_⟩
  · rw [hp.link (by omega)]; exact h1
  · rw [hp.label_old hvlt, hp.label_old hwlt]; exact h3

end split

theorem leaf_state_first_occ (h : t.TreeInv L) (hf : t.FirstOcc L) (hu : t.Internal u)
    (hc : t.text[i]? = some c) (hd : (L u).length ≤ i)
    (hnone : (t.node u).find_edge c = none) (hcomp : t.Complete L i) :
    (t.leaf_state i u c).FirstOcc L := by
  intro e he q ho hq
  have he' : e < t.edge_count + 1 := he
  have htext : (t.leaf_state i u c).text = t.text := rfl
  rw [htext] at ho hq
  by_cases hee : e = t.edge_count
  · rw [hee] at ho hq ⊢
    have hE : (t.leaf_state i u c).edge t.edge_count = ⟨(i : Int), INF, u, t.node_count⟩ :=
      leaf_state_edge_new
    have hes : (t.leaf_state i u c).es t.edge_count = u := by unfold es; rw [hE]
    have heb : (t.leaf_state i u c).eb t.edge_count = i := by unfold eb; rw [hE]; simp
    rw [hes] at ho
    rw [hes, heb, hc] at hq
    rw [leaf_state_edge_pos_new]
    by_contra hcon
    have hlt : q + (L u).length < i := by omega
    have hi : i < t.text.length := by
      by_contra hcon2
      rw [List.getElem?_eq_none (not_lt.mp hcon2)] at hc
      exact absurd hc (by simp)
    have hsp := hcomp q ((L u).length + 1) (by omega)
    have hw : Occ t.text q (seg t.text q ((L u).length + 1)) := occ_seg (by omega)
    have hwl : (seg t.text q ((L u).length + 1)).length = (L u).length + 1 :=
      seg_length_of_le (by omega)
    have hpre : (seg t.text q ((L u).length + 1)).take (L u).length = L u :=
      occ_take_eq hw ho (by omega)
    obtain ⟨f, hf1, hf2, hf3, _⟩ := h.trie hsp hu hpre (by omega)
    rw [seg_getElem?, if_pos (by omega), hq] at hf3
    have := (h.find_iff u c f).mpr ⟨hf1, hf2, hf3⟩
    rw [hnone] at this
    exact absurd this (by simp)
  · have hlt : e < t.edge_count := by omega
    have hE : (t.leaf_state i u c).edge e = t.edge e := leaf_state_edge_old hlt
    rw [es_congr hE] at ho
    rw [es_congr hE, eb_congr hE] at hq
    rw [edge_pos_congr hE rfl]
    exact hf e hlt q ho hq

theorem SplitPre.split_first_occ (hp : t.SplitPre L e len cb d α) (hf : t.FirstOcc L) :
    (t.split_state e ((len : Int) - 1) cb d).FirstOcc (upd L t.node_count α) := by
  intro g hg q ho hq
  have hg' : g < t.edge_count + 1 := hg
  have htext : (t.split_state e ((len : Int) - 1) cb d).text = t.text := rfl
  rw [htext] at ho hq
  have oke := hp.inv.edge_ok e hp.lt
  by_cases hgn : g = t.edge_count
  · rw [hgn] at ho hq ⊢
    rw [hp.es_new, hp.label_old (hp.inv.es_lt hp.lt)] at ho hq
    rw [hp.eb_new] at hq
    rw [hp.edge_pos_new]
    exact hf e hp.lt q ho hq
  · by_cases hge : g = e
    · rw [hge] at ho hq ⊢
      rw [hp.es_self, upd_same] at ho hq
      rw [hp.eb_self] at hq
      rw [hp.edge_pos_self]
      have hx : (L (t.es e)).length < α.length := by
        rw [hp.length]
        have := hp.len_pos
        omega
      have h1 : Occ t.text q (L (t.es e)) := by
        have := occ_take_eq hp.occ oke.occ_start (by omega)
        rw [← this]
        exact occ_take ho _
      have h2 : t.text[q + (L (t.es e)).length]? = t.text[t.eb e]? := by
        rw [occ_iff.mp ho _ hx, ← occ_iff.mp hp.occ _ hx, oke.pos_add]
      exact hf e hp.lt q h1 h2
    · have hlt : g < t.edge_count := by omega
      have hE : (t.split_state e ((len : Int) - 1) cb d).edge g = t.edge g :=
        split_state_edge_old hge hgn
      rw [es_congr hE, hp.label_old (hp.inv.es_lt hlt)] at ho hq
      rw [eb_congr hE] at hq
      rw [hp.edge_pos_old hlt hge]
      exact hf g hlt q ho hq

end suffix_tree


namespace suffix_tree

variable {t : suffix_tree} {L : Nat → List Char} {lp : Option Nat} {i j u : Nat}

theorem MidInv.mid_i_lt (h : t.MidInv L lp i j u) : i < t.text.length := by
  rw [h.len]; omega

theorem MidInv.mid_char (h : t.MidInv L lp i j u) : ∃ c, t.text[i]? = some c :=
  ⟨_, List.getElem?_eq_getElem h.mid_i_lt⟩

theorem LastParentOK.length (h : t.LastParentOK L lp i j) (hlen : t.text.length = i + 1)
    {m : Nat} (hm : lp = some m) (h0 : m ≠ 0) (hj : j ≤ i + 1) : (L m).length = i + 1 - j := by
  obtain ⟨_, h1, h2, _⟩ := h m hm h0
  rw [h2, seg_length_of_le (by omega)]

theorem MidInv.lp_ne_origin (h : t.MidInv L lp i j u) (h0 : t.active.origin_node ≠ 0) :
    lp ≠ some t.active.origin_node := by
  intro hlp
  have := h.last.length h.len hlp h0 (by have := h.le; omega)
  have := h.act_le
  have := h.le
  omega

theorem MidInv.u_label (h : t.MidInv L lp i j u) : L u = seg t.text j (i - j) := by
  have := h.u_occ
  unfold Occ at this
  rw [h.u_len] at this
  exact this.symm

/-- The tree after the new leaf is inserted and the suffix link of the last
parent is set. -/
theorem MidInv.leaf (h : t.MidInv L lp i j u) {c : Char} (hc : t.text[i]? = some c) :
    let t3 := (t.leaf_state i u c).update_suffix_link lp u
    t3.TreeInv L ∧ t3.Branching ∧ t3.LeavesOK L (j + 1) ∧ t3.Complete L i ∧
    t3.text = t.text ∧ t3.active = t.active ∧
    (∀ v, t3.Internal v ↔ t.Internal v) ∧
    (∀ w, t.Spelled L w → t3.Spelled L w) ∧
    (∀ v, t3.Internal v → v ≠ 0 → (some u = some v ∨ t3.LinkOK L v)) ∧
    (t.active.origin_node ≠ 0 → t3.LinkOK L t.active.origin_node) := by
  intro t3
  have hss : SameShape (t.leaf_state i u c) t3 := SameShape.update_suffix_link _ _ _
  have hinv2 : (t.leaf_state i u c).TreeInv L :=
    leaf_state_tree_inv h.inv h.u_int (h.u_none c hc) hc (by rw [h.u_len]; omega)
      (by rw [h.u_len]; have := h.le; rw [show i - (i - j) = j by omega]; exact h.u_occ)
  have hint : ∀ v, t3.Internal v ↔ t.Internal v := fun v =>
    hss.ss_internal_iff.trans (leaf_state_internal_iff h.inv)
  have hroot : (t.leaf_state i u c).root = 0 := h.inv.root0
  have hlink_old : ∀ v, t.Internal v → lp ≠ some v → t.LinkOK L v → t3.LinkOK L v := by
    intro v hv hlp ⟨w, h1, h2, h3⟩
    refine ⟨w, ?_, (hint w).mpr h2, h3⟩
    show ((suffix_tree.update_suffix_link _ _ _).node v).suffix_link = _
    rw [update_suffix_link_link, if_neg (fun x => hlp x.1)]
    rcases leaf_state_link (i := i) (c := c) h.inv h.u_int v with hl | hl
    · rw [hl]; exact h1
    · exact absurd hv hl
  refine ⟨hss.ss_tree_inv hinv2, ?_, ?_, ?_, hss.text, ?_, hint, ?_, ?_, ?_⟩
  · -- branching
    intro e he ho
    have he' : e < t.edge_count + 1 := by rw [hss.edge_count] at he; exact he
    have ho2 : ¬ (t.leaf_state i u c).is_open e :=
      fun x => ho ((is_open_congr (congrFun hss.edge e)).mpr x)
    have hlt : e < t.edge_count := by
      by_contra hcon
      have : e = t.edge_count := by omega
      rw [this] at ho2
      exact ho2 leaf_state_open_new
    have ho1 : ¬ t.is_open e := fun x => ho2 ((is_open_congr (leaf_state_edge_old hlt)).mpr x)
    have hb := h.branching e hlt ho1
    have key : (t.leaf_state i u c).TwoChildren (e + 1) := by
      by_cases heu : e + 1 = u
      · obtain ⟨f, hf, hfu⟩ := hb.2 heu
        refine ⟨f, t.edge_count, by simp [leaf_state]; omega, by simp [leaf_state],
          by omega, ?_, ?_⟩
        · rw [es_congr (leaf_state_edge_old hf), hfu, heu]
        · unfold es; rw [leaf_state_edge_new, heu]
      · exact leaf_state_two_children (hb.1 heu)
    obtain ⟨f, g, hf, hg, hfg, hfv, hgv⟩ := key
    refine ⟨f, g, by rw [hss.edge_count]; exact hf, by rw [hss.edge_count]; exact hg, hfg, ?_, ?_⟩
    · rw [es_congr (congrFun hss.edge f)]; exact hfv
    · rw [es_congr (congrFun hss.edge g)]; exact hgv
  · -- leaves
    have hl2 : (t.leaf_state i u c).LeavesOK L (j + 1) :=
      leaf_state_leaves h.leaves (by rw [h.u_len]; have := h.le; omega)
    constructor
    · intro e he ho
      rw [edge_pos_congr (congrFun hss.edge e) rfl]
      exact hl2.lt e (by rw [← hss.edge_count]; exact he)
        ((is_open_congr (congrFun hss.edge e)).mp ho)
    · intro j' hj'
      obtain ⟨e, he, ho, hp⟩ := hl2.ex j' hj'
      refine ⟨e, by rw [hss.edge_count]; exact he,
        (is_open_congr (congrFun hss.edge e)).mpr ho, ?_⟩
      rw [edge_pos_congr (congrFun hss.edge e) rfl]; exact hp
  · -- complete
    intro q l hql
    rw [hss.text]
    exact hss.ss_spelled (leaf_state_spelled (h.complete q l hql))
  · exact update_suffix_link_active _ _ _
  · intro w hw
    exact hss.ss_spelled (leaf_state_spelled hw)
  · -- links
    intro v hv h0
    by_cases hvu : v = u
    · left; rw [hvu]
    · right
      have hv' := (hint v).mp hv
      by_cases hlp : lp = some v
      · have hlen := h.last.length h.len hlp h0 (by have := h.le; omega)
        obtain ⟨_, h1, h2, _⟩ := h.last v hlp h0
        refine ⟨u, ?_, (hint u).mpr h.u_int, ?_⟩
        · show ((suffix_tree.update_suffix_link _ _ _).node v).suffix_link = _
          rw [update_suffix_link_link, if_pos ⟨hlp, by rw [hroot]; exact h0⟩]
        · rw [h.u_label, h2]
          have hle := h.le
          have e1 : i + 1 - j = (i - j) + 1 := by omega
          rw [e1, seg_tail]
          congr 1
          omega
      · rcases h.links v hv' h0 hvu with hlp' | hok
        · exact absurd hlp' hlp
        · exact hlink_old v hv' hlp hok
  · intro h0
    exact hlink_old _ h.act_int (h.lp_ne_origin h0) (h.act_link h0)

end suffix_tree

namespace suffix_tree

variable {t : suffix_tree} {L : Nat → List Char} {lp : Option Nat} {i j u : Nat}

theorem MidInv.loop_inv (h : t.MidInv L lp i j u) {c : Char} (hc : t.text[i]? = some c)
    (a : suffix_tree_suffix) (ha_int : t.Internal a.origin_node)
    (ha_end : a.end_index = (i : Int) - 1)
    (ha_begin : a.begin_index = ((j + 1 + (L a.origin_node).length : Nat) : Int))
    (ha_le : j + 1 + (L a.origin_node).length ≤ i + 1)
    (ha_root : j + 1 + (L a.origin_node).length = i + 1 → a.origin_node = 0)
    (ha_occ : Occ t.text (j + 1) (L a.origin_node))
    (ha_can : ((t.leaf_state i u c).update_suffix_link lp u).Canonical a) :
    suffix_tree.LoopInv { (t.leaf_state i u c).update_suffix_link lp u with active := a }
      L (some u) i (j + 1) := by
  obtain ⟨h1, h2, h3, h4, h5, h6, h7, h8, h9, _⟩ := h.leaf hc
  have hss := SameShape.set_active ((t.leaf_state i u c).update_suffix_link lp u) a
  constructor
  · exact hss.ss_tree_inv h1
  · intro e he ho
    obtain ⟨f, g, hf, hg, hfg, hfv, hgv⟩ := h2 e he ho
    exact ⟨f, g, hf, hg, hfg, hfv, hgv⟩
  · show ((t.leaf_state i u c).update_suffix_link lp u).text.length = i + 1
    rw [h5]; exact h.len
  · exact hss.ss_internal ((h7 _).mpr ha_int)
  · exact ha_end
  · exact ha_begin
  · exact ha_le
  · exact ha_root
  · show Occ ((t.leaf_state i u c).update_suffix_link lp u).text _ _
    rw [h5]; exact ha_occ
  · exact hss.canonical ha_can
  · exact ⟨h3.lt, h3.ex⟩
  · exact h4
  · intro v hv h0
    rcases h9 v hv h0 with hl | ⟨w, hw1, hw2, hw3⟩
    · exact Or.inl hl
    · exact Or.inr ⟨w, hw1, hw2, hw3⟩
  · intro m hm h0
    have hmu : u = m := Option.some.inj hm
    subst hmu
    refine ⟨(h7 _).mpr h.u_int, by omega, ?_, ?_⟩
    · show L u = seg ((t.leaf_state i u c).update_suffix_link lp u).text _ _
      rw [h5, h.u_label]
      congr 1
      omega
    · obtain ⟨d, hd1, hd2⟩ := h.next h0
      refine ⟨d, ?_, ?_⟩
      · show ((t.leaf_state i u c).update_suffix_link lp u).text[i]? ≠ _
        rw [h5]; exact hd1
      · show suffix_tree.Spelled _ L
          (seg ((t.leaf_state i u c).update_suffix_link lp u).text _ _ ++ [d])
        rw [h5]
        exact hss.ss_spelled (h8 _ hd2)
  · exact hss.ss_first_occ ((SameShape.update_suffix_link _ _ _).ss_first_occ
      (leaf_state_first_occ h.inv h.first h.u_int hc (by rw [h.u_len]; omega) (h.u_none c hc)
        h.complete))

theorem canonize_eq {s : suffix_tree_suffix} (h : t.canonize_suffix t.active = some s) :
    t.canonize = some { t with active := s } := by
  unfold suffix_tree.canonize
  rw [h]

/-- The move of the active point to the next shorter suffix (lines 305 to 313 of
`add_prefix`). -/
theorem advance_ok {t3 : suffix_tree} (h1 : t3.TreeInv L)
    (hn : (t3.text.length : Int) ≤ INF) (hlen : t3.text.length = i + 1) (hle : j ≤ i)
    (hcomp : t3.Complete L i) (hint : t3.Internal t3.active.origin_node)
    (hend : t3.active.end_index = (i : Int) - 1)
    (hbegin : t3.active.begin_index = ((j + (L t3.active.origin_node).length : Nat) : Int))
    (hale : j + (L t3.active.origin_node).length ≤ i)
    (hocc : Occ t3.text j (L t3.active.origin_node))
    (hlink : t3.active.origin_node ≠ 0 → t3.LinkOK L t3.active.origin_node) :
    ∃ a, (if t3.active.origin_node = t3.root then
            suffix_tree.canonize { t3 with active := t3.active.inc_begin_index }
          else
            match t3.change_origin_node with
            | none => none
            | some t4 => t4.canonize) = some { t3 with active := a } ∧
      t3.Internal a.origin_node ∧ a.end_index = (i : Int) - 1 ∧
      a.begin_index = ((j + 1 + (L a.origin_node).length : Nat) : Int) ∧
      j + 1 + (L a.origin_node).length ≤ i + 1 ∧
      (j + 1 + (L a.origin_node).length = i + 1 → a.origin_node = 0) ∧
      Occ t3.text (j + 1) (L a.origin_node) ∧ t3.Canonical a := by
  have hroot : t3.root = 0 := h1.root0
  by_cases h0 : t3.active.origin_node = 0
  · rw [if_pos (by rw [hroot]; exact h0)]
    have hL0 : (L t3.active.origin_node).length = 0 := by rw [h0, h1.Lroot]; rfl
    have hb := hbegin
    rw [hL0] at hb
    by_cases hji : j = i
    · -- the new active point is `(root, i + 1, i - 1)`
      refine ⟨t3.active.inc_begin_index, canonize_eq ?_, hint, hend, ?_, ?_, ?_, ?_, ?_⟩
      · unfold suffix_tree.canonize_suffix
        have : t3.active.inc_begin_index.is_explicit = true := by
          simp only [suffix_tree_suffix.is_explicit, suffix_tree_suffix.inc_begin_index,
            decide_eq_true_eq, hb, hend]
          omega
        simp only [this, if_true]
      · simp only [suffix_tree_suffix.inc_begin_index, hb, hL0]
        omega
      · simp only [suffix_tree_suffix.inc_begin_index, hL0]
        omega
      · intro _; exact h0
      · simp only [suffix_tree_suffix.inc_begin_index, h0, h1.Lroot]
        exact occ_nil _ _
      · left
        simp only [suffix_tree_suffix.inc_begin_index, hb, hend]
        omega
    · have hss := SameShape.set_active t3 t3.active.inc_begin_index
      have hs : suffix_tree.SuffixOK { t3 with active := t3.active.inc_begin_index } L
          t3.active.inc_begin_index (j + 1) i := by
        refine ⟨hss.ss_internal hint, ?_, hend, ?_, ?_, ?_, ?_⟩
        · simp only [suffix_tree_suffix.inc_begin_index, hb, hL0]
          omega
        · simp only [suffix_tree_suffix.inc_begin_index, hL0]
          omega
        · show i ≤ t3.text.length
          rw [hlen]; omega
        · simp only [suffix_tree_suffix.inc_begin_index, h0, h1.Lroot]
          exact occ_nil _ _
        · exact hss.ss_spelled (hcomp _ _ (by omega))
      obtain ⟨s', hs1, hs2, hs3⟩ := canonize_suffix_ok (hss.ss_tree_inv h1) hn hs
      refine ⟨s', canonize_eq hs1, hss.symm.ss_internal hs2.int, hs2.end_eq, hs2.begin_eq, ?_, ?_,
        hs2.occ, hss.symm.canonical hs3⟩
      · have := hs2.le; omega
      · intro hx; have := hs2.le; omega
  · rw [if_neg (by rw [hroot]; exact h0)]
    obtain ⟨v, hv1, hv2, hv3⟩ := hlink h0
    have hco : t3.change_origin_node
        = some { t3 with active := { t3.active with origin_node := v } } := by
      unfold suffix_tree.change_origin_node
      rw [hv1]
    rw [hco]
    simp only
    have hpos := h1.label_pos hint h0
    have hLv : (L v).length + 1 = (L t3.active.origin_node).length := by
      rw [hv3, List.length_tail]; omega
    have hss := SameShape.set_active t3 { t3.active with origin_node := v }
    have hs : suffix_tree.SuffixOK { t3 with active := { t3.active with origin_node := v } } L
        { t3.active with origin_node := v } (j + 1) i := by
      refine ⟨hss.ss_internal hv2, ?_, hend, ?_, ?_, ?_, ?_⟩
      · simp only [hbegin]
        omega
      · simp only
        omega
      · show i ≤ t3.text.length
        rw [hlen]; omega
      · show Occ t3.text (j + 1) (L v)
        rw [hv3, ← List.drop_one]
        exact occ_drop hocc 1
      · exact hss.ss_spelled (hcomp _ _ (by omega))
    obtain ⟨s', hs1, hs2, hs3⟩ := canonize_suffix_ok (hss.ss_tree_inv h1) hn hs
    refine ⟨s', canonize_eq hs1, hss.symm.ss_internal hs2.int, hs2.end_eq, hs2.begin_eq, ?_, ?_,
      hs2.occ, hss.symm.canonical hs3⟩
    · have := hs2.le; omega
    · intro hx; have := hs2.le; omega

theorem MidInv.add_leaf (h : t.MidInv L lp i j u) (hn : (t.text.length : Int) ≤ INF) :
    ∃ t', t.add_leaf (i : Int) lp u = some t' ∧ t'.LoopInv L (some u) i (j + 1) := by
  obtain ⟨c, hc⟩ := h.mid_char
  obtain ⟨h1, h2, h3, h4, h5, h6, h7, h8, h9, h10⟩ := h.leaf hc
  have hu : u ≠ t.node_count := Nat.ne_of_lt (h.inv.internal_lt h.u_int)
  unfold suffix_tree.add_leaf
  simp only
  rw [insert_new_leaf hc hu]
  simp only
  obtain ⟨a, ha1, ha2, ha3, ha4, ha5, ha6, ha7, ha8⟩ :=
    advance_ok (j := j) h1 (by rw [h5]; exact hn) (by rw [h5]; exact h.len) h.le h4
      (by rw [h6]; exact (h7 _).mpr h.act_int) (by rw [h6]; exact h.act_end)
      (by rw [h6]; exact h.act_begin) (by rw [h6]; exact h.act_le)
      (by rw [h5, h6]; exact h.act_occ) (by rw [h6]; exact h10)
  refine ⟨_, ha1, ?_⟩
  exact h.loop_inv hc a ((h7 _).mp ha2) ha3 ha4 ha5 ha6 (by rw [← h5]; exact ha7) ha8

end suffix_tree


namespace suffix_tree

variable {t : suffix_tree} {L : Nat → List Char} {lp : Option Nat} {i j : Nat}

theorem next_word {T : List Char} {p j : Nat} {α : List Char} {d : Char} (hp : Occ T p α)
    (hj : Occ T j α) (hd : T[p + α.length]? = some d) (hpos : 1 ≤ α.length) :
    seg T (p + 1) α.length = seg T (j + 1) (α.length - 1) ++ [d] := by
  have h1 : seg T (p + 1) (α.length - 1) = α.drop 1 := by
    have := occ_drop hp 1
    unfold Occ at this
    rw [List.length_drop] at this
    exact this
  have h2 : seg T (j + 1) (α.length - 1) = α.drop 1 := by
    have := occ_drop hj 1
    unfold Occ at this
    rw [List.length_drop] at this
    exact this
  have h3 : T[p + 1 + (α.length - 1)]? = some d := by
    rw [← hd]; congr 1; omega
  have := seg_succ h3
  rw [show α.length - 1 + 1 = α.length by omega] at this
  rw [this, h1, h2]

theorem LoopInv.i_lt (h : t.LoopInv L lp i j) : i < t.text.length := by
  rw [h.len]; omega

theorem LoopInv.char (h : t.LoopInv L lp i j) : ∃ c, t.text[i]? = some c :=
  ⟨_, List.getElem?_eq_getElem h.i_lt⟩

theorem LoopInv.get_char_i (h : t.LoopInv L lp i j) {c : Char} (hc : t.text[i]? = some c) :
    t.get_char (i : Int) = some c := by
  rw [get_char_nat]; exact hc

theorem LoopInv.lp_ne (h : t.LoopInv L lp i j) {v : Nat} (hv : v ≠ 0)
    (hlen : (L v).length ≠ i + 1 - j) : lp ≠ some v := by
  intro hlp
  exact hlen (h.last.length h.len hlp hv (by have := h.act_le; omega))

/-- In the explicit case the active point is at the node of `text[j .. i-1]`,
unless the leaf of the one-symbol suffix exists already. -/
theorem LoopInv.explicit_eq (h : t.LoopInv L lp i j)
    (hex : t.active.is_explicit = true) {c : Char} (hc : t.text[i]? = some c)
    (hnone : (t.node t.active.origin_node).find_edge c = none) :
    j + (L t.active.origin_node).length = i := by
  have hle := h.act_le
  have hge : i ≤ j + (L t.active.origin_node).length := by
    simp only [suffix_tree_suffix.is_explicit, decide_eq_true_eq, h.act_begin, h.act_end] at hex
    omega
  by_contra hne
  have heq : j + (L t.active.origin_node).length = i + 1 := by omega
  have h0 := h.act_root heq
  rw [h0, h.inv.Lroot] at heq
  simp only [List.length_nil, add_zero] at heq
  obtain ⟨e, he, ho, hpos⟩ := h.leaves.ex i (by omega)
  have ok := h.inv.edge_ok e he
  have hb := ok.begin_lt
  rw [h.len] at hb
  have hd := ok.depth_le
  unfold edge_pos at hpos
  have hes : t.es e = 0 := h.inv.eq_root ok.start_int (by omega)
  have hebi : t.eb e = i := by omega
  have : (t.node 0).find_edge c = some e := by
    rw [h.inv.find_iff]
    exact ⟨he, hes, by rw [hebi]; exact hc⟩
  rw [h0, this] at hnone
  exact absurd hnone (by simp)

theorem LoopInv.mid_explicit (h : t.LoopInv L lp i j)
    (hex : t.active.is_explicit = true) {c : Char} (hc : t.text[i]? = some c)
    (hnone : (t.node t.active.origin_node).find_edge c = none) :
    t.MidInv L lp i j t.active.origin_node := by
  have heq := h.explicit_eq hex hc hnone
  have hlen : (L t.active.origin_node).length = i - j := by omega
  constructor
  · exact h.inv
  · exact h.len
  · omega
  · exact h.act_int
  · exact hlen
  · exact h.act_occ
  · intro c' hc'
    rw [hc] at hc'
    cases hc'
    exact hnone
  · intro e he ho
    exact ⟨fun _ => h.branching e he ho, fun heu => by
      obtain ⟨f, _, hf, _, _, hfu, _⟩ := h.branching e he ho
      exact ⟨f, hf, by rw [hfu, heu]⟩⟩
  · exact h.act_int
  · exact h.act_end
  · exact h.act_begin
  · omega
  · exact h.act_occ
  · intro h0
    rcases h.links _ h.act_int h0 with hl | hl
    · exact absurd hl (h.lp_ne h0 (by omega))
    · exact hl
  · exact h.leaves
  · exact h.complete
  · intro v hv h0 _
    exact h.links v hv h0
  · exact h.last
  · intro h0
    rcases h.act_int with hz | ⟨e, he, hue, ho⟩
    · exact absurd hz h0
    obtain ⟨f, _, hf, _, _, hfu, _⟩ := h.branching e he ho
    rw [← hue] at hfu
    have ok := h.inv.edge_ok f hf
    obtain ⟨d, hd⟩ : ∃ d, t.text[t.eb f]? = some d :=
      ⟨_, List.getElem?_eq_getElem ok.begin_lt⟩
    have hfind : (t.node t.active.origin_node).find_edge d = some f :=
      (h.inv.find_iff _ _ _).mpr ⟨hf, hfu, hd⟩
    have hdc : t.text[i]? ≠ some d := by
      intro hx
      rw [hc] at hx
      cases hx
      rw [hnone] at hfind
      exact absurd hfind (by simp)
    refine ⟨d, hdc, ?_⟩
    have hpos := h.inv.label_pos h.act_int h0
    have hocc := ok.occ_start
    rw [hfu] at hocc
    have hpa := ok.pos_add
    rw [hfu] at hpa
    have hnw := next_word (d := d) hocc h.act_occ (by rw [hpa]; exact hd) hpos
    rw [hlen] at hnw
    rw [show i - (j + 1) = i - j - 1 by omega, ← hnw]
    apply h.complete
    have hb := ok.begin_lt
    rw [h.len] at hb
    have : t.eb f ≠ i := by
      intro hx
      rw [hx] at hd
      exact hdc hd
    omega
  · exact h.first

end suffix_tree

namespace suffix_tree

variable {t : suffix_tree} {L : Nat → List Char} {lp : Option Nat} {i j : Nat}

/-- In the implicit case the active point lies strictly inside an edge, on
which the word `text[j .. i-1]` ends. -/
theorem LoopInv.implicit (h : t.LoopInv L lp i j) (hex : ¬ t.active.is_explicit = true)
    (hn : (t.text.length : Int) ≤ INF) :
    ∃ (cb : Char) (f : Nat) (d : Char) (len : Nat),
      t.get_char t.active.begin_index = some cb ∧
      (t.node t.active.origin_node).find_edge cb = some f ∧
      t.get_char ((t.edge f).begin_index + t.active.get_span + 1) = some d ∧
      t.active.get_span = (len : Int) - 1 ∧
      t.es f = t.active.origin_node ∧
      j + (L t.active.origin_node).length + len = i ∧
      t.SplitPre L f len cb d (seg t.text j (i - j)) := by
  have hlt : j + (L t.active.origin_node).length < i := by
    simp only [suffix_tree_suffix.is_explicit, decide_eq_true_eq, h.act_begin, h.act_end] at hex
    omega
  have hgs : t.active.get_span
      = ((i - (j + (L t.active.origin_node).length) : Nat) : Int) - 1 := by
    unfold suffix_tree_suffix.get_span
    rw [h.act_begin, h.act_end]
    omega
  have hs : t.SuffixOK L t.active j i :=
    ⟨h.act_int, h.act_begin, h.act_end, by omega, by rw [h.len]; omega, h.act_occ,
      h.complete _ _ (by omega)⟩
  obtain ⟨f, cb, hf, hfu, hcb, hfind, hon⟩ := hs.edge h.inv hlt
  have ok := h.inv.edge_ok f hf
  have hfirst : t.text[t.eb f]? = some cb := ((h.inv.find_iff _ _ _).mp hfind).2.2
  -- the active point is strictly inside `f`
  have hlen_lt : i - (j + (L t.active.origin_node).length) < t.lab_len f := by
    rcases h.act_can with hc | ⟨ch, f', hc1, hc2, hc3⟩
    · rw [h.act_begin, h.act_end] at hc
      omega
    · rw [hcb] at hc1
      cases hc1
      rw [hfind] at hc2
      cases hc2
      by_cases ho : t.is_open f
      · rw [lab_len_open ho, h.len]
        have := h.leaves.lt f hf ho
        unfold edge_pos at this
        rw [hfu] at this
        have := ok.depth_le
        rw [hfu] at this
        omega
      · rw [h.inv.span_closed hf ho, hgs] at hc3
        omega
  have hα : (seg t.text j (i - j)).length = i - j :=
    seg_length_of_le (by rw [h.len]; omega)
  have hocc : Occ t.text (t.edge_pos L f) (seg t.text j (i - j)) := by
    rcases hon with hon | ⟨hfo, hfl, _⟩
    · exact hon.2.2.2
    · exfalso
      have := ok.closed_len hfo
      rw [hfu] at this
      omega
  have hnext_lt : t.eb f + (i - (j + (L t.active.origin_node).length)) < t.text.length := by
    by_cases ho : t.is_open f
    · rw [lab_len_open ho] at hlen_lt
      omega
    · rw [lab_len_closed ho] at hlen_lt
      have := ok.closed_lt ho
      have := ok.closed_le ho
      have := ok.begin_nonneg
      unfold eb
      omega
  obtain ⟨d, hd⟩ : ∃ d,
      t.text[t.eb f + (i - (j + (L t.active.origin_node).length))]? = some d :=
    ⟨_, List.getElem?_eq_getElem hnext_lt⟩
  refine ⟨cb, f, d, i - (j + (L t.active.origin_node).length), hcb, hfind, ?_, hgs, hfu,
    by omega, ?_⟩
  · have hb : (t.edge f).begin_index = (t.eb f : Int) := by
      have := ok.begin_nonneg
      unfold eb
      omega
    rw [hb, hgs]
    have : (t.eb f : Int) + (((i - (j + (L t.active.origin_node).length) : Nat) : Int) - 1) + 1
        = ((t.eb f + (i - (j + (L t.active.origin_node).length)) : Nat) : Int) := by
      omega
    rw [this, get_char_nat]
    exact hd
  · exact ⟨h.inv, hn, hf, by omega, hlen_lt, hfirst, hd, by rw [hα, hfu]; omega, hocc⟩

theorem split_state_text {e : Nat} {span : Int} {cb d : Char} :
    (t.split_state e span cb d).text = t.text := rfl

theorem split_state_active {e : Nat} {span : Int} {cb d : Char} :
    (t.split_state e span cb d).active = t.active := rfl

theorem LoopInv.mid_split (h : t.LoopInv L lp i j) {f len : Nat} {cb d c : Char}
    (hp : t.SplitPre L f len cb d (seg t.text j (i - j)))
    (hfu : t.es f = t.active.origin_node)
    (hlen : j + (L t.active.origin_node).length + len = i)
    (hc : t.text[i]? = some c) (hdc : d ≠ c) :
    (t.split_state f ((len : Int) - 1) cb d).MidInv (upd L t.node_count (seg t.text j (i - j)))
      lp i j t.node_count := by
  have hα : (seg t.text j (i - j)).length = i - j :=
    seg_length_of_le (by rw [h.len]; omega)
  have hlpos := hp.len_pos
  have hLo : upd L t.node_count (seg t.text j (i - j)) t.active.origin_node
      = L t.active.origin_node := hp.label_old (h.inv.internal_lt h.act_int)
  constructor <;> (try simp only [split_state_text, split_state_active])
  · exact hp.tree_inv
  · exact h.len
  · omega
  · exact hp.internal_new
  · rw [upd_same]; exact hα
  · rw [upd_same]
    exact occ_seg (by rw [h.len]; omega)
  · intro c' hc'
    have hc'' : t.text[i]? = some c' := hc'
    rw [hc] at hc''
    cases hc''
    rw [split_state_find h.inv hp.lt, if_pos rfl, if_neg (fun x => hdc x.symm)]
  · intro e he ho
    have he' : e < t.edge_count + 1 := he
    by_cases hen : e = t.edge_count
    · constructor
      · intro hx
        exact absurd (by rw [hen, h.inv.counts]) hx
      · intro _
        exact ⟨f, by simp [split_state]; have := hp.lt; omega, hp.es_self⟩
    · have hlt : e < t.edge_count := by omega
      have hcl : ¬ t.is_open e := by
        by_cases hef : e = f
        · rw [hef]; rw [hef] at ho
          exact fun x => ho (hp.open_self.mpr x)
        · rw [← is_open_congr (split_state_edge_old (t := t) (e := f) (g := e) hef hen)]
          exact ho
      constructor
      · intro _
        exact hp.two_children (h.branching e hlt hcl)
      · intro hx
        have := h.inv.counts
        omega
  · exact hp.internal h.act_int
  · exact h.act_end
  · rw [hLo]; exact h.act_begin
  · rw [hLo]; omega
  · rw [hLo]; exact h.act_occ
  · intro h0
    rcases h.links _ h.act_int h0 with hl | hl
    · exact absurd hl (h.lp_ne h0 (by omega))
    · exact hp.link_ok h.act_int hl
  · exact hp.leaves h.leaves
  · intro q l hql
    exact hp.spelled (h.complete q l hql)
  · intro v hv h0 hvn
    have hv' : t.Internal v := by
      rcases hp.internal_iff.mp hv with hv | hv
      · exact hv
      · exact absurd hv hvn
    rcases h.links v hv' h0 with hl | hl
    · exact Or.inl hl
    · exact Or.inr (hp.link_ok hv' hl)
  · intro m hm h0
    obtain ⟨h1, h2, h3, d', h4, h5⟩ := h.last m hm h0
    refine ⟨hp.internal h1, h2, ?_, d', h4, hp.spelled h5⟩
    rw [hp.label_old (h.inv.internal_lt h1)]
    exact h3
  · intro _
    refine ⟨d, ?_, ?_⟩
    · rw [hc]
      exact fun x => hdc (Option.some.inj x).symm
    · apply hp.spelled
      have ok := h.inv.edge_ok f hp.lt
      have hpa := ok.pos_add
      have hnl := hp.next_lt
      rw [h.len] at hnl
      have hne : t.eb f + len ≠ i := by
        intro hx
        have := hp.next
        rw [hx, hc] at this
        exact hdc (Option.some.inj this).symm
      have hd' : t.text[t.edge_pos L f + (seg t.text j (i - j)).length]? = some d := by
        rw [hα, ← hp.next]
        congr 1
        rw [hfu] at hpa
        omega
      have hnw := next_word hp.occ (occ_seg (by rw [h.len]; omega)) hd' (by rw [hα]; omega)
      rw [hα] at hnw
      rw [show i - (j + 1) = i - j - 1 by omega, ← hnw]
      apply h.complete
      rw [hfu] at hpa
      omega
  · exact hp.split_first_occ h.first

end suffix_tree


namespace suffix_tree

variable {t : suffix_tree} {L : Nat → List Char} {lp : Option Nat} {i j : Nat}

theorem LoopInv.exit_explicit (h : t.LoopInv L lp i j)
    (hex : t.active.is_explicit = true) {c : Char} (hc : t.text[i]? = some c) {g : Nat}
    (hfind : (t.node t.active.origin_node).find_edge c = some g) :
    t.ExitOK L lp t.active.origin_node i j := by
  have hle := h.act_le
  have hge : i ≤ j + (L t.active.origin_node).length := by
    simp only [suffix_tree_suffix.is_explicit, decide_eq_true_eq, h.act_begin, h.act_end] at hex
    omega
  refine ⟨h, h.act_int, ?_, ?_⟩
  · intro v hv h0
    obtain ⟨h1, h2, h3, _⟩ := h.last v hv h0
    have hpos := h.inv.label_pos h1 h0
    have hlv := h.last.length h.len hv h0 (by omega)
    by_cases hji : j + (L t.active.origin_node).length = i + 1
    · exfalso
      have h00 := h.act_root hji
      rw [h00, h.inv.Lroot] at hji
      simp only [List.length_nil, add_zero] at hji
      omega
    · have hD : (L t.active.origin_node).length = i - j := by omega
      have := h.act_occ
      unfold Occ at this
      rw [hD] at this
      rw [← this, h3, show i + 1 - j = (i - j) + 1 by omega, seg_tail]
      congr 1
      omega
  · by_cases hji : j + (L t.active.origin_node).length = i + 1
    · left
      have h00 := h.act_root hji
      rw [h00, h.inv.Lroot] at hji
      simp only [List.length_nil, add_zero] at hji
      rw [hji]
      simp [seg]
    · right
      have hD : (L t.active.origin_node).length = i - j := by omega
      obtain ⟨hg, hgu, hgc⟩ := (h.inv.find_iff _ _ _).mp hfind
      have ok := h.inv.edge_ok g hg
      have hw : seg t.text j (i + 1 - j) = L t.active.origin_node ++ [c] := by
        have hocc : Occ t.text j (L t.active.origin_node ++ [c]) := by
          rw [occ_append_iff]
          refine ⟨h.act_occ, ?_⟩
          rw [occ_single, hD, show j + (i - j) = i by omega]
          exact hc
        unfold Occ at hocc
        rw [← hocc]
        congr 1
        simp only [List.length_append, List.length_singleton, hD]
        omega
      rw [hw]
      refine ⟨g, hg, ?_, ?_, ?_⟩
      · rw [hgu]; simp
      · rw [hgu]
        have := ok.lab_len_pos
        simp only [List.length_append, List.length_singleton]
        omega
      · rw [occ_append_iff]
        have := ok.occ_start
        rw [hgu] at this
        refine ⟨this, ?_⟩
        have hpa := ok.pos_add
        rw [hgu] at hpa
        rw [occ_single, hpa]
        exact hgc

theorem LoopInv.exit_implicit (h : t.LoopInv L lp i j) {f len : Nat} {cb d : Char}
    (hp : t.SplitPre L f len cb d (seg t.text j (i - j)))
    (hfu : t.es f = t.active.origin_node)
    (hfind : (t.node t.active.origin_node).find_edge cb = some f)
    (hlen : j + (L t.active.origin_node).length + len = i)
    (hc : t.text[i]? = some d) :
    t.ExitOK L lp t.active.origin_node i j := by
  have hα : (seg t.text j (i - j)).length = i - j :=
    seg_length_of_le (by rw [h.len]; omega)
  have hlpos := hp.len_pos
  have ok := h.inv.edge_ok f hp.lt
  have hpa := ok.pos_add
  rw [hfu] at hpa
  have hαocc : Occ t.text j (seg t.text j (i - j)) := occ_seg (by rw [h.len]; omega)
  refine ⟨h, h.act_int, ?_, ?_⟩
  · intro v hv h0
    exfalso
    obtain ⟨h1, h2, h3, d', hd1, hd2⟩ := h.last v hv h0
    -- the word `text[j .. i-1]` followed by `d'` is spelled, so it runs along `f`
    have hwl : (seg t.text j (i - j) ++ [d']).length = i - j + 1 := by
      simp [hα]
    have hpre : (seg t.text j (i - j) ++ [d']).take (L t.active.origin_node).length
        = L t.active.origin_node := by
      rw [List.take_append_of_le_length (by rw [hα]; omega)]
      exact occ_take_eq hαocc h.act_occ (by rw [hα]; omega)
    obtain ⟨f', hf', hfu', hfc, hcase⟩ :=
      h.inv.trie hd2 h.act_int hpre (by rw [hwl]; omega)
    have hff : f' = f := by
      have h1 : (seg t.text j (i - j) ++ [d'])[(L t.active.origin_node).length]?
          = t.text[t.eb f]? := by
        have e1 := occ_iff.mp hp.occ (L t.active.origin_node).length (by rw [hα]; omega)
        rw [hpa] at e1
        rw [List.getElem?_append_left (by rw [hα]; omega), e1]
      rw [h1] at hfc
      have : (t.node t.active.origin_node).find_edge cb = some f' :=
        (h.inv.find_iff _ _ _).mpr ⟨hf', hfu', by rw [hfc]; exact hp.first⟩
      rw [hfind] at this
      exact (Option.some.inj this).symm
    rw [hff] at hcase
    rcases hcase with hon | ⟨hfo, hfl, _⟩
    · have hocc := hon.2.2.2
      rw [occ_append_iff, hα, occ_single] at hocc
      have : t.edge_pos L f + (i - j) = t.eb f + len := by omega
      rw [this, hp.next] at hocc
      have := Option.some.inj hocc.2
      rw [this] at hc
      exact hd1 hc
    · have := ok.closed_len hfo
      rw [hfu] at this
      have := hp.len_lt
      rw [hwl] at hfl
      omega
  · right
    have hw : seg t.text j (i + 1 - j) = seg t.text j (i - j) ++ [d] := by
      rw [show i + 1 - j = (i - j) + 1 by omega]
      apply seg_succ
      rw [show j + (i - j) = i by omega]
      exact hc
    rw [hw]
    refine ⟨f, hp.lt, ?_, ?_, ?_⟩
    · rw [hfu]
      simp only [List.length_append, List.length_singleton, hα]
      omega
    · rw [hfu]
      simp only [List.length_append, List.length_singleton, hα]
      have := hp.len_lt
      omega
    · rw [occ_append_iff, hα, occ_single]
      refine ⟨hp.occ, ?_⟩
      have : t.edge_pos L f + (i - j) = t.eb f + len := by omega
      rw [this]
      exact hp.next

end suffix_tree


namespace suffix_tree

variable {t t' : suffix_tree} {L : Nat → List Char} {lp : Option Nat} {i j : Nat}

theorem SameShape.branching (h : SameShape t t') (hb : t.Branching) : t'.Branching := by
  intro e he ho
  rw [h.edge_count] at he
  obtain ⟨f, g, hf, hg, hfg, hfv, hgv⟩ :=
    hb e he (fun x => ho ((is_open_congr (congrFun h.edge e)).mpr x))
  refine ⟨f, g, by rw [h.edge_count]; exact hf, by rw [h.edge_count]; exact hg, hfg, ?_, ?_⟩
  · rw [es_congr (congrFun h.edge f)]; exact hfv
  · rw [es_congr (congrFun h.edge g)]; exact hgv

theorem SameShape.ss_leaves (h : SameShape t t') (hl : t.LeavesOK L j) : t'.LeavesOK L j := by
  constructor
  · intro e he ho
    rw [edge_pos_congr (congrFun h.edge e) rfl]
    exact hl.lt e (by rw [← h.edge_count]; exact he)
      ((is_open_congr (congrFun h.edge e)).mp ho)
  · intro j' hj'
    obtain ⟨e, he, ho, hp⟩ := hl.ex j' hj'
    refine ⟨e, by rw [h.edge_count]; exact he,
      (is_open_congr (congrFun h.edge e)).mpr ho, ?_⟩
    rw [edge_pos_congr (congrFun h.edge e) rfl]; exact hp

theorem SameShape.complete {m : Nat} (h : SameShape t t') (hc : t.Complete L m) :
    t'.Complete L m := by
  intro q l hql
  rw [h.text]
  exact h.ss_spelled (hc q l hql)

theorem LoopInv.complete_succ (h : t.LoopInv L lp i j)
    (hsp : t.Spelled L (seg t.text j (i + 1 - j))) : t.Complete L (i + 1) := by
  intro q l hql
  by_cases hle : q + l ≤ i
  · exact h.complete q l hle
  have hq : q + l = i + 1 := by omega
  by_cases hl0 : l = 0
  · left; rw [hl0]; exact seg_zero _ _
  have hlen := h.len
  by_cases hqj : q < j
  · obtain ⟨e, he, ho, hp⟩ := h.leaves.ex q hqj
    have ok := h.inv.edge_ok e he
    have hpa := ok.pos_add
    have hb := ok.begin_lt
    right
    refine ⟨e, he, ?_, ?_, ?_⟩
    · rw [seg_length_of_le (by omega)]; omega
    · rw [seg_length_of_le (by omega), lab_len_open ho]; omega
    · rw [hp]; exact occ_seg (by omega)
  · have hW : (seg t.text j (i + 1 - j)).length = i + 1 - j := seg_length_of_le (by omega)
    rcases hsp with h0 | ⟨g, hg⟩
    · have := congrArg List.length h0
      rw [hW] at this
      simp at this
      omega
    · have ok := h.inv.edge_ok g hg.1
      have hpa := ok.pos_add
      have hocc := hg.2.2.2
      have hbound : t.edge_pos L g + (i + 1 - j) ≤ i := by
        by_cases ho : t.is_open g
        · have := h.leaves.lt g hg.1 ho
          omega
        · have h1 := hg.2.2.1
          rw [hW, lab_len_closed ho] at h1
          have := ok.closed_lt ho
          have := ok.closed_le ho
          have := ok.begin_nonneg
          unfold eb at hpa
          omega
      have hWj : Occ t.text j (seg t.text j (i + 1 - j)) := occ_seg (by omega)
      have h1 := occ_drop hWj (q - j)
      have h2 := occ_drop hocc (q - j)
      have hdl : ((seg t.text j (i + 1 - j)).drop (q - j)).length = l := by
        rw [List.length_drop, hW]; omega
      have e1 : seg t.text q l = (seg t.text j (i + 1 - j)).drop (q - j) := by
        unfold Occ at h1
        rw [hdl, show j + (q - j) = q by omega] at h1
        exact h1
      have e2 : seg t.text (t.edge_pos L g + (q - j)) l
          = (seg t.text j (i + 1 - j)).drop (q - j) := by
        unfold Occ at h2
        rw [hdl] at h2
        exact h2
      rw [e1, ← e2]
      exact h.complete _ _ (by omega)

theorem ExitOK.finish {parent : Nat} (h : t.ExitOK L lp parent i j)
    (hn : (t.text.length : Int) ≤ INF) :
    ∃ t', suffix_tree.canonize
        { t.update_suffix_link lp parent with
            active := (t.update_suffix_link lp parent).active.inc_end_index } = some t' ∧
      t'.PhaseInv L j ∧ SameShape t t' := by
  have hl := h.loop
  have hss2 : SameShape t (t.update_suffix_link lp parent) := SameShape.update_suffix_link _ _ _
  have hact : (t.update_suffix_link lp parent).active = t.active :=
    update_suffix_link_active _ _ _
  have hss3 := SameShape.set_active (t.update_suffix_link lp parent)
    (t.update_suffix_link lp parent).active.inc_end_index
  have hss := hss2.ss_trans hss3
  have hs : suffix_tree.SuffixOK
      { t.update_suffix_link lp parent with
          active := (t.update_suffix_link lp parent).active.inc_end_index } L
      (t.update_suffix_link lp parent).active.inc_end_index j (i + 1) := by
    rw [hact]
    refine ⟨hss.ss_internal hl.act_int, hl.act_begin, ?_, hl.act_le, ?_, ?_, ?_⟩
    · simp only [suffix_tree_suffix.inc_end_index, hl.act_end]
      omega
    · show i + 1 ≤ (t.update_suffix_link lp parent).text.length
      rw [hss2.text, hl.len]
    · show Occ (t.update_suffix_link lp parent).text _ _
      rw [hss2.text]; exact hl.act_occ
    · show suffix_tree.Spelled _ L (seg (t.update_suffix_link lp parent).text _ _)
      rw [hss2.text]
      exact hss.ss_spelled h.spelled
  have hinv := hss.ss_tree_inv hl.inv
  obtain ⟨s', hs1, hs2, hs3⟩ := canonize_suffix_ok hinv
    (by show (((t.update_suffix_link lp parent).text.length : Nat) : Int) ≤ INF
        rw [hss2.text]; exact hn) hs
  refine ⟨_, canonize_eq hs1, ?_, hss.ss_trans (SameShape.set_active _ _)⟩
  have hss4 := SameShape.set_active
    ({ t.update_suffix_link lp parent with
        active := (t.update_suffix_link lp parent).active.inc_end_index } : suffix_tree) s'
  have htext : t.text.length = i + 1 := hl.len
  have key : ∀ t'' : suffix_tree, SameShape t t'' → t''.active = s' →
      t''.SuffixOK L s' j (i + 1) → t''.Canonical s' →
      (∀ u, (t''.node u).suffix_link = ((t.update_suffix_link lp parent).node u).suffix_link) →
      t''.PhaseInv L j := by
    intro t'' hssT ha hso hca hlk
    constructor
    · exact hssT.ss_tree_inv hl.inv
    · exact hssT.branching hl.branching
    · rw [ha, hssT.text, htext]; exact hso
    · rw [ha]; exact hca
    · exact hssT.ss_leaves hl.leaves
    · rw [hssT.text, htext]
      exact hssT.complete (hl.complete_succ h.spelled)
    · intro u hu h0
      have hu' : t.Internal u := hssT.symm.ss_internal hu
      have hroot : t.root = 0 := hl.inv.root0
      by_cases hlp : lp = some u
      · refine ⟨parent, ?_, hssT.ss_internal h.parent_int, h.parent_link u hlp h0⟩
        rw [hlk, update_suffix_link_link, if_pos ⟨hlp, by rw [hroot]; exact h0⟩]
      · rcases hl.links u hu' h0 with hx | ⟨w, hw1, hw2, hw3⟩
        · exact absurd hx hlp
        · refine ⟨w, ?_, hssT.ss_internal hw2, hw3⟩
          rw [hlk, update_suffix_link_link, if_neg (fun x => hlp x.1)]
          exact hw1
    · exact hssT.ss_first_occ hl.first
  exact key _ (hss.ss_trans hss4) rfl (hss4.suffix_ok hs2) (hss4.canonical hs3) (fun _ => rfl)

end suffix_tree


namespace suffix_tree

variable {i : Nat}

theorem add_prefix_loop_ok : ∀ (fuel : Nat) (t : suffix_tree) (L : Nat → List Char)
    (lp : Option Nat) (j : Nat), t.LoopInv L lp i j → (t.text.length : Int) ≤ INF →
    i + 2 ≤ fuel + j →
    ∃ t1 lp1 p1 L1 j1, suffix_tree.add_prefix_loop (i : Int) fuel t lp = some (t1, lp1, p1) ∧
      t1.ExitOK L1 lp1 p1 i j1 := by
  intro fuel
  induction fuel with
  | zero =>
    intro t L lp j h _ hf
    have := h.act_le
    omega
  | succ fuel ih =>
    intro t L lp j h hn hf
    obtain ⟨c, hc⟩ := h.char
    rw [suffix_tree.add_prefix_loop]
    by_cases hex : t.active.is_explicit = true
    · rw [if_pos hex, h.get_char_i hc]
      simp only
      cases hfind : (t.node t.active.origin_node).find_edge c with
      | some g =>
        simp only
        exact ⟨t, lp, _, L, j, rfl, h.exit_explicit hex hc hfind⟩
      | none =>
        simp only
        obtain ⟨t', ht', hl'⟩ := (h.mid_explicit hex hc hfind).add_leaf hn
        rw [ht']
        simp only
        exact ih t' L _ (j + 1) hl' (by rw [hl'.len, ← h.len]; exact hn) (by omega)
    · rw [if_neg hex]
      obtain ⟨cb, f, d, len, hcb, hfind, hd, hgs, hfu, hlen, hp⟩ := h.implicit hex hn
      rw [hcb]
      simp only
      rw [hfind]
      simp only
      rw [hd, h.get_char_i hc]
      simp only
      by_cases hdc : d = c
      · rw [if_pos hdc]
        exact ⟨t, lp, _, L, j, rfl, h.exit_implicit hp hfu hfind hlen (hdc ▸ hc)⟩
      · rw [if_neg hdc]
        have hse := split_edge_eq (t := t) (e := f) (by
            have := ((h.inv.find_iff _ _ _).mp hfind).2.2
            have hb : (t.edge f).begin_index = (t.eb f : Int) := hp.begin_eq
            rw [hb, get_char_nat]; exact this) hd hfu.symm
          (Nat.ne_of_lt (h.inv.es_lt hp.lt)) (Nat.ne_of_lt hp.lt)
        rw [hse]
        simp only
        rw [hgs]
        have hm := h.mid_split hp hfu hlen hc hdc
        obtain ⟨t', ht', hl'⟩ := hm.add_leaf (by rw [split_state_text]; exact hn)
        rw [ht']
        simp only
        exact ih t' _ _ (j + 1) hl' (by rw [hl'.len, ← h.len]; exact hn) (by omega)

theorem add_prefix_ok {t : suffix_tree} {L : Nat → List Char} {j : Nat}
    (h : t.LoopInv L none i j) (hn : (t.text.length : Int) ≤ INF) :
    ∃ t', suffix_tree.add_prefix t (i : Int) = some t' ∧ t'.Good := by
  unfold suffix_tree.add_prefix
  obtain ⟨t1, lp1, p1, L1, j1, h1, h2⟩ :=
    add_prefix_loop_ok (t.text.length + 2) t L none j h hn (by rw [h.len]; omega)
  rw [h1]
  simp only
  obtain ⟨t', ht', hp', _⟩ := h2.finish (by rw [h2.loop.len, ← h.len]; exact hn)
  exact ⟨t', ht', L1, j1, hp'⟩

end suffix_tree


namespace suffix_tree

variable {t : suffix_tree} {L : Nat → List Char} {j : Nat} {c : Char}

theorem seg_append_text {T T' : List Char} {q l : Nat} (h : q + l ≤ T.length) :
    seg (T ++ T') q l = seg T q l := by
  have h1 : Occ (T ++ T') q (seg T q l) := occ_append_text (occ_seg h) T'
  unfold Occ at h1
  rw [seg_length_of_le h] at h1
  exact h1

theorem push_is_open (e : Nat) :
    suffix_tree.is_open { t with text := t.text ++ [c] } e ↔ t.is_open e := Iff.rfl

theorem push_internal (u : Nat) :
    suffix_tree.Internal { t with text := t.text ++ [c] } u ↔ t.Internal u := Iff.rfl

theorem push_lab_len_le (e : Nat) :
    t.lab_len e ≤ suffix_tree.lab_len { t with text := t.text ++ [c] } e := by
  unfold lab_len eb
  simp only [List.length_append, List.length_singleton]
  split <;> omega

theorem push_lab_len_closed {e : Nat} (ho : ¬ t.is_open e) :
    suffix_tree.lab_len { t with text := t.text ++ [c] } e = t.lab_len e := by
  rw [lab_len_closed ho, lab_len_closed ((push_is_open e).not.mpr ho)]

theorem push_on_edge {e : Nat} {w : List Char} (h : t.OnEdge L e w) :
    suffix_tree.OnEdge { t with text := t.text ++ [c] } L e w := by
  obtain ⟨h1, h2, h3, h4⟩ := h
  refine ⟨h1, h2, ?_, occ_append_text h4 _⟩
  have := push_lab_len_le (t := t) (c := c) e
  show w.length ≤ (L (t.es e)).length + _
  omega

theorem push_spelled {w : List Char} (h : t.Spelled L w) :
    suffix_tree.Spelled { t with text := t.text ++ [c] } L w := by
  rcases h with h0 | ⟨e, he⟩
  · exact Or.inl h0
  · exact Or.inr ⟨e, push_on_edge he⟩

theorem push_tree_inv (h : t.TreeInv L) :
    suffix_tree.TreeInv { t with text := t.text ++ [c] } L := by
  constructor
  · exact h.root0
  · exact h.counts
  · exact h.Lroot
  · intro u ch e
    show (t.node u).find_edge ch = some e ↔
      (e < t.edge_count ∧ t.es e = u ∧ (t.text ++ [c])[t.eb e]? = some ch)
    rw [h.find_iff]
    constructor
    · rintro ⟨h1, h2, h3⟩
      refine ⟨h1, h2, ?_⟩
      rw [List.getElem?_append_left (h.edge_ok e h1).begin_lt]
      exact h3
    · rintro ⟨h1, h2, h3⟩
      refine ⟨h1, h2, ?_⟩
      rw [List.getElem?_append_left (h.edge_ok e h1).begin_lt] at h3
      exact h3
  · intro e he
    have ok := h.edge_ok e he
    constructor
    · exact ok.end_node
    · exact ok.start_int
    · exact ok.begin_nonneg
    · show t.eb e < (t.text ++ [c]).length
      have := ok.begin_lt
      simp only [List.length_append, List.length_singleton]
      omega
    · exact ok.depth_le
    · exact occ_append_text ok.occ_start _
    · exact ok.closed_le
    · intro ho
      have := ok.closed_lt ho
      show (t.edge e).end_index + 2 ≤ ((t.text ++ [c]).length : Int)
      simp only [List.length_append, List.length_singleton]
      omega
    · intro ho
      rw [push_lab_len_closed (t := t) (c := c) ho]
      exact ok.closed_len ho
    · intro ho
      exact occ_append_text (ok.closed_occ ho) _
  · exact h.sorted

theorem push_first_occ (h : t.TreeInv L) (hf : t.FirstOcc L) :
    suffix_tree.FirstOcc { t with text := t.text ++ [c] } L := by
  intro e he q ho hq
  have ok := h.edge_ok e he
  show t.edge_pos L e ≤ q
  have hq' : (t.text ++ [c])[q + (L (t.es e)).length]? = (t.text ++ [c])[t.eb e]? := hq
  have ho' : Occ (t.text ++ [c]) q (L (t.es e)) := ho
  rw [List.getElem?_append_left ok.begin_lt] at hq'
  by_cases hlt : q + (L (t.es e)).length < t.text.length
  · rw [List.getElem?_append_left hlt] at hq'
    exact hf e he q (occ_of_append_text ho' (by omega)) hq'
  · have := ok.begin_lt
    unfold suffix_tree.edge_pos
    omega

theorem PhaseInv.push (h : t.PhaseInv L j) :
    suffix_tree.LoopInv { t with text := t.text ++ [c] } L none t.text.length j := by
  have hs := h.act
  constructor
  · exact push_tree_inv h.inv
  · exact h.branching
  · show (t.text ++ [c]).length = _
    simp
  · exact hs.int
  · exact hs.end_eq
  · exact hs.begin_eq
  · have := hs.le
    show j + (L t.active.origin_node).length ≤ t.text.length + 1
    omega
  · intro hx
    have := hs.le
    have hx' : j + (L t.active.origin_node).length = t.text.length + 1 := hx
    omega
  · exact occ_append_text hs.occ _
  · rcases h.can with h1 | ⟨ch, f, h1, h2, h3⟩
    · exact Or.inl h1
    · refine Or.inr ⟨ch, f, ?_, h2, h3⟩
      unfold suffix_tree.get_char at h1 ⊢
      show (if 0 ≤ t.active.begin_index then (t.text ++ [c])[t.active.begin_index.toNat]?
        else none) = some ch
      split at h1
      · rename_i h0
        rw [if_pos h0]
        have hlt : t.active.begin_index.toNat < t.text.length := by
          by_contra hcon
          rw [List.getElem?_eq_none (not_lt.mp hcon)] at h1
          exact absurd h1 (by simp)
        rw [List.getElem?_append_left hlt]
        exact h1
      · exact absurd h1 (by simp)
  · exact ⟨h.leaves.lt, h.leaves.ex⟩
  · intro q l hql
    show suffix_tree.Spelled _ L (seg (t.text ++ [c]) q l)
    rw [seg_append_text hql]
    exact push_spelled (h.complete q l hql)
  · intro u hu h0
    exact Or.inr (h.links u hu h0)
  · intro m hm
    exact absurd hm (by simp)
  · exact push_first_occ h.inv h.first

theorem to_int_small {n : Nat} (h : (n : Int) ≤ INF) : to_int n = (n : Int) := by
  unfold to_int
  unfold INF at h
  have h1 : n % 4294967296 = n := Nat.mod_eq_of_lt (by omega)
  rw [h1, if_pos (by omega)]

theorem Good.add_character (h : t.Good) (c : Char)
    (hn : (t.text.length : Int) + 1 ≤ INF) :
    ∃ t', t.add_character c = some t' ∧ t'.Good := by
  obtain ⟨L, j, hp⟩ := h
  unfold suffix_tree.add_character
  simp only [List.length_append, List.length_singleton, Nat.add_sub_cancel]
  rw [to_int_small (by omega)]
  exact add_prefix_ok hp.push (by
    show (((t.text ++ [c]).length : Nat) : Int) ≤ INF
    simp only [List.length_append, List.length_singleton]
    omega)

end suffix_tree


namespace suffix_tree

theorem Frame.frame_refl (t : suffix_tree) : Frame t t := ⟨rfl, rfl⟩

theorem Frame.frame_trans {t t' t'' : suffix_tree} (h : Frame t t') (h' : Frame t' t'') :
    Frame t t'' := ⟨h'.1.trans h.1, h'.2.trans h.2⟩

theorem insert_frame {t t' : suffix_tree} {e : Nat} (h : t.insert e = some t') : Frame t t' := by
  unfold suffix_tree.insert at h
  split at h
  · exact absurd h (by simp)
  · simp only [Option.some.injEq] at h
    subst h
    exact ⟨rfl, rfl⟩

theorem remove_frame {t t' : suffix_tree} {e : Nat} (h : t.remove e = some t') : Frame t t' := by
  unfold suffix_tree.remove at h
  split at h
  · exact absurd h (by simp)
  · simp only [Option.some.injEq] at h
    subst h
    exact ⟨rfl, rfl⟩

theorem new_edge_frame (t : suffix_tree) (b e : Int) (s : Nat) :
    Frame t (t.new_edge b e s).1 := ⟨rfl, rfl⟩

theorem canonize_frame {t t' : suffix_tree} (h : t.canonize = some t') : Frame t t' := by
  unfold suffix_tree.canonize at h
  split at h
  · exact absurd h (by simp)
  · simp only [Option.some.injEq] at h
    subst h
    exact ⟨rfl, rfl⟩

theorem update_suffix_link_frame (t : suffix_tree) (n : Option Nat) (l : Nat) :
    Frame t (t.update_suffix_link n l) := by
  unfold suffix_tree.update_suffix_link
  cases n with
  | none => exact Frame.frame_refl t
  | some n =>
    simp only
    split
    · exact ⟨rfl, rfl⟩
    · exact Frame.frame_refl t

theorem change_origin_node_frame {t t' : suffix_tree} (h : t.change_origin_node = some t') :
    Frame t t' := by
  unfold suffix_tree.change_origin_node at h
  split at h
  · exact absurd h (by simp)
  · simp only [Option.some.injEq] at h
    subst h
    exact ⟨rfl, rfl⟩

theorem split_edge_frame {t t' : suffix_tree} {e m : Nat} (h : t.split_edge e = some (t', m)) :
    Frame t t' := by
  unfold suffix_tree.split_edge at h
  split at h
  · exact absurd h (by simp)
  · rename_i t1 h1
    simp only at h
    split at h
    · exact absurd h (by simp)
    · rename_i t3 h3
      split at h
      · exact absurd h (by simp)
      · rename_i t6 h6
        simp only [Option.some.injEq, Prod.mk.injEq] at h
        rw [← h.1]
        have f1 := remove_frame h1
        have f3 := insert_frame h3
        have f6 := insert_frame h6
        exact ⟨f6.1.trans (f3.1.trans f1.1), f6.2.trans (f3.2.trans f1.2)⟩

theorem add_leaf_frame {t t' : suffix_tree} {i : Int} {lp : Option Nat} {p : Nat}
    (h : t.add_leaf i lp p = some t') : Frame t t' := by
  unfold suffix_tree.add_leaf at h
  simp only at h
  split at h
  · exact absurd h (by simp)
  · rename_i t2 h2
    have f2 := (new_edge_frame t i INF p).frame_trans (insert_frame h2)
    have f3 := f2.frame_trans (update_suffix_link_frame t2 lp p)
    split at h
    · have f4 := canonize_frame h
      exact f3.frame_trans ⟨f4.1, f4.2⟩
    · split at h
      · exact absurd h (by simp)
      · rename_i t4 h4
        exact f3.frame_trans ((change_origin_node_frame h4).frame_trans (canonize_frame h))

theorem add_prefix_loop_frame {i : Int} : ∀ (fuel : Nat) (t : suffix_tree) (lp : Option Nat)
    (r : suffix_tree × Option Nat × Nat),
    suffix_tree.add_prefix_loop i fuel t lp = some r → Frame t r.1 := by
  intro fuel
  induction fuel with
  | zero =>
    intro t lp r h
    exact absurd h (by simp [suffix_tree.add_prefix_loop])
  | succ fuel ih =>
    intro t lp r h
    rw [suffix_tree.add_prefix_loop] at h
    split at h
    · split at h
      · exact absurd h (by simp)
      · split at h
        · simp only [Option.some.injEq] at h
          rw [← h]
          exact Frame.frame_refl t
        · split at h
          · exact absurd h (by simp)
          · rename_i t1 h1
            exact (add_leaf_frame h1).frame_trans (ih _ _ _ h)
    · split at h
      · exact absurd h (by simp)
      · split at h
        · exact absurd h (by simp)
        · split at h
          · split at h
            · simp only [Option.some.injEq] at h
              rw [← h]
              exact Frame.frame_refl t
            · split at h
              · exact absurd h (by simp)
              · rename_i t1 parent h1
                split at h
                · exact absurd h (by simp)
                · rename_i t2 h2
                  exact (split_edge_frame h1).frame_trans ((add_leaf_frame h2).frame_trans (ih _ _ _ h))
          · exact absurd h (by simp)

theorem add_prefix_frame {t t' : suffix_tree} {i : Int}
    (h : suffix_tree.add_prefix t i = some t') : Frame t t' := by
  unfold suffix_tree.add_prefix at h
  split at h
  · exact absurd h (by simp)
  · rename_i t1 lp1 p1 h1
    have f1 := add_prefix_loop_frame _ _ _ _ h1
    simp only at h
    have f2 := update_suffix_link_frame t1 lp1 p1
    have f3 := canonize_frame h
    exact f1.frame_trans (f2.frame_trans ⟨f3.1, f3.2⟩)

theorem add_character_text {t t' : suffix_tree} {c : Char} (h : t.add_character c = some t') :
    t'.text = t.text ++ [c] ∧ t'.delimiters_count = t.delimiters_count := by
  unfold suffix_tree.add_character at h
  have := add_prefix_frame h
  exact ⟨this.1, this.2⟩

theorem add_characters_text : ∀ (s : List Char) {t t' : suffix_tree},
    t.add_characters s = some t' →
    t'.text = t.text ++ s ∧ t'.delimiters_count = t.delimiters_count
  | [], t, t', h => by
    simp only [suffix_tree.add_characters, Option.some.injEq] at h
    subst h
    simp
  | c :: rest, t, t', h => by
    rw [suffix_tree.add_characters] at h
    split at h
    · exact absurd h (by simp)
    · rename_i t1 h1
      have f1 := add_character_text h1
      have f2 := add_characters_text rest h
      rw [f2.1, f1.1, f2.2, f1.2]
      simp

theorem add_delimiter_text {t t' : suffix_tree} (h : t.add_delimiter = some t') :
    t'.text = t.text ++ [delimiter t.delimiters_count] ∧
      t'.delimiters_count = t.delimiters_count + 1 := by
  unfold suffix_tree.add_delimiter at h
  have := add_character_text h
  exact ⟨this.1, this.2⟩

theorem add_string_text {t t' : suffix_tree} {s : List Char} (h : t.add_string s = some t') :
    t'.text = t.text ++ s ++ [delimiter t.delimiters_count] ∧
      t'.delimiters_count = t.delimiters_count + 1 := by
  unfold suffix_tree.add_string at h
  split at h
  · exact absurd h (by simp)
  · rename_i t1 h1
    have f1 := add_characters_text s h1
    have f2 := add_delimiter_text h
    rw [f2.1, f2.2, f1.1, f1.2]
    exact ⟨rfl, rfl⟩

end suffix_tree


namespace suffix_tree

theorem PhaseInv.same {t t' : suffix_tree} {L : Nat → List Char} {j : Nat}
    (h : t.PhaseInv L j) (hss : SameShape t t') (ha : t'.active = t.active)
    (hl : ∀ u, (t'.node u).suffix_link = (t.node u).suffix_link) : t'.PhaseInv L j := by
  constructor
  · exact hss.ss_tree_inv h.inv
  · exact hss.branching h.branching
  · rw [ha, hss.text]; exact hss.suffix_ok h.act
  · rw [ha]; exact hss.canonical h.can
  · exact hss.ss_leaves h.leaves
  · rw [hss.text]; exact hss.complete h.complete
  · intro u hu h0
    obtain ⟨w, h1, h2, h3⟩ := h.links u (hss.symm.ss_internal hu) h0
    exact ⟨w, by rw [hl]; exact h1, hss.ss_internal h2, h3⟩
  · exact hss.ss_first_occ h.first

theorem Good.init (d : Nat) : (suffix_tree.init d).Good := by
  refine ⟨fun _ => [], 0, ?_⟩
  constructor
  · constructor
    · rfl
    · rfl
    · rfl
    · intro u ch e
      constructor
      · intro h
        exact absurd h (by simp [suffix_tree.init, suffix_tree_node.init,
          suffix_tree_node.find_edge, map_find])
      · rintro ⟨h, _⟩
        exact absurd h (by simp [suffix_tree.init])
    · intro e he
      exact absurd he (by simp [suffix_tree.init])
    · intro u
      simp [suffix_tree.init, suffix_tree_node.init, map_sorted]
  · intro e he
    exact absurd he (by simp [suffix_tree.init])
  · refine ⟨Or.inl rfl, ?_, ?_, ?_, ?_, occ_nil _ _, Or.inl ?_⟩
    · simp [suffix_tree.init]
    · simp [suffix_tree.init]
    · simp [suffix_tree.init]
    · simp [suffix_tree.init]
    · simp [suffix_tree.init, seg]
  · left
    simp [suffix_tree.init]
  · constructor
    · intro e he
      exact absurd he (by simp [suffix_tree.init])
    · intro j' hj'
      exact absurd hj' (by simp)
  · intro q l hql
    left
    have : l = 0 := by
      simp only [suffix_tree.init, List.length_nil] at hql
      omega
    rw [this]
    exact seg_zero _ _
  · intro u hu h0
    rcases hu with h | ⟨e, he, _⟩
    · exact absurd h h0
    · exact absurd he (by simp [suffix_tree.init])
  · intro e he
    exact absurd he (by simp [suffix_tree.init])

theorem Good.add_characters : ∀ (s : List Char) {t : suffix_tree}, t.Good →
    (t.text.length : Int) + s.length ≤ INF →
    ∃ t', t.add_characters s = some t' ∧ t'.Good
  | [], t, h, _ => ⟨t, rfl, h⟩
  | c :: rest, t, h, hn => by
    simp only [List.length_cons, Nat.cast_add, Nat.cast_one] at hn
    obtain ⟨t1, h1, g1⟩ := h.add_character c (by omega)
    have f1 := add_character_text h1
    obtain ⟨t2, h2, g2⟩ := Good.add_characters rest g1 (by
      rw [f1.1]
      simp only [List.length_append, List.length_singleton, Nat.cast_add, Nat.cast_one]
      omega)
    refine ⟨t2, ?_, g2⟩
    rw [suffix_tree.add_characters, h1]
    exact h2

theorem Good.add_delimiter {t : suffix_tree} (h : t.Good)
    (hn : (t.text.length : Int) + 1 ≤ INF) :
    ∃ t', t.add_delimiter = some t' ∧ t'.Good := by
  unfold suffix_tree.add_delimiter
  obtain ⟨L, j, hp⟩ := h
  have hg : suffix_tree.Good { t with delimiters_count := t.delimiters_count + 1 } :=
    ⟨L, j, hp.same ⟨rfl, rfl, rfl, rfl, rfl, fun _ => rfl⟩ rfl (fun _ => rfl)⟩
  exact hg.add_character _ hn

theorem Good.add_string {t : suffix_tree} (h : t.Good) (s : List Char)
    (hn : (t.text.length : Int) + s.length + 1 ≤ INF) :
    ∃ t', t.add_string s = some t' ∧ t'.Good := by
  obtain ⟨t1, h1, g1⟩ := Good.add_characters s h (by omega)
  have f1 := add_characters_text s h1
  obtain ⟨t2, h2, g2⟩ := g1.add_delimiter (by
    rw [f1.1]
    simp only [List.length_append, Nat.cast_add]
    omega)
  refine ⟨t2, ?_, g2⟩
  unfold suffix_tree.add_string
  rw [h1]
  exact h2

end suffix_tree


namespace suffix_tree

variable {t : suffix_tree} {L : Nat → List Char}

theorem EdgeOK.label_bound (h : t.EdgeOK L e) : t.eb e + t.lab_len e ≤ t.text.length := by
  by_cases ho : t.is_open e
  · rw [lab_len_open ho]
    have := h.begin_lt
    omega
  · rw [lab_len_closed ho]
    have := h.closed_lt ho
    have := h.closed_le ho
    have := h.begin_nonneg
    unfold eb
    omega

theorem EdgeOK.label_length (h : t.EdgeOK L e) : (t.edge_label e).length = t.lab_len e :=
  seg_length_of_le h.label_bound

theorem EdgeOK.label_occ (h : t.EdgeOK L e) : Occ t.text (t.eb e) (t.edge_label e) :=
  occ_seg h.label_bound

theorem EdgeOK.path_occ (h : t.EdgeOK L e) :
    Occ t.text (t.edge_pos L e) (L (t.es e) ++ t.edge_label e) := by
  rw [occ_append_iff, h.pos_add]
  exact ⟨h.occ_start, h.label_occ⟩

theorem EdgeOK.closed_label (h : t.EdgeOK L e) (ho : ¬ t.is_open e) :
    L (e + 1) = L (t.es e) ++ t.edge_label e := by
  apply occ_eq_of_length (h.closed_occ ho) h.path_occ
  rw [h.closed_len ho, List.length_append, h.label_length]

theorem TreeInv.mem_edges (h : t.TreeInv L) {u : Nat} {c : Char} {e : Nat} :
    (c, e) ∈ (t.node u).edges ↔ (e < t.edge_count ∧ t.es e = u ∧ t.text[t.eb e]? = some c) := by
  rw [← h.find_iff]
  exact ⟨map_mem_find (h.sorted u), map_find_mem⟩

theorem Reaches.snoc {a b : Nat} {v : List Char} (hr : t.Reaches a v b) {c : Char} {e : Nat}
    (he : (c, e) ∈ (t.node b).edges) :
    t.Reaches a (v ++ t.edge_label e) (t.edge e).end_node := by
  induction hr with
  | here u =>
    have := Reaches.step he (Reaches.here (t.edge e).end_node)
    simpa using this
  | step hm _ ih =>
    rw [List.append_assoc]
    exact Reaches.step hm (ih he)

theorem TreeInv.reaches_label (h : t.TreeInv L) : ∀ (n u : Nat), t.Internal u →
    (L u).length = n → t.Reaches 0 (L u) u := by
  intro n
  induction n using Nat.strong_induction_on with
  | _ n ih =>
    intro u hu hn
    rcases hu with rfl | ⟨e, he, rfl, ho⟩
    · rw [h.Lroot]
      exact Reaches.here 0
    · have ok := h.edge_ok e he
      have hp := ih _ (by rw [← hn, ok.closed_len ho]; have := ok.lab_len_pos; omega)
        (t.es e) ok.start_int rfl
      obtain ⟨c, hc⟩ : ∃ c, t.text[t.eb e]? = some c :=
        ⟨_, List.getElem?_eq_getElem ok.begin_lt⟩
      have hm : (c, e) ∈ (t.node (t.es e)).edges := h.mem_edges.mpr ⟨he, rfl, hc⟩
      have := hp.snoc hm
      rw [ok.end_node, ← ok.closed_label ho] at this
      exact this

theorem TreeInv.path_of_spelled (h : t.TreeInv L) {w : List Char} (hw : t.Spelled L w) :
    t.PathSpells w := by
  rw [PathSpells, h.root0]
  rcases hw with rfl | ⟨e, he, hd, hl, ho⟩
  · exact ⟨0, [], Reaches.here 0, List.nil_prefix⟩
  · have ok := h.edge_ok e he
    have hp := h.reaches_label _ (t.es e) ok.start_int rfl
    obtain ⟨c, hc⟩ : ∃ c, t.text[t.eb e]? = some c :=
      ⟨_, List.getElem?_eq_getElem ok.begin_lt⟩
    have hm : (c, e) ∈ (t.node (t.es e)).edges := h.mem_edges.mpr ⟨he, rfl, hc⟩
    refine ⟨_, _, hp.snoc hm, ?_⟩
    have hlen : w.length ≤ (L (t.es e) ++ t.edge_label e).length := by
      rw [List.length_append, ok.label_length]; exact hl
    have := occ_take_eq ok.path_occ ho hlen
    rw [← this]
    exact List.take_prefix _ _

theorem TreeInv.label_occurs (h : t.TreeInv L) {u : Nat} (hu : t.Internal u) :
    ∃ q, Occ t.text q (L u) := by
  rcases hu with rfl | ⟨e, he, rfl, ho⟩
  · rw [h.Lroot]
    exact ⟨0, occ_nil _ _⟩
  · exact ⟨_, (h.edge_ok e he).closed_occ ho⟩

theorem TreeInv.leaf_no_edges (h : t.TreeInv L) {e : Nat} (he : e < t.edge_count)
    (ho : t.is_open e) : (t.node (e + 1)).edges = [] := by
  apply map_find_none_nil
  intro c
  apply h.find_none_of_not_internal
  rintro (h0 | ⟨e', _, he', ho'⟩)
  · omega
  · have : e' = e := by omega
    rw [this] at ho'
    exact ho' ho

theorem TreeInv.reaches_occ (h : t.TreeInv L) {a b : Nat} {v : List Char}
    (hr : t.Reaches a v b) (ha : t.Internal a) : ∃ q, Occ t.text q (L a ++ v) := by
  induction hr with
  | here u =>
    simp only [List.append_nil]
    exact h.label_occurs ha
  | @step u u' c e v hm hr' ih =>
    obtain ⟨he, hes, _⟩ := h.mem_edges.mp hm
    have ok := h.edge_ok e he
    rw [ok.end_node] at hr' ih
    by_cases ho : t.is_open e
    · have hnil := h.leaf_no_edges he ho
      cases hr' with
      | here _ =>
        simp only [List.append_nil]
        rw [← hes]
        exact ⟨_, ok.path_occ⟩
      | step hm' _ =>
        rw [hnil] at hm'
        exact absurd hm' (by simp)
    · obtain ⟨q, hq⟩ := ih (Or.inr ⟨e, he, rfl, ho⟩)
      rw [ok.closed_label ho, hes, List.append_assoc] at hq
      exact ⟨q, hq⟩

theorem TreeInv.infix_of_path (h : t.TreeInv L) {w : List Char} (hw : t.PathSpells w) :
    w <:+: t.text := by
  obtain ⟨u, v, hr, hp⟩ := hw
  rw [h.root0] at hr
  obtain ⟨q, hq⟩ := h.reaches_occ hr (Or.inl rfl)
  rw [h.Lroot, List.nil_append] at hq
  exact hp.isInfix.trans (occ_iff_substring.mp ⟨q, hq⟩)

theorem PhaseInv.spelled_of_infix {j : Nat} (h : t.PhaseInv L j) {w : List Char}
    (hw : w <:+: t.text) : t.Spelled L w := by
  obtain ⟨q, hq⟩ := occ_iff_substring.mpr hw
  by_cases hw0 : w.length = 0
  · left
    exact List.length_eq_zero.mp hw0
  · have hb := occ_bound hq (by omega)
    have := h.complete q w.length hb
    unfold Occ at hq
    rw [hq] at this
    exact this

theorem PhaseInv.path_iff {j : Nat} (h : t.PhaseInv L j) (w : List Char) :
    w <:+: t.text ↔ t.PathSpells w :=
  ⟨fun hw => h.inv.path_of_spelled (h.spelled_of_infix hw), h.inv.infix_of_path⟩

end suffix_tree


namespace suffix_tree

variable {t : suffix_tree} {L : Nat → List Char} {m1 : Nat}

/-- The label of an inner node other than the root occurs at two places, so it
covers no index whose symbol occurs once in the text. -/
theorem QueryPre.avoid (hq : t.QueryPre L m1) {u : Nat} (hu : t.Internal u) (h0 : u ≠ 0)
    {x : Nat} (hx : ∀ y, t.text[y]? = t.text[x]? → y = x) (hxn : x < t.text.length)
    {q : Nat} (hocc : Occ t.text q (L u)) : ¬ (q ≤ x ∧ x < q + (L u).length) := by
  rintro ⟨h1, h2⟩
  rcases hu with hz | ⟨e, he, hue, ho⟩
  · exact h0 hz
  obtain ⟨f, g, hf, hg, hfg, hfu, hgu⟩ := hq.branching e he ho
  rw [← hue] at hfu hgu
  have key : ∀ p, Occ t.text p (L u) → p = q := by
    intro p hp
    have e1 := occ_iff.mp hp (x - q) (by omega)
    have e2 := occ_iff.mp hocc (x - q) (by omega)
    rw [← e2, show q + (x - q) = x by omega] at e1
    have := hx _ e1
    omega
  have okf := hq.inv.edge_ok f hf
  have okg := hq.inv.edge_ok g hg
  have h3 := key _ (hfu ▸ okf.occ_start)
  have h4 := key _ (hgu ▸ okg.occ_start)
  have h5 := okf.pos_add
  have h6 := okg.pos_add
  rw [hfu] at h5
  rw [hgu] at h6
  have hebeq : t.eb f = t.eb g := by omega
  obtain ⟨c, hc⟩ : ∃ c, t.text[t.eb f]? = some c :=
    ⟨_, List.getElem?_eq_getElem okf.begin_lt⟩
  have f1 : (t.node u).find_edge c = some f := (hq.inv.find_iff _ _ _).mpr ⟨hf, hfu, hc⟩
  have f2 : (t.node u).find_edge c = some g :=
    (hq.inv.find_iff _ _ _).mpr ⟨hg, hgu, hebeq ▸ hc⟩
  rw [f1] at f2
  exact hfg (Option.some.inj f2)

theorem QueryPre.m1_unique_lt (hq : t.QueryPre L m1) : m1 < t.text.length := by
  have := hq.m1_lt
  omega

/-- A closed edge holds neither marker. -/
theorem QueryPre.closed_contains (hq : t.QueryPre L m1) {e : Nat} (he : e < t.edge_count)
    (ho : ¬ t.is_open e) :
    (t.edge e).contains (m1 : Int) = false ∧
      (t.edge e).contains ((t.text.length - 1 : Nat) : Int) = false := by
  have ok := hq.inv.edge_ok e he
  have hlt := ok.closed_lt ho
  have hle := ok.closed_le ho
  have hnn := ok.begin_nonneg
  have hpa := ok.pos_add
  have hcl := ok.closed_len ho
  rw [lab_len_closed ho] at hcl
  have hb : (t.edge e).begin_index = (t.eb e : Int) := by unfold eb; omega
  constructor
  · have hav := hq.avoid (Or.inr ⟨e, he, rfl, ho⟩) (by omega) hq.uniq1 hq.m1_unique_lt
      (ok.closed_occ ho)
    simp only [suffix_tree_edge.contains, Bool.and_eq_false_imp, decide_eq_true_eq,
      decide_eq_false_iff_not]
    intro h1 h2
    apply hav
    rw [hb] at h1
    constructor
    · omega
    · rw [hcl]
      omega
  · simp only [suffix_tree_edge.contains, Bool.and_eq_false_imp, decide_eq_true_eq,
      decide_eq_false_iff_not]
    intro _
    have := hq.m1_lt
    omega

/-- An open edge holds the last index; it holds the first marker when it
begins at or before it. -/
theorem QueryPre.open_contains (hq : t.QueryPre L m1) {e : Nat} (he : e < t.edge_count)
    (ho : t.is_open e) :
    (t.edge e).contains (m1 : Int) = decide (t.eb e ≤ m1) ∧
      (t.edge e).contains ((t.text.length - 1 : Nat) : Int) = true := by
  have ok := hq.inv.edge_ok e he
  have hnn := ok.begin_nonneg
  have hbl := ok.begin_lt
  have hb : (t.edge e).begin_index = (t.eb e : Int) := by unfold eb; omega
  have hn := hq.len_le
  have hm := hq.m1_lt
  unfold is_open at ho
  constructor
  · simp only [suffix_tree_edge.contains, ho, hb]
    by_cases h : t.eb e ≤ m1
    · simp only [h, decide_True, Bool.and_eq_true, decide_eq_true_eq]
      omega
    · simp only [h, decide_False, Bool.and_eq_false_imp, decide_eq_true_eq,
        decide_eq_false_iff_not]
      omega
  · simp only [suffix_tree_edge.contains, ho, hb, Bool.and_eq_true, decide_eq_true_eq]
    omega

/-- The suffix that starts at `q` with the label of the inner node `u`
continues below `u`: through its own leaf edge, or through a closed edge. -/
theorem QueryPre.suffix_edge_char (hq : t.QueryPre L m1) {u : Nat} (hu : t.Internal u) {q : Nat}
    (hqn : q < t.text.length) (hocc : Occ t.text q (L u)) :
    ∃ f, f < t.edge_count ∧ t.es f = u ∧ t.text[t.eb f]? = t.text[q + (L u).length]? ∧
      ((t.is_open f ∧ t.edge_pos L f = q) ∨ (¬ t.is_open f ∧ Occ t.text q (L (f + 1)))) := by
  have hlast : t.text.length - 1 < t.text.length := by omega
  have hlen : (L u).length < t.text.length - q := by
    have h1 := occ_length hocc
    by_contra hcon
    have h2 : (L u).length = t.text.length - q := by omega
    have h0 : u ≠ 0 := by
      intro hz
      rw [hz, hq.inv.Lroot] at h2
      simp only [List.length_nil] at h2
      omega
    exact hq.avoid hu h0 hq.uniq2 hlast hocc ⟨by omega, by omega⟩
  have hWl : (seg t.text q (t.text.length - q)).length = t.text.length - q :=
    seg_length_of_le (by omega)
  have hWocc : Occ t.text q (seg t.text q (t.text.length - q)) := occ_seg (by omega)
  have hsp := hq.complete q (t.text.length - q) (by omega)
  have hpre : (seg t.text q (t.text.length - q)).take (L u).length = L u :=
    occ_take_eq hWocc hocc (by omega)
  obtain ⟨f, hf, hfu, hch, hcase⟩ := hq.inv.trie hsp hu hpre (by omega)
  refine ⟨f, hf, hfu, ?_, ?_⟩
  · rw [hch, ← occ_iff.mp hWocc (L u).length (by omega)]
  have ok := hq.inv.edge_ok f hf
  rcases hcase with hon | ⟨hfo, _, hft⟩
  · left
    obtain ⟨_, h2, h3, h4⟩ := hon
    rw [hWl] at h2 h3
    -- the last symbol of the suffix is the last symbol of the text
    have e1 := occ_iff.mp h4 (t.text.length - q - 1) (by rw [hWl]; omega)
    have e2 := occ_iff.mp hWocc (t.text.length - q - 1) (by rw [hWl]; omega)
    rw [← e2, show q + (t.text.length - q - 1) = t.text.length - 1 by omega] at e1
    have h5 := hq.uniq2 _ e1
    have hpa := ok.pos_add
    by_cases ho : t.is_open f
    · exact ⟨ho, by omega⟩
    · exfalso
      rw [lab_len_closed ho] at h3
      have := ok.closed_lt ho
      have := ok.closed_le ho
      have := ok.begin_nonneg
      unfold eb at hpa
      omega
  · right
    refine ⟨hfo, ?_⟩
    rw [← hft]
    exact occ_take hWocc _

theorem QueryPre.suffix_edge (hq : t.QueryPre L m1) {u : Nat} (hu : t.Internal u) {q : Nat}
    (hqn : q < t.text.length) (hocc : Occ t.text q (L u)) :
    ∃ f, f < t.edge_count ∧ t.es f = u ∧
      ((t.is_open f ∧ t.edge_pos L f = q) ∨ (¬ t.is_open f ∧ Occ t.text q (L (f + 1)))) := by
  obtain ⟨f, hf, hfu, _, hcase⟩ := hq.suffix_edge_char hu hqn hocc
  exact ⟨f, hf, hfu, hcase⟩

theorem QueryPre.open_pos_le (hq : t.QueryPre L m1) {e : Nat} (he : e < t.edge_count) :
    (t.eb e ≤ m1 ↔ t.edge_pos L e ≤ m1) := by
  have ok := hq.inv.edge_ok e he
  have hpa := ok.pos_add
  constructor
  · intro h; omega
  · intro h
    by_contra hcon
    by_cases h0 : t.es e = 0
    · rw [h0, hq.inv.Lroot] at hpa
      simp only [List.length_nil, add_zero] at hpa
      omega
    · exact hq.avoid ok.start_int h0 hq.uniq1 hq.m1_unique_lt ok.occ_start
        ⟨h, by omega⟩

theorem InFirst.first_of_take {u v : Nat} (h : t.InFirst L m1 v)
    (hp : (L v).take (L u).length = L u) : t.InFirst L m1 u := by
  obtain ⟨q, h1, h2⟩ := h
  exact ⟨q, h1, hp ▸ occ_take h2 _⟩

theorem InSecond.second_of_take {u v : Nat} (h : t.InSecond L m1 v)
    (hp : (L v).take (L u).length = L u) : t.InSecond L m1 u := by
  obtain ⟨q, h1, h2, h3⟩ := h
  exact ⟨q, h1, h2, hp ▸ occ_take h3 _⟩

theorem TreeInv.take_parent (h : t.TreeInv L) {e : Nat} (he : e < t.edge_count)
    (ho : ¬ t.is_open e) : (L (e + 1)).take (L (t.es e)).length = L (t.es e) := by
  rw [(h.edge_ok e he).closed_label ho]
  simp

theorem QueryPre.first_iff (hq : t.QueryPre L m1) {u : Nat} (hu : t.Internal u) :
    t.InFirst L m1 u ↔ ∃ f, f < t.edge_count ∧ t.es f = u ∧ t.FlagFirst L m1 f := by
  constructor
  · rintro ⟨q, h1, h2⟩
    obtain ⟨f, hf, hfu, hcase⟩ := hq.suffix_edge hu (by have := hq.m1_lt; omega) h2
    refine ⟨f, hf, hfu, ?_⟩
    rcases hcase with ⟨ho, hp⟩ | ⟨ho, hocc⟩
    · exact Or.inl ⟨ho, (hq.open_pos_le hf).mpr (by omega)⟩
    · exact Or.inr ⟨ho, q, h1, hocc⟩
  · rintro ⟨f, hf, hfu, hcase⟩
    have ok := hq.inv.edge_ok f hf
    rcases hcase with ⟨_, hle⟩ | ⟨ho, hA⟩
    · refine ⟨t.edge_pos L f, (hq.open_pos_le hf).mp hle, ?_⟩
      rw [← hfu]
      exact ok.occ_start
    · rw [← hfu]
      exact hA.first_of_take (hq.inv.take_parent hf ho)

theorem QueryPre.second_iff (hq : t.QueryPre L m1) {u : Nat} (hu : t.Internal u) :
    t.InSecond L m1 u ↔ ∃ f, f < t.edge_count ∧ t.es f = u ∧ t.FlagSecond L m1 f := by
  constructor
  · rintro ⟨q, h1, h2, h3⟩
    obtain ⟨f, hf, hfu, hcase⟩ := hq.suffix_edge hu h2 h3
    refine ⟨f, hf, hfu, ?_⟩
    rcases hcase with ⟨ho, hp⟩ | ⟨ho, hocc⟩
    · left
      refine ⟨ho, ?_⟩
      have := (hq.open_pos_le hf).not.mpr (by omega)
      omega
    · exact Or.inr ⟨ho, q, h1, h2, hocc⟩
  · rintro ⟨f, hf, hfu, hcase⟩
    have ok := hq.inv.edge_ok f hf
    rcases hcase with ⟨_, hlt⟩ | ⟨ho, hB⟩
    · refine ⟨t.edge_pos L f, ?_, ?_, ?_⟩
      · have := (hq.open_pos_le hf).not.mp (by omega)
        omega
      · have := ok.begin_lt
        have := ok.pos_add
        omega
      · rw [← hfu]
        exact ok.occ_start
    · rw [← hfu]
      exact hB.second_of_take (hq.inv.take_parent hf ho)

end suffix_tree


theorem edge_find_closed {e : suffix_tree_edge} {below : Int → Option search_result}
    {m1 m2 d : Int} (h1 : e.contains m1 = false) (h2 : e.contains m2 = false) :
    edge_find_delimiters e below m1 m2 d =
      match below (d + e.get_span + 1) with
      | none => none
      | some temp =>
        some (if temp.first && temp.second then
          { temp with end_index := if temp.end_index = -1 then e.end_index else temp.end_index }
          else temp) := by
  unfold edge_find_delimiters
  simp only [h1, h2, search_result.init, Bool.and_false, Bool.false_eq_true, if_false,
    Bool.not_false, Bool.and_self, if_true]
  cases below (d + e.get_span + 1) with
  | none => rfl
  | some temp =>
    simp only
    split <;> simp_all

theorem edge_find_open_first {e : suffix_tree_edge} {below : Int → Option search_result}
    {m1 m2 d : Int} (h1 : e.contains m1 = true) (h2 : e.contains m2 = true) :
    edge_find_delimiters e below m1 m2 d = some ⟨-1, true, false, -1⟩ := by
  unfold edge_find_delimiters
  simp [h1, h2, search_result.init]

theorem edge_find_open_second {e : suffix_tree_edge} {below : Int → Option search_result}
    {m1 m2 d : Int} (h1 : e.contains m1 = false) (h2 : e.contains m2 = true)
    (hb : below (d + e.get_span + 1) = some ⟨-1, false, false, -1⟩) :
    edge_find_delimiters e below m1 m2 d = some ⟨-1, false, true, -1⟩ := by
  unfold edge_find_delimiters
  simp [h1, h2, hb, search_result.init]

theorem lex_lt_of_diff : ∀ (d : Nat) (x y : List Char) (c1 c2 : Char),
    x.take d = y.take d → x[d]? = some c1 → y[d]? = some c2 → char_lt c1 c2 → lex_lt x y
  | 0, x, y, c1, c2, _, h1, h2, hlt => by
    cases x with
    | nil => simp at h1
    | cons a as =>
      cases y with
      | nil => simp at h2
      | cons b bs =>
        simp only [List.getElem?_cons_zero, Option.some.injEq] at h1 h2
        rw [h1, h2]
        exact Or.inl hlt
  | d + 1, x, y, c1, c2, ht, h1, h2, hlt => by
    cases x with
    | nil => simp at h1
    | cons a as =>
      cases y with
      | nil => simp at h2
      | cons b bs =>
        simp only [List.take_succ_cons, List.cons.injEq] at ht
        simp only [List.getElem?_cons_succ] at h1 h2
        exact Or.inr ⟨ht.1, lex_lt_of_diff d as bs c1 c2 ht.2 h1 h2 hlt⟩

theorem lex_lt_asymm : ∀ (x y : List Char), lex_lt x y → ¬ lex_lt y x
  | [], [], h => fun _ => h
  | [], _ :: _, _ => fun h => h
  | _ :: _, [], h => fun _ => h
  | a :: as, b :: bs, h => by
    intro h'
    rcases h with h | ⟨h1, h2⟩
    · rcases h' with h' | ⟨h1', _⟩
      · exact char_lt_asymm h h'
      · rw [h1'] at h; exact char_lt_irrefl _ h
    · rcases h' with h' | ⟨_, h2'⟩
      · rw [h1] at h'; exact char_lt_irrefl _ h'
      · exact lex_lt_asymm as bs h2 h2'

theorem lex_le_antisymm {x y : List Char} (h1 : lex_le x y) (h2 : lex_le y x) : x = y := by
  rcases h1 with h1 | h1
  · exact h1
  · rcases h2 with h2 | h2
    · exact h2.symm
    · exact absurd h2 (lex_lt_asymm x y h1)

namespace suffix_tree

variable {t : suffix_tree} {L : Nat → List Char} {m1 : Nat}

theorem Cand.trans_take {u w v : Nat} (h : t.Cand L m1 w v)
    (hp : (L w).take (L u).length = L u) : t.Cand L m1 u v := by
  obtain ⟨h1, h2, h3, h4⟩ := h
  refine ⟨h1, h2, h3, ?_⟩
  have hle : (L u).length ≤ (L w).length := by
    have := congrArg List.length hp
    simp only [List.length_take] at this
    omega
  rw [← take_of_take_eq h4 hle, hp]

theorem Cand.length_le {u v : Nat} (h : t.Cand L m1 u v) : (L u).length ≤ (L v).length := by
  have := congrArg List.length h.2.2.2
  simp only [List.length_take] at this
  omega

theorem Cand.self {u : Nat} (hu : t.Internal u) (h1 : t.InFirst L m1 u)
    (h2 : t.InSecond L m1 u) : t.Cand L m1 u u :=
  ⟨hu, h1, h2, List.take_length _⟩

theorem Cand.eq_of_length {u v : Nat} (h : t.Cand L m1 u v)
    (hl : (L v).length = (L u).length) : L v = L u := by
  have := h.2.2.2
  rw [← hl, List.take_length] at this
  exact this

/-- A candidate strictly below `u` lies at or below the end node of a closed
edge that leaves `u`. -/
theorem QueryPre.cand_child (hq : t.QueryPre L m1) {u v : Nat} (hu : t.Internal u)
    (h : t.Cand L m1 u v) (hlt : (L u).length < (L v).length) :
    ∃ f, f < t.edge_count ∧ t.es f = u ∧ ¬ t.is_open f ∧ t.Cand L m1 (f + 1) v := by
  obtain ⟨hv, hA, hB, hp⟩ := h
  obtain ⟨f, hf, hfu, _, hcase⟩ := hq.inv.trie (hq.inv.spelled_label hv) hu hp hlt
  rcases hcase with hon | ⟨hfo, _, hft⟩
  · have h0 : v ≠ 0 := by
      intro hz
      rw [hz, hq.inv.Lroot] at hlt
      simp at hlt
    rcases hv with hz | ⟨g, hg, hvg, hgo⟩
    · exact absurd hz h0
    have hpar := hq.inv.on_edge_parent hg hgo
    rw [← hvg] at hpar
    have hfg : f = g := hq.inv.on_edge_eq hon hpar
    refine ⟨f, hf, hfu, hfg ▸ hgo, Or.inr ⟨g, hg, hvg, hgo⟩, hA, hB, ?_⟩
    rw [hfg, ← hvg]
    exact List.take_length _
  · exact ⟨f, hf, hfu, hfo, hv, hA, hB, hft⟩

/-- The labels at and below the end node of the edge `e` continue the label of
its start node with the first symbol of `e`. -/
theorem TreeInv.cand_key (h : t.TreeInv L) {e v : Nat} {c : Char} (he : e < t.edge_count)
    (ho : ¬ t.is_open e) (hc : t.text[t.eb e]? = some c)
    (hp : (L v).take (L (e + 1)).length = L (e + 1)) :
    (L v)[(L (t.es e)).length]? = some c ∧ (L v).take (L (t.es e)).length = L (t.es e) := by
  have ok := h.edge_ok e he
  have hlen := ok.closed_len ho
  have hpos := ok.lab_len_pos
  have hle : (L (e + 1)).length ≤ (L v).length := by
    have := congrArg List.length hp
    simp only [List.length_take] at this
    omega
  constructor
  · have e1 : (L (e + 1))[(L (t.es e)).length]? = some c := by
      have := occ_iff.mp (ok.closed_occ ho) (L (t.es e)).length (by omega)
      rw [ok.pos_add, hc] at this
      exact this.symm
    rw [← hp, List.getElem?_take] at e1
    simp only [show (L (t.es e)).length < (L (e + 1)).length by omega, if_true] at e1
    exact e1
  · rw [← take_of_take_eq hp (by omega), h.take_parent he ho]

end suffix_tree


theorem flag_step {P : Nat → Prop} {a b : Bool} {done : List (Char × Nat)} {c : Char} {e : Nat}
    (ha : a = true ↔ ∃ p, p ∈ done ∧ P p.2) (hb : b = true ↔ P e) :
    (a || b) = true ↔ ∃ p, p ∈ done ++ [(c, e)] ∧ P p.2 := by
  rw [Bool.or_eq_true, ha, hb]
  constructor
  · rintro (⟨p, hp, h⟩ | h)
    · exact ⟨p, List.mem_append_left _ hp, h⟩
    · exact ⟨(c, e), by simp, h⟩
  · rintro ⟨p, hp, h⟩
    rw [List.mem_append, List.mem_singleton] at hp
    rcases hp with hp | rfl
    · exact Or.inl ⟨p, hp, h⟩
    · exact Or.inr h

namespace suffix_tree

variable {t : suffix_tree} {L : Nat → List Char} {m1 : Nat}

theorem QueryPre.edge_spec_open (hq : t.QueryPre L m1) {e : Nat} (he : e < t.edge_count)
    (ho : t.is_open e) {below : Int → Option search_result} {d : Int}
    (hb : ∀ x, below x = some ⟨-1, false, false, -1⟩) :
    ∃ r, edge_find_delimiters (t.edge e) below (m1 : Int) ((t.text.length - 1 : Nat) : Int) d
        = some r ∧ t.EdgeSpec L m1 e r := by
  obtain ⟨h1, h2⟩ := hq.open_contains he ho
  by_cases hle : t.eb e ≤ m1
  · rw [decide_eq_true hle] at h1
    refine ⟨_, edge_find_open_first h1 h2, ?_⟩
    constructor
    · simp [FlagFirst, ho, hle]
    · simp only [FlagSecond, ho, not_true_eq_false, false_and, or_false, true_and]
      constructor
      · intro h; exact absurd h (by decide)
      · intro h; omega
    · intro _; rfl
    · intro h; exact absurd ho h
    · intro h; exact absurd ho h
  · rw [decide_eq_false hle] at h1
    refine ⟨_, edge_find_open_second h1 h2 (hb _), ?_⟩
    constructor
    · simp only [FlagFirst, ho, not_true_eq_false, false_and, or_false, true_and]
      constructor
      · intro h; exact absurd h (by decide)
      · intro h; exact absurd h hle
    · simp only [FlagSecond, ho, not_true_eq_false, false_and, or_false, true_and, true_iff]
      omega
    · intro _; rfl
    · intro h; exact absurd ho h
    · intro h; exact absurd ho h

theorem QueryPre.edge_spec_closed (hq : t.QueryPre L m1) {e : Nat} (he : e < t.edge_count)
    (ho : ¬ t.is_open e) {below : Int → Option search_result} {d : Int} {rw : search_result}
    (hb : below (d + (t.edge e).get_span + 1) = some rw) (hn : t.NodeSpec L m1 (e + 1) rw) :
    ∃ r, edge_find_delimiters (t.edge e) below (m1 : Int) ((t.text.length - 1 : Nat) : Int) d
        = some r ∧ t.EdgeSpec L m1 e r := by
  obtain ⟨h1, h2⟩ := hq.closed_contains he ho
  rw [edge_find_closed h1 h2, hb]
  refine ⟨_, rfl, ?_⟩
  have hint : t.Internal (e + 1) := Or.inr ⟨e, he, rfl, ho⟩
  by_cases hboth : rw.first = true ∧ rw.second = true
  · have hA := hn.first.mp hboth.1
    have hB := hn.second.mp hboth.2
    simp only [hboth.1, hboth.2, Bool.and_self, if_true]
    constructor
    · simp only [FlagFirst, ho, not_false_eq_true, true_and, false_and, false_or]
      exact ⟨fun _ => hA, fun _ => trivial⟩
    · simp only [FlagSecond, ho, not_false_eq_true, true_and, false_and, false_or]
      exact ⟨fun _ => hB, fun _ => trivial⟩
    · rintro (h | h)
      · exact absurd h ho
      · exact absurd ⟨hA, hB⟩ h
    · intro _ v hv
      exact hn.upper hA hB v hv
    · intro _ _ _
      rcases hn.wit hA hB with ⟨hd, hend⟩ | ⟨e', hw, _⟩
      · refine ⟨e, ⟨he, ho, Cand.self hint hA hB, hd, ?_, ?_⟩⟩
        · simp [hend]
        · intro v hv hl
          exact Or.inl (hv.eq_of_length hl).symm
      · refine ⟨e', ⟨hw.lt, hw.closed, hw.cand, hw.depth, ?_, hw.least⟩⟩
        have ok' := hq.inv.edge_ok e' hw.lt
        have h3 := ok'.closed_le hw.closed
        have h4 := ok'.begin_nonneg
        have h5 := hw.end_index
        have h6 : rw.end_index ≠ -1 := by omega
        simp only [h6, if_false]
        exact h5
  · have hc : (rw.first && rw.second) = false := by
      rcases hf : rw.first <;> rcases hs : rw.second <;> simp_all
    have hnb : ¬ (t.InFirst L m1 (e + 1) ∧ t.InSecond L m1 (e + 1)) := by
      rintro ⟨a, b⟩
      exact hboth ⟨hn.first.mpr a, hn.second.mpr b⟩
    simp only [hc, Bool.false_eq_true, if_false]
    constructor
    · simp only [FlagFirst, ho, not_false_eq_true, true_and, false_and, false_or]
      exact hn.first
    · simp only [FlagSecond, ho, not_false_eq_true, true_and, false_and, false_or]
      exact hn.second
    · intro _
      exact hn.none hnb
    · intro _ v hv
      exact absurd ⟨hv.2.1.first_of_take hv.2.2.2, hv.2.2.1.second_of_take hv.2.2.2⟩ hnb
    · intro _ a b
      exact absurd ⟨a, b⟩ hnb

theorem QueryPre.loop_step (hq : t.QueryPre L m1) {u : Nat} {done rest : List (Char × Nat)}
    {c : Char} {e : Nat} (hsplit : done ++ (c, e) :: rest = (t.node u).edges)
    {res temp : search_result} (hacc : t.LoopAcc L m1 u done res)
    (hspec : t.EdgeSpec L m1 e temp) :
    t.LoopAcc L m1 u (done ++ [(c, e)])
      (if res.depth < temp.depth then
        ⟨temp.depth, res.first || temp.first, res.second || temp.second, temp.end_index⟩
      else ⟨res.depth, res.first || temp.first, res.second || temp.second, res.end_index⟩) := by
  have hmem : (c, e) ∈ (t.node u).edges := by rw [← hsplit]; simp
  obtain ⟨he, hes, hc⟩ := hq.inv.mem_edges.mp hmem
  have hsorted : ∀ p0, p0 ∈ done → char_lt p0.1 c := by
    intro p0 hp0
    have hs := hq.inv.sorted u
    rw [← hsplit] at hs
    unfold map_sorted at hs
    rw [List.pairwise_append] at hs
    exact hs.2.2 p0 hp0 (c, e) (by simp)
  have hdg := hacc.depth_ge
  by_cases hlt : res.depth < temp.depth
  · simp only [hlt, if_true]
    have hcl : ¬ t.is_open e ∧ t.InFirst L m1 (e + 1) ∧ t.InSecond L m1 (e + 1) := by
      by_contra hcon
      have : temp.depth = -1 := by
        apply hspec.none
        by_cases ho : t.is_open e
        · exact Or.inl ho
        · right
          rintro ⟨a, b⟩
          exact hcon ⟨ho, a, b⟩
      omega
    obtain ⟨e', hw⟩ := hspec.wit hcl.1 hcl.2.1 hcl.2.2
    have hwd := hw.depth
    constructor
    · exact flag_step hacc.first hspec.first
    · exact flag_step hacc.second hspec.second
    · show ((L u).length : Int) ≤ temp.depth
      omega
    · intro p hp hpo v hv
      show ((L v).length : Int) ≤ temp.depth
      rw [List.mem_append, List.mem_singleton] at hp
      rcases hp with hp | rfl
      · have := hacc.upper p hp hpo v hv
        omega
      · exact hspec.upper hpo v hv
    · right
      refine ⟨(c, e), e', by simp, hcl.1, hw.lt, hw.closed, hw.cand, hwd, ?_, hw.end_index, ?_⟩
      · have : ((L u).length : Int) < ((L (e' + 1)).length : Int) := by omega
        exact_mod_cast this
      · intro p2 hp2 hp2o v hv hl
        rw [List.mem_append, List.mem_singleton] at hp2
        rcases hp2 with hp2 | rfl
        · have := hacc.upper p2 hp2 hp2o v hv
          rw [hl] at this
          omega
        · exact hw.least v hv hl
  · simp only [hlt, if_false]
    constructor
    · exact flag_step hacc.first hspec.first
    · exact flag_step hacc.second hspec.second
    · exact hdg
    · intro p hp hpo v hv
      show ((L v).length : Int) ≤ res.depth
      rw [List.mem_append, List.mem_singleton] at hp
      rcases hp with hp | rfl
      · exact hacc.upper p hp hpo v hv
      · have := hspec.upper hpo v hv
        omega
    · rcases hacc.wit with hl | ⟨p0, e', hp0, hp0c, he', hoe', hcand, hdep, hlt', hend, hleast⟩
      · exact Or.inl hl
      · right
        refine ⟨p0, e', List.mem_append_left _ hp0, hp0c, he', hoe', hcand, hdep, hlt', hend, ?_⟩
        intro p2 hp2 hp2o v hv hl
        rw [List.mem_append, List.mem_singleton] at hp2
        rcases hp2 with hp2 | rfl
        · exact hleast p2 hp2 hp2o v hv hl
        · right
          obtain ⟨c0, e0⟩ := p0
          have hlt0 : char_lt c0 c := hsorted (c0, e0) hp0
          have hmem0 : (c0, e0) ∈ (t.node u).edges := by
            rw [← hsplit]; exact List.mem_append_left _ hp0
          obtain ⟨he0, hes0, hc0⟩ := hq.inv.mem_edges.mp hmem0
          have k0 := hq.inv.cand_key he0 hp0c hc0 hcand.2.2.2
          have k1 := hq.inv.cand_key he hp2o hc hv.2.2.2
          rw [hes0] at k0
          rw [hes] at k1
          exact lex_lt_of_diff (L u).length _ _ c0 c (k0.2.trans k1.2.symm) k0.1 k1.1 hlt0

theorem QueryPre.node_loop_ok (hq : t.QueryPre L m1) {u : Nat}
    (find : Nat → Option search_result)
    (hfind : ∀ p, p ∈ (t.node u).edges → ∃ r, find p.2 = some r ∧ t.EdgeSpec L m1 p.2 r) :
    ∀ (rest done : List (Char × Nat)) (res : search_result),
      done ++ rest = (t.node u).edges → t.LoopAcc L m1 u done res →
      ∃ r, node_loop find rest res = some r ∧ t.LoopAcc L m1 u (t.node u).edges r
  | [], done, res, hsplit, hacc => by
    rw [List.append_nil] at hsplit
    exact ⟨res, rfl, hsplit ▸ hacc⟩
  | (c, e) :: rest, done, res, hsplit, hacc => by
    obtain ⟨temp, hf, hspec⟩ := hfind (c, e) (by rw [← hsplit]; simp)
    simp only at hf
    simp only [node_loop, hf]
    exact QueryPre.node_loop_ok hq find hfind rest (done ++ [(c, e)]) _ (by simpa using hsplit)
      (hq.loop_step hsplit hacc hspec)

theorem QueryPre.internal_occ (hq : t.QueryPre L m1) {u : Nat} (hu : t.Internal u) :
    ∃ q, q < t.text.length ∧ Occ t.text q (L u) := by
  have hn := hq.m1_lt
  rcases hu with rfl | ⟨e, he, rfl, ho⟩
  · refine ⟨0, by omega, ?_⟩
    rw [hq.inv.Lroot]
    exact occ_nil _ _
  · have ok := hq.inv.edge_ok e he
    refine ⟨t.edge_pos L e, ?_, ok.closed_occ ho⟩
    have := ok.pos_add
    have := ok.begin_lt
    omega

theorem QueryPre.has_edge (hq : t.QueryPre L m1) {u : Nat} (hu : t.Internal u) :
    (t.node u).edges.isEmpty = false := by
  obtain ⟨q, hqn, hocc⟩ := hq.internal_occ hu
  obtain ⟨f, hf, hfu, _⟩ := hq.suffix_edge hu hqn hocc
  have ok := hq.inv.edge_ok f hf
  obtain ⟨c, hc⟩ : ∃ c, t.text[t.eb f]? = some c := ⟨_, List.getElem?_eq_getElem ok.begin_lt⟩
  have hmem : (c, f) ∈ (t.node u).edges := hq.inv.mem_edges.mpr ⟨hf, hfu, hc⟩
  cases hE : (t.node u).edges with
  | nil => rw [hE] at hmem; simp at hmem
  | cons a as => rfl

theorem QueryPre.flag_iff (hq : t.QueryPre L m1) {u : Nat} (P : Nat → Prop) :
    (∃ p, p ∈ (t.node u).edges ∧ P p.2) ↔ ∃ f, f < t.edge_count ∧ t.es f = u ∧ P f := by
  constructor
  · rintro ⟨⟨c, f⟩, hp, h⟩
    obtain ⟨hf, hfu, _⟩ := hq.inv.mem_edges.mp hp
    exact ⟨f, hf, hfu, h⟩
  · rintro ⟨f, hf, hfu, h⟩
    have ok := hq.inv.edge_ok f hf
    obtain ⟨c, hc⟩ : ∃ c, t.text[t.eb f]? = some c := ⟨_, List.getElem?_eq_getElem ok.begin_lt⟩
    exact ⟨(c, f), hq.inv.mem_edges.mpr ⟨hf, hfu, hc⟩, h⟩

theorem QueryPre.node_spec_of_acc (hq : t.QueryPre L m1) {u : Nat} (hu : t.Internal u)
    {r : search_result} (hacc : t.LoopAcc L m1 u (t.node u).edges r) :
    t.NodeSpec L m1 u (if !r.first || !r.second then { r with depth := -1 } else r) := by
  have hF : r.first = true ↔ t.InFirst L m1 u := by
    rw [hacc.first, hq.first_iff hu]
    exact hq.flag_iff _
  have hS : r.second = true ↔ t.InSecond L m1 u := by
    rw [hacc.second, hq.second_iff hu]
    exact hq.flag_iff _
  have hchild : ∀ v, t.Cand L m1 u v → (L u).length < (L v).length →
      ∃ p, p ∈ (t.node u).edges ∧ ¬ t.is_open p.2 ∧ t.Cand L m1 (p.2 + 1) v := by
    intro v hv hlt
    obtain ⟨f, hf, hfu, hfo, hc⟩ := hq.cand_child hu hv hlt
    exact (hq.flag_iff (fun f => ¬ t.is_open f ∧ t.Cand L m1 (f + 1) v)).mpr ⟨f, hf, hfu, hfo, hc⟩
  by_cases hboth : r.first = true ∧ r.second = true
  · have hc : (!r.first || !r.second) = false := by simp [hboth.1, hboth.2]
    simp only [hc, Bool.false_eq_true, if_false]
    refine ⟨hF, hS, fun h => absurd ⟨hF.mp hboth.1, hS.mp hboth.2⟩ h, ?_, ?_⟩
    · intro _ _ v hv
      by_cases hlt : (L u).length < (L v).length
      · obtain ⟨p, hp, hpo, hc⟩ := hchild v hv hlt
        exact hacc.upper p hp hpo v hc
      · have h1 := hv.length_le
        have h2 := hacc.depth_ge
        have : (L v).length = (L u).length := by omega
        rw [this]
        exact h2
    · intro _ _
      rcases hacc.wit with hl | ⟨p0, e', hp0, hp0c, he', hoe', hcand, hdep, hlt', hend, hleast⟩
      · exact Or.inl hl
      · right
        obtain ⟨c0, e0⟩ := p0
        obtain ⟨he0, hes0, _⟩ := hq.inv.mem_edges.mp hp0
        have htp := hq.inv.take_parent he0 hp0c
        rw [hes0] at htp
        refine ⟨e', ⟨he', hoe', hcand.trans_take htp, hdep, hend, ?_⟩, hlt'⟩
        intro v hv hl
        obtain ⟨p, hp, hpo, hc⟩ := hchild v hv (by omega)
        exact hleast p hp hpo v hc hl
  · have hc : (!r.first || !r.second) = true := by
      rcases hf : r.first <;> rcases hs : r.second <;> simp_all
    have hnb : ¬ (t.InFirst L m1 u ∧ t.InSecond L m1 u) := by
      rintro ⟨a, b⟩
      exact hboth ⟨hF.mpr a, hS.mpr b⟩
    simp only [hc, if_true]
    exact ⟨hF, hS, fun _ => rfl, fun a b => absurd ⟨a, b⟩ hnb, fun a b => absurd ⟨a, b⟩ hnb⟩

/-- The search below an inner node returns, with enough fuel, and its result
meets the specification of the node. -/
theorem QueryPre.find_ok (hq : t.QueryPre L m1) : ∀ (fuel u : Nat), t.Internal u →
    t.text.length + 2 ≤ fuel + (L u).length →
    ∃ r, t.find_delimiters (m1 : Int) ((t.text.length - 1 : Nat) : Int) fuel u
        ((L u).length : Int) = some r ∧ t.NodeSpec L m1 u r
  | 0, u, hu, hf => by
    obtain ⟨q, _, hocc⟩ := hq.internal_occ hu
    have := occ_length hocc
    omega
  | fuel + 1, u, hu, hf => by
    have hne := hq.has_edge hu
    have hfind : ∀ p, p ∈ (t.node u).edges → ∃ r,
        (fun e => edge_find_delimiters (t.edge e)
          (t.find_delimiters (m1 : Int) ((t.text.length - 1 : Nat) : Int) fuel
            (t.edge e).end_node)
          (m1 : Int) ((t.text.length - 1 : Nat) : Int) ((L u).length : Int)) p.2 = some r ∧
        t.EdgeSpec L m1 p.2 r := by
      rintro ⟨c, e⟩ hp
      obtain ⟨he, hes, hc⟩ := hq.inv.mem_edges.mp hp
      have ok := hq.inv.edge_ok e he
      have hdl := ok.depth_le
      have hbl := ok.begin_lt
      rw [hes] at hdl
      by_cases ho : t.is_open e
      · apply hq.edge_spec_open he ho
        intro x
        rw [ok.end_node]
        obtain ⟨f', rfl⟩ : ∃ f', fuel = f' + 1 := ⟨fuel - 1, by omega⟩
        simp [find_delimiters, hq.inv.leaf_no_edges he ho, search_result.init]
      · have hcl := ok.closed_len ho
        have hll := lab_len_closed ho
        have hle := ok.closed_le ho
        rw [hes] at hcl
        obtain ⟨rw, hrw, hn⟩ := QueryPre.find_ok hq fuel (e + 1) (Or.inr ⟨e, he, rfl, ho⟩)
          (by omega)
        apply hq.edge_spec_closed he ho _ hn
        rw [ok.end_node]
        have harg : ((L u).length : Int) + (t.edge e).get_span + 1 = ((L (e + 1)).length : Int) := by
          unfold suffix_tree_edge.get_span
          omega
        rw [harg]
        exact hrw
    have hinit : t.LoopAcc L m1 u [] ⟨((L u).length : Int), false, false, -1⟩ := by
      refine ⟨?_, ?_, le_refl _, ?_, Or.inl ⟨rfl, rfl⟩⟩
      · simp
      · simp
      · intro p hp; simp at hp
    obtain ⟨r, hr, hacc⟩ := hq.node_loop_ok
      (fun e => edge_find_delimiters (t.edge e)
          (t.find_delimiters (m1 : Int) ((t.text.length - 1 : Nat) : Int) fuel
            (t.edge e).end_node)
          (m1 : Int) ((t.text.length - 1 : Nat) : Int) ((L u).length : Int))
      hfind (t.node u).edges [] _ (by simp) hinit
    refine ⟨_, ?_, hq.node_spec_of_acc hu hacc⟩
    unfold find_delimiters
    simp only [hne, Bool.false_eq_true, if_false, search_result.init]
    rw [hr]
    simp only
    split <;> rfl

end suffix_tree


theorem to_size_t_small {i : Int} (h0 : 0 ≤ i) (h1 : i ≤ INF) : to_size_t i = i.toNat := by
  unfold to_size_t
  unfold INF at h1
  rw [Int.emod_eq_of_lt h0 (by omega)]

namespace suffix_tree

variable {t : suffix_tree} {L : Nat → List Char} {m1 : Nat}

/-- A word that occurs both at an index up to the first marker and at an
index after it is a prefix of the label of an inner node whose label occurs
at both indices. -/
theorem QueryPre.descend (hq : t.QueryPre L m1) {w : List Char} {q1 q2 : Nat}
    (h1 : q1 ≤ m1) (ho1 : Occ t.text q1 w) (h2 : m1 < q2) (h2n : q2 < t.text.length)
    (ho2 : Occ t.text q2 w) :
    ∀ (k u : Nat), t.Internal u → w.take (L u).length = L u → w.length ≤ (L u).length + k →
      ∃ v, t.Internal v ∧ t.InFirst L m1 v ∧ t.InSecond L m1 v ∧ (L v).take w.length = w := by
  have hn := hq.m1_lt
  have base : ∀ u, t.Internal u → w.take (L u).length = L u → w.length ≤ (L u).length →
      ∃ v, t.Internal v ∧ t.InFirst L m1 v ∧ t.InSecond L m1 v ∧ (L v).take w.length = w := by
    intro u hu hpre hle
    have hwu : w = L u := by rw [← hpre, List.take_of_length_le hle]
    refine ⟨u, hu, ⟨q1, h1, hwu ▸ ho1⟩, ⟨q2, h2, h2n, hwu ▸ ho2⟩, ?_⟩
    rw [hwu]
    exact List.take_length _
  intro k
  induction k with
  | zero =>
    intro u hu hpre hle
    exact base u hu hpre (by omega)
  | succ k ih =>
    intro u hu hpre hle
    by_cases hlt : (L u).length < w.length
    · have hou1 : Occ t.text q1 (L u) := hpre ▸ occ_take ho1 _
      have hou2 : Occ t.text q2 (L u) := hpre ▸ occ_take ho2 _
      obtain ⟨f1, hf1, hu1, hc1, case1⟩ := hq.suffix_edge_char hu (by omega) hou1
      obtain ⟨f2, hf2, hu2, hc2, case2⟩ := hq.suffix_edge_char hu h2n hou2
      have hw1 := occ_iff.mp ho1 _ hlt
      have hw2 := occ_iff.mp ho2 _ hlt
      have hsame : t.text[t.eb f1]? = t.text[t.eb f2]? := by rw [hc1, hc2, hw1, hw2]
      have ok1 := hq.inv.edge_ok f1 hf1
      obtain ⟨c, hc⟩ : ∃ c, t.text[t.eb f1]? = some c :=
        ⟨_, List.getElem?_eq_getElem ok1.begin_lt⟩
      have e1 := (hq.inv.find_iff u c f1).mpr ⟨hf1, hu1, hc⟩
      have e2 := (hq.inv.find_iff u c f2).mpr ⟨hf2, hu2, hsame ▸ hc⟩
      have hff : f1 = f2 := by
        rw [e1] at e2
        exact Option.some.inj e2
      subst hff
      rcases case1 with ⟨ho, hp1⟩ | ⟨hcl, hocc1⟩
      · rcases case2 with ⟨_, hp2⟩ | ⟨hcl2, _⟩
        · omega
        · exact absurd ho hcl2
      · rcases case2 with ⟨ho2x, _⟩ | ⟨_, hocc2⟩
        · exact absurd ho2x hcl
        · by_cases hle2 : w.length ≤ (L (f1 + 1)).length
          · exact ⟨f1 + 1, Or.inr ⟨f1, hf1, rfl, hcl⟩, ⟨q1, h1, hocc1⟩, ⟨q2, h2, h2n, hocc2⟩,
              occ_take_eq hocc1 ho1 hle2⟩
          · have hcl_len := ok1.closed_len hcl
            have hpos := ok1.lab_len_pos
            rw [hu1] at hcl_len
            exact ih (f1 + 1) (Or.inr ⟨f1, hf1, rfl, hcl⟩)
              (occ_take_eq ho1 hocc1 (by omega)) (by omega)
    · exact base u hu hpre (by omega)

theorem QueryPre.first_bound (hq : t.QueryPre L m1) {v : Nat} (hv : t.Internal v)
    (h : t.InFirst L m1 v) : ∃ q, Occ t.text q (L v) ∧ q + (L v).length ≤ m1 := by
  by_cases h0 : v = 0
  · refine ⟨0, ?_, ?_⟩
    · rw [h0, hq.inv.Lroot]; exact occ_nil _ _
    · rw [h0, hq.inv.Lroot]; simp
  · obtain ⟨q, hq1, hocc⟩ := h
    refine ⟨q, hocc, ?_⟩
    have := hq.avoid hv h0 hq.uniq1 hq.m1_unique_lt hocc
    omega

theorem QueryPre.second_bound (hq : t.QueryPre L m1) {v : Nat} (hv : t.Internal v)
    (h : t.InSecond L m1 v) :
    ∃ q, m1 < q ∧ Occ t.text q (L v) ∧ q + (L v).length + 1 ≤ t.text.length := by
  have hn := hq.m1_lt
  by_cases h0 : v = 0
  · refine ⟨m1 + 1, by omega, ?_, ?_⟩
    · rw [h0, hq.inv.Lroot]; exact occ_nil _ _
    · rw [h0, hq.inv.Lroot]; simp; omega
  · obtain ⟨q, hq1, hq2, hocc⟩ := h
    refine ⟨q, hq1, hocc, ?_⟩
    have := hq.avoid hv h0 hq.uniq2 (by omega) hocc
    omega

/-- In the state `QueryPre`, `get_lcs` returns the label of an inner node
whose label starts suffixes of both strings, of the largest depth among such
nodes and least in lexicographic order among those of that depth. -/
theorem QueryPre.get_lcs_spec (hq : t.QueryPre L m1) (l2 : Nat)
    (hl : m1 + l2 + 2 = t.text.length) :
    ∃ v, t.Internal v ∧ t.InFirst L m1 v ∧ t.InSecond L m1 v ∧ t.get_lcs m1 l2 = some (L v) ∧
      ∀ v', t.Internal v' → t.InFirst L m1 v' → t.InSecond L m1 v' →
        (L v').length ≤ (L v).length ∧
          ((L v').length = (L v).length → lex_le (L v) (L v')) := by
  have hn := hq.len_le
  have hm1 := hq.m1_lt
  have hr0 : t.Internal 0 := Or.inl rfl
  have hA : t.InFirst L m1 0 := ⟨0, by omega, by rw [hq.inv.Lroot]; exact occ_nil _ _⟩
  have hB : t.InSecond L m1 0 :=
    ⟨m1 + 1, by omega, by omega, by rw [hq.inv.Lroot]; exact occ_nil _ _⟩
  have hcand : ∀ v', t.Internal v' → t.InFirst L m1 v' → t.InSecond L m1 v' →
      t.Cand L m1 0 v' := by
    intro v' a b c
    refine ⟨a, b, c, ?_⟩
    rw [hq.inv.Lroot]
    simp
  obtain ⟨r, hr, hspec⟩ := hq.find_ok (t.text.length + 2) 0 hr0 (by omega)
  have hm2 : m1 + l2 + 1 = t.text.length - 1 := by omega
  have hfd : t.find_delimiters (to_int m1) (to_int (m1 + l2 + 1)) (t.text.length + 2) t.root 0
      = some r := by
    rw [to_int_small (by omega), hm2, to_int_small (by omega), hq.inv.root0]
    rw [hq.inv.Lroot] at hr
    exact hr
  unfold get_lcs
  rw [hfd]
  simp only
  rcases hspec.wit hA hB with ⟨hd, hend⟩ | ⟨e', hw, hlt⟩
  · rw [hq.inv.Lroot] at hd
    simp only [List.length_nil, Nat.cast_zero] at hd
    refine ⟨0, hr0, hA, hB, ?_, ?_⟩
    · rw [if_pos hd, hq.inv.Lroot]
    · intro v' a b c
      have := hspec.upper hA hB v' (hcand v' a b c)
      rw [hd] at this
      have hz : (L v').length = 0 := by omega
      rw [hq.inv.Lroot]
      refine ⟨by simp [hz], fun _ => Or.inl ?_⟩
      exact (List.length_eq_zero.mp hz).symm
  · have ok := hq.inv.edge_ok e' hw.lt
    have hdep := hw.depth
    have hend := hw.end_index
    have hne : r.depth ≠ 0 := by omega
    have hcl := ok.closed_len hw.closed
    have hll := lab_len_closed hw.closed
    have hle := ok.closed_le hw.closed
    have hnn := ok.begin_nonneg
    have hpa := ok.pos_add
    have hbl := ok.begin_lt
    have hocc := ok.closed_occ hw.closed
    have hpos : r.end_index - r.depth + 1 = (t.edge_pos L e' : Int) := by
      unfold eb at hpa
      omega
    refine ⟨e' + 1, Or.inr ⟨e', hw.lt, rfl, hw.closed⟩, hw.cand.2.1, hw.cand.2.2.1, ?_, ?_⟩
    · rw [if_neg hne, hpos, hdep, to_size_t_small (by omega) (by unfold eb at hpa hbl; omega),
        to_size_t_small (by omega) (by have := occ_length hocc; omega)]
      simp only [Int.toNat_ofNat]
      unfold substr
      rw [if_neg (by unfold eb at hpa hbl; omega)]
      exact congrArg some hocc
    · intro v' a b c
      have hu := hspec.upper hA hB v' (hcand v' a b c)
      refine ⟨by omega, fun hl' => hw.least v' (hcand v' a b c) hl'⟩

/-- After the whole text has been added, with a last symbol that occurs
nowhere else, every suffix ends in a leaf. -/
theorem PhaseInv.query_pre {j : Nat} (hp : t.PhaseInv L j) (hm : m1 + 1 < t.text.length)
    (u1 : ∀ y, t.text[y]? = t.text[m1]? → y = m1)
    (u2 : ∀ y, t.text[y]? = t.text[t.text.length - 1]? → y = t.text.length - 1)
    (hlen : (t.text.length : Int) ≤ INF) : t.QueryPre L m1 := by
  have hj : j = t.text.length := by
    have hle := hp.act.le
    by_contra hne
    have hjl : j < t.text.length := by omega
    have hsp := hp.act.spelled
    have hWl : (seg t.text j (t.text.length - j)).length = t.text.length - j :=
      seg_length_of_le (by omega)
    have hWocc : Occ t.text j (seg t.text j (t.text.length - j)) := occ_seg (by omega)
    rcases hsp with hnil | ⟨e, he, h2, h3, h4⟩
    · have := congrArg List.length hnil
      rw [hWl] at this
      simp only [List.length_nil] at this
      omega
    · rw [hWl] at h2 h3
      have ok := hp.inv.edge_ok e he
      have e1 := occ_iff.mp h4 (t.text.length - j - 1) (by rw [hWl]; omega)
      have e2 := occ_iff.mp hWocc (t.text.length - j - 1) (by rw [hWl]; omega)
      rw [← e2, show j + (t.text.length - j - 1) = t.text.length - 1 by omega] at e1
      have h5 := u2 _ e1
      have hpa := ok.pos_add
      by_cases ho : t.is_open e
      · have := hp.leaves.lt e he ho
        omega
      · rw [lab_len_closed ho] at h3
        have := ok.closed_lt ho
        have := ok.closed_le ho
        have := ok.begin_nonneg
        unfold eb at hpa
        omega
  exact ⟨hp.inv, hp.branching, hj ▸ hp.leaves, hp.complete, hm, u1, u2, hlen⟩

end suffix_tree


/-! ## Construction: text layout, input handling, substrings -/

namespace suffix_tree

/-- A tree reached from a tree that satisfies the invariant by `add_string`
calls satisfies the invariant. -/
theorem Good.add_strings : ∀ (ss : List (List Char)) {t t' : suffix_tree}, t.Good →
    t.add_strings ss = some t' → (t'.text.length : Int) ≤ INF → t'.Good
  | [], t, t', h, ht, _ => by
    simp only [suffix_tree.add_strings, Option.some.injEq] at ht
    rw [← ht]; exact h
  | s :: rest, t, t', h, ht, hn => by
    rw [suffix_tree.add_strings] at ht
    split at ht
    · exact absurd ht (by simp)
    · rename_i t1 h1
      have f1 := add_string_text h1
      have hmono : ∀ (ss : List (List Char)) {x y : suffix_tree}, x.add_strings ss = some y →
          x.text.length ≤ y.text.length := by
        intro ss
        induction ss with
        | nil =>
          intro x y hxy
          simp only [suffix_tree.add_strings, Option.some.injEq] at hxy
          rw [hxy]
        | cons s' rest' ih =>
          intro x y hxy
          rw [suffix_tree.add_strings] at hxy
          split at hxy
          · exact absurd hxy (by simp)
          · rename_i x1 hx1
            have := ih hxy
            have f := add_string_text hx1
            rw [f.1] at this
            simp only [List.length_append, List.length_singleton] at this
            omega
      have hle := hmono rest ht
      obtain ⟨t1', h1', g1⟩ := h.add_string s (by
        rw [f1.1] at hle
        simp only [List.length_append, List.length_singleton] at hle
        have : ((t.text.length + s.length + 1 : Nat) : Int) ≤ INF := by omega
        simpa using this)
      rw [h1] at h1'
      cases h1'
      exact Good.add_strings rest g1 ht hn

end suffix_tree

/-- C3: after `add_character` on each symbol of `s` in order on a fresh tree,
a word is a substring of `s` if and only if it can be spelled from the root by
following edges (`s` no longer than `INF` symbols, the range of the `int`
indices; the construction returns). -/
theorem construction_spells_substrings (d : Nat) (s : List Char)
    (hs : (s.length : Int) ≤ INF) :
    ∃ t, (suffix_tree.init d).add_characters s = some t ∧
      ∀ w, w <:+: s ↔ t.PathSpells w := by
  obtain ⟨t, ht, hg⟩ := suffix_tree.Good.add_characters s (suffix_tree.Good.init d)
    (by simpa [suffix_tree.init] using hs)
  obtain ⟨L, j, hp⟩ := hg
  have htext : t.text = s := by
    have := (suffix_tree.add_characters_text s ht).1
    simpa [suffix_tree.init] using this
  refine ⟨t, ht, fun w => ?_⟩
  rw [← htext]
  exact hp.path_iff w

theorem construction_spells_substrings_witness :
    (("ab".data.length : Int) ≤ INF) ∧
    ∃ t, (suffix_tree.init 0).add_characters "ab".data = some t ∧
      ∀ w, w <:+: "ab".data ↔ t.PathSpells w :=
  ⟨by decide, construction_spells_substrings 0 "ab".data (by decide)⟩

/-- The text after `add_string(a)` and `add_string(b)` when
`delimiters_count` starts at `d`: `a`, the terminator `(char)('Z' + d + 1)`,
`b`, the terminator `(char)('Z' + d + 2)`; the text after the first call is a
prefix of it; the two indices `get_lcs(|a|, |b|)` searches for are the
positions of the two terminators, the second being the last index (`a` and
`b` together within the range of the `int` indices). -/
theorem text_layout_two_strings (d : Nat) (a b : List Char)
    (h : (a.length : Int) + b.length + 2 ≤ INF) :
    ∃ t1 t2, (suffix_tree.init d).add_string a = some t1 ∧ t1.add_string b = some t2 ∧
      t1.text = a ++ [delimiter d] ∧
      t2.text = a ++ [delimiter d] ++ b ++ [delimiter (d + 1)] ∧
      t1.text <+: t2.text ∧
      to_int a.length = (a.length : Int) ∧
      to_int (a.length + b.length + 1) = ((a.length + b.length + 1 : Nat) : Int) ∧
      t2.text[a.length]? = some (delimiter d) ∧
      t2.text[a.length + b.length + 1]? = some (delimiter (d + 1)) ∧
      t2.text.length = a.length + b.length + 2 := by
  obtain ⟨t1, h1, g1⟩ := (suffix_tree.Good.init d).add_string a
    (by simp only [suffix_tree.init, List.length_nil]; omega)
  have f1 := suffix_tree.add_string_text h1
  have e1 : t1.text = a ++ [delimiter d] := by
    rw [f1.1]
    simp only [suffix_tree.init, List.nil_append]
  have d1 : t1.delimiters_count = d + 1 := f1.2
  obtain ⟨t2, h2, g2⟩ := g1.add_string b (by
    rw [e1]
    simp only [List.length_append, List.length_singleton, Nat.cast_add, Nat.cast_one]
    omega)
  have f2 := suffix_tree.add_string_text h2
  have e2 : t2.text = a ++ [delimiter d] ++ b ++ [delimiter (d + 1)] := by
    rw [f2.1, e1, d1]
  refine ⟨t1, t2, h1, h2, e1, e2, ?_, ?_, ?_, ?_, ?_, ?_⟩
  · rw [e2, e1, List.append_assoc]
    exact List.prefix_append _ _
  · exact suffix_tree.to_int_small (by omega)
  · exact suffix_tree.to_int_small (by push_cast; omega)
  · have e3 : a ++ [delimiter d] ++ b ++ [delimiter (d + 1)]
        = a ++ (delimiter d :: (b ++ [delimiter (d + 1)])) := by simp
    rw [e2, e3, List.getElem?_append_right (le_refl _), Nat.sub_self]
    exact List.getElem?_cons_zero
  · have hl : (a ++ [delimiter d] ++ b).length = a.length + b.length + 1 := by
      simp only [List.length_append, List.length_singleton]
      omega
    rw [e2, List.getElem?_append_right (by rw [hl]), hl, Nat.sub_self]
    exact List.getElem?_cons_zero
  · rw [e2]
    simp only [List.length_append, List.length_singleton]
    omega

theorem text_layout_two_strings_witness :
    (("ab".data.length : Int) + "c".data.length + 2 ≤ INF) ∧
    ∃ t1 t2, (suffix_tree.init 0).add_string "ab".data = some t1 ∧
      t1.add_string "c".data = some t2 ∧
      t1.text = "ab".data ++ [delimiter 0] ∧
      t2.text = "ab".data ++ [delimiter 0] ++ "c".data ++ [delimiter (0 + 1)] ∧
      t1.text <+: t2.text ∧
      to_int "ab".data.length = ("ab".data.length : Int) ∧
      to_int ("ab".data.length + "c".data.length + 1)
        = (("ab".data.length + "c".data.length + 1 : Nat) : Int) ∧
      t2.text["ab".data.length]? = some (delimiter 0) ∧
      t2.text["ab".data.length + "c".data.length + 1]? = some (delimiter (0 + 1)) ∧
      t2.text.length = "ab".data.length + "c".data.length + 2 :=
  ⟨by decide, text_layout_two_strings 0 "ab".data "c".data (by decide)⟩

/-- C7 (failing input): the constructor does not initialise
`delimiters_count`. On a fresh tree in which it holds 6, `add_string("ab")`
and `add_string("c")` leave the text `"abacb"`, with the terminators `'a'` and
`'b'`, not `"ab[c\\"`; the symbol at the first index searched, 2, occurs at
index 0 as well. -/
theorem text_layout_uninitialised :
    (((suffix_tree.init 6).add_string "ab".data).bind
        (fun t => t.add_string "c".data)).map (fun t => t.text) = some "abacb".data ∧
    "abacb".data ≠ "ab".data ++ ['['] ++ "c".data ++ ['\\'] ∧
    "abacb".data[2]? = "abacb".data[0]? := by
  decide

/-- C8 (failing input): on a fresh tree `add_string("[")` appends the
terminator `'['`, the symbol of the string itself, and the terminator of the
257th call is the terminator of the first. -/
theorem terminator_collides :
    ((suffix_tree.init 0).add_string ['[']).map (fun t => t.text) = some ['[', '['] ∧
    delimiter 256 = delimiter 0 := by
  decide

/-- C9 (counterexample): `add_string` of the empty string, and of a string
that holds a terminator symbol, returns normally with the text changed. -/
theorem add_string_accepts_invalid :
    ((suffix_tree.init 0).add_string []).map (fun t => t.text) = some ['['] ∧
    ((suffix_tree.init 0).add_string ['\\', '[']).map (fun t => t.text)
      = some ['\\', '[', '['] := by
  decide

/-- C9 (amended): `add_string` validates nothing. On every tree reached from
a fresh tree by `add_string` calls it returns for every string `s`, empty or
with terminator symbols in it, and appends `s` and the next terminator to the
text (the text within the range of the `int` indices). -/
theorem add_string_never_rejects (d : Nat) (ss : List (List Char)) (t : suffix_tree)
    (s : List Char) (ht : (suffix_tree.init d).add_strings ss = some t)
    (hn : (t.text.length : Int) + s.length + 1 ≤ INF) :
    ∃ t', t.add_string s = some t' ∧
      t'.text = t.text ++ s ++ [delimiter t.delimiters_count] := by
  have hg := suffix_tree.Good.add_strings ss (suffix_tree.Good.init d) ht (by omega)
  obtain ⟨t', h1, _⟩ := hg.add_string s hn
  exact ⟨t', h1, (suffix_tree.add_string_text h1).1⟩

theorem add_string_never_rejects_witness :
    (suffix_tree.init 0).add_strings [] = some (suffix_tree.init 0) ∧
    (((suffix_tree.init 0).text.length : Int) + ([] : List Char).length + 1 ≤ INF) ∧
    ∃ t', (suffix_tree.init 0).add_string [] = some t' ∧
      t'.text = (suffix_tree.init 0).text ++ [] ++ [delimiter (suffix_tree.init 0).delimiters_count] :=
  ⟨rfl, by decide, add_string_never_rejects 0 [] (suffix_tree.init 0) [] rfl (by decide)⟩

/-- C10 (failing input): after `add_string("abc")` on a fresh tree the root
search of `get_lcs(3, 0)` ends with the sentinel depth `-1` and `get_lcs`
returns `"bc["`; on a fresh tree `get_lcs(0, 0)` fails (`std::out_of_range`). -/
theorem get_lcs_sentinel_depth :
    ((suffix_tree.init 0).add_string "abc".data).bind
        (fun t => t.find_delimiters 3 4 (t.text.length + 2) t.root 0)
      = some ⟨-1, true, false, -1⟩ ∧
    ((suffix_tree.init 0).add_string "abc".data).bind (fun t => t.get_lcs 3 0)
      = some "bc[".data ∧
    (suffix_tree.init 0).get_lcs 0 0 = none := by
  decide


/-! ## The query: longest common substring of two strings -/

theorem occ_prepend {T : List Char} {k : Nat} {w : List Char} (P : List Char) :
    Occ (P ++ T) (P.length + k) w ↔ Occ T k w := by
  simp only [occ_iff]
  constructor
  · intro h x hx
    rw [← h x hx, List.getElem?_append_right (by omega)]
    congr 1
    omega
  · intro h x hx
    rw [← h x hx, List.getElem?_append_right (by omega)]
    congr 1
    omega

theorem occ_of_substring {T w : List Char} (h : w <:+: T) :
    ∃ q, q + w.length ≤ T.length ∧ Occ T q w := by
  obtain ⟨q, hq⟩ := occ_iff_substring.mpr h
  by_cases hw : 0 < w.length
  · exact ⟨q, occ_bound hq hw, hq⟩
  · have : w = [] := List.length_eq_zero.mp (by omega)
    subst this
    exact ⟨0, by simp, occ_nil _ _⟩

theorem layout_getElem? (a b : List Char) (c1 c2 : Char) (y : Nat) (x : Char)
    (h : (a ++ c1 :: (b ++ [c2]))[y]? = some x) :
    x ∈ a ∨ (y = a.length ∧ x = c1) ∨ x ∈ b ∨ (y = a.length + b.length + 1 ∧ x = c2) := by
  by_cases hy : y < a.length
  · rw [List.getElem?_append_left hy] at h
    exact Or.inl (List.mem_iff_getElem?.mpr ⟨_, h⟩)
  · rw [List.getElem?_append_right (by omega)] at h
    obtain ⟨k, hk⟩ : ∃ k, y - a.length = k := ⟨_, rfl⟩
    rw [hk] at h
    cases k with
    | zero =>
      simp only [List.getElem?_cons_zero, Option.some.injEq] at h
      exact Or.inr (Or.inl ⟨by omega, h.symm⟩)
    | succ k =>
      rw [List.getElem?_cons_succ] at h
      by_cases hkb : k < b.length
      · rw [List.getElem?_append_left hkb] at h
        exact Or.inr (Or.inr (Or.inl (List.mem_iff_getElem?.mpr ⟨_, h⟩)))
      · rw [List.getElem?_append_right (by omega)] at h
        obtain ⟨k2, hk2⟩ : ∃ k2, k - b.length = k2 := ⟨_, rfl⟩
        rw [hk2] at h
        cases k2 with
        | zero =>
          simp only [List.getElem?_cons_zero, Option.some.injEq] at h
          exact Or.inr (Or.inr (Or.inr ⟨by omega, h.symm⟩))
        | succ k2 => simp at h

theorem ofNat_toNat_small (k : Nat) (h : k < 256) : (Char.ofNat k).toNat = k := by
  have hv : k.isValidChar := Or.inl (by omega)
  unfold Char.ofNat
  rw [dif_pos hv]
  unfold Char.ofNatAux Char.toNat
  simp only [UInt32.toNat]
  show (BitVec.ofNatLt k _).toNat = k
  simp

/-- Two terminators appended one after the other are different symbols. -/
theorem delimiter_succ_ne (d : Nat) : delimiter d ≠ delimiter (d + 1) := by
  intro h
  have h1 := congrArg Char.toNat h
  unfold delimiter at h1
  rw [ofNat_toNat_small _ (Nat.mod_lt _ (by decide)),
    ofNat_toNat_small _ (Nat.mod_lt _ (by decide))] at h1
  have : 'Z'.toNat = 90 := by decide
  rw [this] at h1
  omega

/-- The two trees of `main` when `delimiters_count` starts at `d` and the
strings hold neither of the two terminators that are appended: both
`add_string` calls return, the text is `a`, the first terminator, `b`, the
second terminator, and every suffix ends in a leaf. -/
theorem two_strings_state (d : Nat) (a b : List Char) (ha1 : delimiter d ∉ a)
    (ha2 : delimiter (d + 1) ∉ a) (hb1 : delimiter d ∉ b) (hb2 : delimiter (d + 1) ∉ b)
    (h : (a.length : Int) + b.length + 2 ≤ INF) :
    ∃ (t1 t2 : suffix_tree) (L : Nat → List Char),
      (suffix_tree.init d).add_string a = some t1 ∧ t1.add_string b = some t2 ∧
      t1.text = a ++ [delimiter d] ∧
      t2.text = a ++ delimiter d :: (b ++ [delimiter (d + 1)]) ∧
      t2.text.length = a.length + b.length + 2 ∧ t2.QueryPre L a.length := by
  obtain ⟨t1, h1, g1⟩ := (suffix_tree.Good.init d).add_string a
    (by simp only [suffix_tree.init, List.length_nil]; omega)
  have f1 := suffix_tree.add_string_text h1
  have e1 : t1.text = a ++ [delimiter d] := by
    rw [f1.1]
    simp only [suffix_tree.init, List.nil_append]
  have d1 : t1.delimiters_count = d + 1 := f1.2
  obtain ⟨t2, h2, g2⟩ := g1.add_string b (by
    rw [e1]
    simp only [List.length_append, List.length_singleton, Nat.cast_add, Nat.cast_one]
    omega)
  have f2 := suffix_tree.add_string_text h2
  have e2 : t2.text = a ++ delimiter d :: (b ++ [delimiter (d + 1)]) := by
    rw [f2.1, e1, d1]
    simp
  have hlen : t2.text.length = a.length + b.length + 2 := by
    rw [e2]
    simp only [List.length_append, List.length_cons, List.length_singleton, List.length_nil]
    omega
  obtain ⟨L, j, hp⟩ := g2
  have em1 : t2.text[a.length]? = some (delimiter d) := by
    rw [e2, List.getElem?_append_right (le_refl _), Nat.sub_self]
    exact List.getElem?_cons_zero
  have em2 : t2.text[t2.text.length - 1]? = some (delimiter (d + 1)) := by
    have e3 : a ++ delimiter d :: (b ++ [delimiter (d + 1)])
        = (a ++ delimiter d :: b) ++ [delimiter (d + 1)] := by simp
    have hl : (a ++ delimiter d :: b).length = a.length + b.length + 1 := by
      simp only [List.length_append, List.length_cons]
      omega
    rw [hlen, e2, e3, List.getElem?_append_right (by rw [hl]; omega), hl,
      show a.length + b.length + 2 - 1 - (a.length + b.length + 1) = 0 by omega]
    exact List.getElem?_cons_zero
  refine ⟨t1, t2, L, h1, h2, e1, e2, hlen,
    hp.query_pre (by omega) ?_ ?_ (by rw [hlen]; push_cast; omega)⟩
  · intro y hy
    rw [em1, e2] at hy
    rcases layout_getElem? a b _ _ y _ hy with h | h | h | h
    · exact absurd h ha1
    · exact h.1
    · exact absurd h hb1
    · exact absurd h.2 (delimiter_succ_ne d)
  · intro y hy
    rw [em2, e2] at hy
    rcases layout_getElem? a b _ _ y _ hy with h | h | h | h
    · exact absurd h ha2
    · exact absurd h.2.symm (delimiter_succ_ne d)
    · exact absurd h hb2
    · rw [hlen]; omega

/-- The tree of `main` before the query, `delimiters_count` starting at `d`. -/
theorem two_strings_query (d : Nat) (a b : List Char) (ha1 : delimiter d ∉ a)
    (ha2 : delimiter (d + 1) ∉ a) (hb1 : delimiter d ∉ b) (hb2 : delimiter (d + 1) ∉ b)
    (h : (a.length : Int) + b.length + 2 ≤ INF) :
    ∃ (t2 : suffix_tree) (L : Nat → List Char),
      lcs_main d a b = t2.get_lcs a.length b.length ∧
      t2.text = a ++ delimiter d :: (b ++ [delimiter (d + 1)]) ∧ t2.QueryPre L a.length := by
  obtain ⟨t1, t2, L, h1, h2, _, e2, _, hq⟩ := two_strings_state d a b ha1 ha2 hb1 hb2 h
  exact ⟨t2, L, by simp only [lcs_main, h1, h2], e2, hq⟩

/-- The answer of `main` when `delimiters_count` starts at `d` and the strings
hold neither of the two terminators that are appended: it returns, and the
string returned is a substring of both strings, of the largest length among
the common substrings, and the least in lexicographic order among the common
substrings of that length. -/
theorem lcs_main_spec (d : Nat) (a b : List Char) (ha1 : delimiter d ∉ a)
    (ha2 : delimiter (d + 1) ∉ a) (hb1 : delimiter d ∉ b) (hb2 : delimiter (d + 1) ∉ b)
    (h : (a.length : Int) + b.length + 2 ≤ INF) :
    ∃ r, lcs_main d a b = some r ∧ r <:+: a ∧ r <:+: b ∧
      ∀ w, w <:+: a → w <:+: b →
        w.length ≤ r.length ∧ (w.length = r.length → lex_le r w) := by
  obtain ⟨t, L, hmain, htext, hq⟩ := two_strings_query d a b ha1 ha2 hb1 hb2 h
  have hlen : t.text.length = a.length + b.length + 2 := by
    rw [htext]
    simp only [List.length_append, List.length_cons, List.length_singleton, List.length_nil]
    omega
  have hsplit : t.text = (a ++ [delimiter d]) ++ (b ++ [delimiter (d + 1)]) := by
    rw [htext]; simp
  have hal : (a ++ [delimiter d]).length = a.length + 1 := by simp
  obtain ⟨v, hv, hA, hB, hget, hbest⟩ := hq.get_lcs_spec b.length (by omega)
  refine ⟨L v, hmain.trans hget, ?_, ?_, ?_⟩
  · obtain ⟨q, hocc, hb⟩ := hq.first_bound hv hA
    rw [htext] at hocc
    exact occ_iff_substring.mp ⟨q, occ_of_append_text hocc hb⟩
  · obtain ⟨q, hlt, hocc, hb⟩ := hq.second_bound hv hB
    rw [hsplit, show q = (a ++ [delimiter d]).length + (q - a.length - 1) by rw [hal]; omega,
      occ_prepend] at hocc
    exact occ_iff_substring.mp ⟨_, occ_of_append_text hocc (by omega)⟩
  · intro w hwa hwb
    obtain ⟨q1, hb1', ho1⟩ := occ_of_substring hwa
    obtain ⟨k, hb2', ho2⟩ := occ_of_substring hwb
    have o1 : Occ t.text q1 w := by
      rw [htext]
      exact occ_append_text ho1 _
    have o2 : Occ t.text (a.length + 1 + k) w := by
      rw [hsplit, ← hal, occ_prepend]
      exact occ_append_text ho2 _
    obtain ⟨v', hv', hA', hB', htake⟩ := hq.descend (by omega) o1
      (show a.length < a.length + 1 + k by omega) (by omega) o2 w.length 0 (Or.inl rfl)
      (by rw [hq.inv.Lroot]; simp) (by omega)
    have hwl : w.length ≤ (L v').length := by
      have := congrArg List.length htake
      simp only [List.length_take] at this
      omega
    obtain ⟨hle, hlex⟩ := hbest v' hv' hA' hB'
    refine ⟨by omega, fun heq => ?_⟩
    have hvl : (L v').length = (L v).length := by omega
    have hwv : L v' = w := by
      rw [← htake, heq, ← hvl, List.take_length]
    rw [← hwv]
    exact hlex hvl

/-- Soundness of the answer when `delimiters_count` starts at `d`: for
strings `a` and `b` without the two terminators that are appended,
`add_string(a)`, `add_string(b)`, `get_lcs(|a|, |b|)` return a string that is
a contiguous substring of `a` and of `b`, and so holds no terminator (`a` and
`b` together within the range of the `int` indices). -/
theorem lcs_sound (d : Nat) (a b : List Char) (ha1 : delimiter d ∉ a)
    (ha2 : delimiter (d + 1) ∉ a) (hb1 : delimiter d ∉ b) (hb2 : delimiter (d + 1) ∉ b)
    (h : (a.length : Int) + b.length + 2 ≤ INF) :
    ∃ r, lcs_main d a b = some r ∧ r <:+: a ∧ r <:+: b ∧
      delimiter d ∉ r ∧ delimiter (d + 1) ∉ r := by
  obtain ⟨r, hr, hra, hrb, _⟩ := lcs_main_spec d a b ha1 ha2 hb1 hb2 h
  exact ⟨r, hr, hra, hrb, fun hm => ha1 (hra.subset hm), fun hm => ha2 (hra.subset hm)⟩

theorem lcs_sound_witness :
    (delimiter 0 ∉ "xaby".data) ∧ (delimiter 1 ∉ "xaby".data) ∧
    (delimiter 0 ∉ "abz".data) ∧ (delimiter 1 ∉ "abz".data) ∧
    (("xaby".data.length : Int) + "abz".data.length + 2 ≤ INF) ∧
    ∃ r, lcs_main 0 "xaby".data "abz".data = some r ∧ r <:+: "xaby".data ∧
      r <:+: "abz".data ∧ delimiter 0 ∉ r ∧ delimiter 1 ∉ r :=
  ⟨by decide, by decide, by decide, by decide, by decide,
    lcs_sound 0 "xaby".data "abz".data (by decide) (by decide) (by decide) (by decide)
      (by decide)⟩

/-- C1 (failing input): the constructor does not initialise
`delimiters_count`. On a fresh tree in which it holds 6 the two terminators
are `'a'` and `'b'`; the strings `"a"` and `"c"` hold neither `'['` nor
`'\\'`, and `get_lcs(1, 1)` after `add_string("a")`, `add_string("c")`
returns `"a"`, which is not a substring of `"c"`. -/
theorem lcs_unsound_uninitialised :
    ('[' ∉ "a".data ∧ '\\' ∉ "a".data ∧ '[' ∉ "c".data ∧ '\\' ∉ "c".data) ∧
    lcs_main 6 "a".data "c".data = some "a".data ∧ ¬ ("a".data <:+: "c".data) := by
  decide

/-- Maximality of the answer when `delimiters_count` starts at `d`: for
strings `a` and `b` without the two terminators that are appended, the string
returned by `get_lcs(|a|, |b|)` is at least as long as every common substring
of `a` and `b` (`a` and `b` together within the range of the `int` indices). -/
theorem lcs_maximal (d : Nat) (a b : List Char) (ha1 : delimiter d ∉ a)
    (ha2 : delimiter (d + 1) ∉ a) (hb1 : delimiter d ∉ b) (hb2 : delimiter (d + 1) ∉ b)
    (h : (a.length : Int) + b.length + 2 ≤ INF) :
    ∃ r, lcs_main d a b = some r ∧ ∀ w, w <:+: a → w <:+: b → w.length ≤ r.length := by
  obtain ⟨r, hr, _, _, hmax⟩ := lcs_main_spec d a b ha1 ha2 hb1 hb2 h
  exact ⟨r, hr, fun w hwa hwb => (hmax w hwa hwb).1⟩

theorem lcs_maximal_witness :
    (delimiter 0 ∉ "abcdef".data) ∧ (delimiter 1 ∉ "abcdef".data) ∧
    (delimiter 0 ∉ "zcdefg".data) ∧ (delimiter 1 ∉ "zcdefg".data) ∧
    (("abcdef".data.length : Int) + "zcdefg".data.length + 2 ≤ INF) ∧
    lcs_main 0 "abcdef".data "zcdefg".data = some "cdef".data ∧
    ∃ r, lcs_main 0 "abcdef".data "zcdefg".data = some r ∧
      ∀ w, w <:+: "abcdef".data → w <:+: "zcdefg".data → w.length ≤ r.length :=
  ⟨by decide, by decide, by decide, by decide, by decide, by decide,
    lcs_maximal 0 "abcdef".data "zcdefg".data (by decide) (by decide) (by decide) (by decide)
      (by decide)⟩

/-- C2 (failing input): the constructor does not initialise
`delimiters_count`. On a fresh tree in which it holds 6 (terminators `'a'`
and `'b'`) the strings `"b"` and `"aba"` hold neither `'['` nor `'\\'`, their
common substring `"b"` has length 1, and `get_lcs(1, 3)` returns the empty
string. -/
theorem lcs_not_maximal_uninitialised :
    ('[' ∉ "b".data ∧ '\\' ∉ "b".data ∧ '[' ∉ "aba".data ∧ '\\' ∉ "aba".data) ∧
    lcs_main 6 "b".data "aba".data = some [] ∧
    "b".data <:+: "b".data ∧ "b".data <:+: "aba".data := by
  decide

/-- The no-overlap case when `delimiters_count` starts at `d`: for strings `a`
and `b` without the two terminators that are appended and with no symbol in
common, `get_lcs(|a|, |b|)` returns the empty string (`a` and `b` together
within the range of the `int` indices). -/
theorem lcs_no_overlap (d : Nat) (a b : List Char) (ha1 : delimiter d ∉ a)
    (ha2 : delimiter (d + 1) ∉ a) (hb1 : delimiter d ∉ b) (hb2 : delimiter (d + 1) ∉ b)
    (hd : ∀ c ∈ a, c ∉ b)
    (h : (a.length : Int) + b.length + 2 ≤ INF) : lcs_main d a b = some [] := by
  obtain ⟨r, hr, hra, hrb, _⟩ := lcs_main_spec d a b ha1 ha2 hb1 hb2 h
  rw [hr]
  cases r with
  | nil => rfl
  | cons c rest =>
    have hc : c ∈ c :: rest := List.mem_cons_self _ _
    exact absurd (hrb.subset hc) (hd c (hra.subset hc))

theorem lcs_no_overlap_witness :
    (delimiter 0 ∉ "abc".data) ∧ (delimiter 1 ∉ "abc".data) ∧
    (delimiter 0 ∉ "xyz".data) ∧ (delimiter 1 ∉ "xyz".data) ∧
    (∀ c ∈ "abc".data, c ∉ "xyz".data) ∧
    (("abc".data.length : Int) + "xyz".data.length + 2 ≤ INF) ∧
    lcs_main 0 "abc".data "xyz".data = some [] :=
  ⟨by decide, by decide, by decide, by decide, by decide, by decide,
    lcs_no_overlap 0 "abc".data "xyz".data (by decide) (by decide) (by decide) (by decide)
      (by decide) (by decide)⟩

/-- C5 (failing input): the constructor does not initialise
`delimiters_count`. On a fresh tree in which it holds 6 (terminators `'a'`
and `'b'`) the strings `"a"` and `"b"` hold neither `'['` nor `'\\'` and
share no symbol, and `get_lcs(1, 1)` returns `"a"`, not the empty string. -/
theorem lcs_overlap_uninitialised :
    ('[' ∉ "a".data ∧ '\\' ∉ "a".data ∧ '[' ∉ "b".data ∧ '\\' ∉ "b".data) ∧
    (∀ c ∈ "a".data, c ∉ "b".data) ∧
    lcs_main 6 "a".data "b".data = some "a".data := by
  decide

/-- Symmetry when `delimiters_count` starts at `d`: for strings `a` and `b`
without the two terminators that are appended, the query on the tree of `a`
then `b` and the query on the tree of `b` then `a` both return, and return
the same string (`a` and `b` together within the range of the `int`
indices). -/
theorem lcs_symmetric (d : Nat) (a b : List Char) (ha1 : delimiter d ∉ a)
    (ha2 : delimiter (d + 1) ∉ a) (hb1 : delimiter d ∉ b) (hb2 : delimiter (d + 1) ∉ b)
    (h : (a.length : Int) + b.length + 2 ≤ INF) :
    ∃ r, lcs_main d a b = some r ∧ lcs_main d b a = some r := by
  obtain ⟨r, hr, hra, hrb, hmax⟩ := lcs_main_spec d a b ha1 ha2 hb1 hb2 h
  obtain ⟨r2, hr2, hra2, hrb2, hmax2⟩ := lcs_main_spec d b a hb1 hb2 ha1 ha2 (by omega)
  have h1 := hmax r2 hrb2 hra2
  have h2 := hmax2 r hrb hra
  have hl : r2.length = r.length := by omega
  have : r = r2 := lex_le_antisymm (h1.2 hl) (h2.2 hl.symm)
  exact ⟨r, hr, this ▸ hr2⟩

theorem lcs_symmetric_witness :
    (delimiter 0 ∉ "abxcd".data) ∧ (delimiter 1 ∉ "abxcd".data) ∧
    (delimiter 0 ∉ "cdyab".data) ∧ (delimiter 1 ∉ "cdyab".data) ∧
    (("abxcd".data.length : Int) + "cdyab".data.length + 2 ≤ INF) ∧
    ∃ r, lcs_main 0 "abxcd".data "cdyab".data = some r ∧
      lcs_main 0 "cdyab".data "abxcd".data = some r :=
  ⟨by decide, by decide, by decide, by decide, by decide,
    lcs_symmetric 0 "abxcd".data "cdyab".data (by decide) (by decide) (by decide) (by decide)
      (by decide)⟩

/-- C6 (failing input): the constructor does not initialise
`delimiters_count`. On fresh trees in which it holds 6 (terminators `'a'`
and `'b'`) the strings `"a"` and `"bb"` hold neither `'['` nor `'\\'`; the
query on the tree of `"a"` then `"bb"` returns `"a"`, the query on the tree of
`"bb"` then `"a"` returns the empty string. -/
theorem lcs_asymmetric_uninitialised :
    ('[' ∉ "a".data ∧ '\\' ∉ "a".data ∧ '[' ∉ "bb".data ∧ '\\' ∉ "bb".data) ∧
    lcs_main 6 "a".data "bb".data = some "a".data ∧
    lcs_main 6 "bb".data "a".data = some [] := by
  decide


namespace suffix_tree

variable {t : suffix_tree} {L : Nat → List Char}

/-- The word spelled on a downward path from an inner node determines the
node reached: an inner node with that label, or the end of a leaf edge whose
path word it is. -/
theorem TreeInv.reaches_word (h : t.TreeInv L) {a b : Nat} {v : List Char}
    (hr : t.Reaches a v b) (ha : t.Internal a) :
    (t.Internal b ∧ L b = L a ++ v) ∨
      (∃ e, e < t.edge_count ∧ t.is_open e ∧ b = e + 1 ∧
        L (t.es e) ++ t.edge_label e = L a ++ v) := by
  induction hr with
  | here u =>
    left
    exact ⟨ha, by simp⟩
  | @step u u' c e v hm hr' ih =>
    obtain ⟨he, hes, _⟩ := h.mem_edges.mp hm
    have ok := h.edge_ok e he
    rw [ok.end_node] at hr' ih
    by_cases ho : t.is_open e
    · have hnil := h.leaf_no_edges he ho
      cases hr' with
      | here _ =>
        right
        exact ⟨e, he, ho, rfl, by rw [hes]; simp⟩
      | step hm' _ =>
        rw [hnil] at hm'
        exact absurd hm' (by simp)
    · have hl := ok.closed_label ho
      rw [hes] at hl
      rcases ih (Or.inr ⟨e, he, rfl, ho⟩) with ⟨hb, hLb⟩ | ⟨f, hf, hfo, hbf, hLf⟩
      · left
        exact ⟨hb, by rw [hLb, hl, List.append_assoc]⟩
      · right
        exact ⟨f, hf, hfo, hbf, by rw [hLf, hl, List.append_assoc]⟩

/-- The path word of an open leaf edge is the suffix of the text that starts
at the position of the edge. -/
theorem EdgeOK.leaf_word (ok : t.EdgeOK L e) (ho : t.is_open e) :
    L (t.es e) ++ t.edge_label e = t.text.drop (t.edge_pos L e) := by
  have hocc := ok.path_occ
  have hpa := ok.pos_add
  have hbl := ok.begin_lt
  have hlen : (L (t.es e) ++ t.edge_label e).length = t.text.length - t.edge_pos L e := by
    rw [List.length_append, ok.label_length, lab_len_open ho]
    omega
  unfold Occ seg at hocc
  rw [hlen] at hocc
  rw [← hocc]
  apply List.take_of_length_le
  simp

theorem TreeInv.leaf_on_edge (h : t.TreeInv L) {e : Nat} (he : e < t.edge_count)
    (ho : t.is_open e) :
    t.OnEdge L e (seg t.text (t.edge_pos L e) (t.text.length - t.edge_pos L e)) := by
  have ok := h.edge_ok e he
  have hpa := ok.pos_add
  have hbl := ok.begin_lt
  have hWl : (seg t.text (t.edge_pos L e) (t.text.length - t.edge_pos L e)).length
      = t.text.length - t.edge_pos L e := seg_length_of_le (by omega)
  refine ⟨he, ?_, ?_, occ_seg (by omega)⟩
  · rw [hWl]; omega
  · rw [hWl, lab_len_open ho]; omega

/-- Two open leaf edges of the same suffix are the same edge. -/
theorem TreeInv.leaf_inj (h : t.TreeInv L) {e f : Nat} (he : e < t.edge_count)
    (hf : f < t.edge_count) (hoe : t.is_open e) (hof : t.is_open f)
    (hp : t.edge_pos L e = t.edge_pos L f) : e = f := by
  have h1 := h.leaf_on_edge he hoe
  have h2 := h.leaf_on_edge hf hof
  rw [hp] at h1
  exact h.on_edge_eq h1 h2

/-- The leaf edge of a suffix ends the path from the root that spells it. -/
theorem TreeInv.leaf_path (h : t.TreeInv L) {e : Nat} (he : e < t.edge_count)
    (ho : t.is_open e) :
    t.Reaches 0 (t.text.drop (t.edge_pos L e)) (t.edge e).end_node := by
  have ok := h.edge_ok e he
  have hp := h.reaches_label _ (t.es e) ok.start_int rfl
  obtain ⟨c, hc⟩ : ∃ c, t.text[t.eb e]? = some c :=
    ⟨_, List.getElem?_eq_getElem ok.begin_lt⟩
  have hm : (c, e) ∈ (t.node (t.es e)).edges := h.mem_edges.mpr ⟨he, rfl, hc⟩
  have := hp.snoc hm
  rw [ok.leaf_word ho] at this
  exact this

/-- The open leaf edges are as many as the suffixes that have a leaf. -/
theorem TreeInv.leaf_count_eq (h : t.TreeInv L) {j : Nat} (hl : t.LeavesOK L j) :
    t.leaf_count = j := by
  unfold leaf_count
  have hmem : ∀ e, e ∈ (List.range t.edge_count).filter
      (fun e => decide ((t.edge e).end_index = INF)) ↔ (e < t.edge_count ∧ t.is_open e) := by
    intro e
    simp [is_open]
  have hnd : ((List.range t.edge_count).filter
      (fun e => decide ((t.edge e).end_index = INF))).Nodup :=
    List.Nodup.filter _ (List.nodup_range _)
  have hinj : ∀ x ∈ (List.range t.edge_count).filter
      (fun e => decide ((t.edge e).end_index = INF)),
      ∀ y ∈ (List.range t.edge_count).filter
      (fun e => decide ((t.edge e).end_index = INF)),
      t.edge_pos L x = t.edge_pos L y → x = y := by
    intro x hx y hy hxy
    exact h.leaf_inj ((hmem x).mp hx).1 ((hmem y).mp hy).1 ((hmem x).mp hx).2
      ((hmem y).mp hy).2 hxy
  have hnd2 := List.Nodup.map_on hinj hnd
  have hset : (((List.range t.edge_count).filter
      (fun e => decide ((t.edge e).end_index = INF))).map (t.edge_pos L)).toFinset
      = Finset.range j := by
    ext q
    simp only [List.mem_toFinset, List.mem_map, Finset.mem_range]
    constructor
    · rintro ⟨e, hemem, rfl⟩
      exact hl.lt e ((hmem e).mp hemem).1 ((hmem e).mp hemem).2
    · intro hq
      obtain ⟨e, he, ho, hp⟩ := hl.ex q hq
      exact ⟨e, (hmem e).mpr ⟨he, ho⟩, hp⟩
  have hcard := List.toFinset_card_of_nodup hnd2
  rw [hset, Finset.card_range, List.length_map] at hcard
  exact hcard.symm

theorem new_leaf_count_le (t : suffix_tree) (k : Nat) : t.new_leaf_count k ≤ t.leaf_count := by
  unfold new_leaf_count leaf_count
  apply List.Sublist.length_le
  apply List.monotone_filter_right
  intro e he
  simp only [Bool.and_eq_true, decide_eq_true_eq] at he ⊢
  exact he.2

end suffix_tree


namespace suffix_tree

theorem insert_root_null {t t' : suffix_tree} {e : Nat} (hr : t.RootNull)
    (h : t.insert e = some t') : t'.RootNull := by
  unfold suffix_tree.insert at h
  split at h
  · exact absurd h (by simp)
  · simp only [Option.some.injEq] at h
    subst h
    refine ⟨hr.1, ?_⟩
    show (upd t.node _ _ t.root).suffix_link = none
    unfold upd
    split
    · rename_i heq
      simp only [suffix_tree_node.add_edge]
      rw [← heq]
      exact hr.2
    · exact hr.2

theorem remove_root_null {t t' : suffix_tree} {e : Nat} (hr : t.RootNull)
    (h : t.remove e = some t') : t'.RootNull := by
  unfold suffix_tree.remove at h
  split at h
  · exact absurd h (by simp)
  · simp only [Option.some.injEq] at h
    subst h
    refine ⟨hr.1, ?_⟩
    show (upd t.node _ _ t.root).suffix_link = none
    unfold upd
    split
    · rename_i heq
      simp only [suffix_tree_node.remove_edge]
      rw [← heq]
      exact hr.2
    · exact hr.2

theorem new_edge_root_null {t : suffix_tree} (hr : t.RootNull) (b e : Int) (s : Nat) :
    (t.new_edge b e s).1.RootNull := by
  refine ⟨Nat.lt_succ_of_lt hr.1, ?_⟩
  show (upd t.node t.node_count _ t.root).suffix_link = none
  rw [upd_other _ _ (Nat.ne_of_lt hr.1)]
  exact hr.2

theorem canonize_root_null {t t' : suffix_tree} (hr : t.RootNull)
    (h : t.canonize = some t') : t'.RootNull := by
  unfold suffix_tree.canonize at h
  split at h
  · exact absurd h (by simp)
  · simp only [Option.some.injEq] at h
    subst h
    exact hr

theorem update_suffix_link_root_null {t : suffix_tree} (hr : t.RootNull) (n : Option Nat)
    (l : Nat) : (t.update_suffix_link n l).RootNull := by
  unfold suffix_tree.update_suffix_link
  cases n with
  | none => exact hr
  | some n =>
    simp only
    split
    · rename_i hne
      refine ⟨hr.1, ?_⟩
      show (upd t.node n _ t.root).suffix_link = none
      rw [upd_other _ _ (Ne.symm hne)]
      exact hr.2
    · exact hr

theorem change_origin_node_root_null {t t' : suffix_tree} (hr : t.RootNull)
    (h : t.change_origin_node = some t') : t'.RootNull := by
  unfold suffix_tree.change_origin_node at h
  split at h
  · exact absurd h (by simp)
  · simp only [Option.some.injEq] at h
    subst h
    exact hr

theorem insert_shape {t t' : suffix_tree} {e : Nat} (h : t.insert e = some t') :
    t'.edge = t.edge ∧ t'.node_count = t.node_count ∧ t'.root = t.root := by
  unfold suffix_tree.insert at h
  split at h
  · exact absurd h (by simp)
  · simp only [Option.some.injEq] at h
    subst h
    exact ⟨rfl, rfl, rfl⟩

theorem split_edge_root_null {t t' : suffix_tree} {e m : Nat} (hr : t.RootNull)
    (h : t.split_edge e = some (t', m)) : t'.RootNull := by
  unfold suffix_tree.split_edge at h
  split at h
  · exact absurd h (by simp)
  · rename_i t1 h1
    simp only at h
    split at h
    · exact absurd h (by simp)
    · rename_i t3 h3
      split at h
      · exact absurd h (by simp)
      · rename_i t6 h6
        simp only [Option.some.injEq, Prod.mk.injEq] at h
        rw [← h.1]
        have r1 := remove_root_null hr h1
        have r3 := insert_root_null
          (new_edge_root_null r1 (t1.edge e).begin_index
            ((t1.edge e).begin_index + t1.active.get_span) t1.active.origin_node) h3
        have s3 := insert_shape h3
        refine insert_root_null ?_ h6
        refine ⟨r3.1, ?_⟩
        show (upd t3.node _ _ t3.root).suffix_link = none
        have hmid : (t3.edge (t1.new_edge (t1.edge e).begin_index
            ((t1.edge e).begin_index + t1.active.get_span) t1.active.origin_node).2).end_node
            = t1.node_count := by
          rw [s3.1]
          show (upd t1.edge t1.edge_count _ t1.edge_count).end_node = t1.node_count
          rw [upd_same]
        have hroot : t3.root = t1.root := s3.2.2
        have hne : t3.root ≠ t1.node_count := by
          rw [hroot]
          exact Nat.ne_of_lt r1.1
        rw [hmid, upd_other _ _ hne]
        exact r3.2

theorem add_leaf_root_null {t t' : suffix_tree} {i : Int} {lp : Option Nat} {p : Nat}
    (hr : t.RootNull) (h : t.add_leaf i lp p = some t') : t'.RootNull := by
  unfold suffix_tree.add_leaf at h
  simp only at h
  split at h
  · exact absurd h (by simp)
  · rename_i t2 h2
    have r2 := insert_root_null (new_edge_root_null hr i INF p) h2
    have r3 := update_suffix_link_root_null r2 lp p
    split at h
    · exact canonize_root_null (t := { t2.update_suffix_link lp p with
        active := (t2.update_suffix_link lp p).active.inc_begin_index }) r3 h
    · split at h
      · exact absurd h (by simp)
      · rename_i t4 h4
        exact canonize_root_null (change_origin_node_root_null r3 h4) h

theorem add_prefix_loop_root_null {i : Int} : ∀ (fuel : Nat) (t : suffix_tree) (lp : Option Nat)
    (r : suffix_tree × Option Nat × Nat), t.RootNull →
    suffix_tree.add_prefix_loop i fuel t lp = some r → r.1.RootNull := by
  intro fuel
  induction fuel with
  | zero =>
    intro t lp r _ h
    exact absurd h (by simp [suffix_tree.add_prefix_loop])
  | succ fuel ih =>
    intro t lp r hr h
    rw [suffix_tree.add_prefix_loop] at h
    split at h
    · split at h
      · exact absurd h (by simp)
      · split at h
        · simp only [Option.some.injEq] at h
          rw [← h]
          exact hr
        · split at h
          · exact absurd h (by simp)
          · rename_i t1 h1
            exact ih _ _ _ (add_leaf_root_null hr h1) h
    · split at h
      · exact absurd h (by simp)
      · split at h
        · exact absurd h (by simp)
        · split at h
          · split at h
            · simp only [Option.some.injEq] at h
              rw [← h]
              exact hr
            · split at h
              · exact absurd h (by simp)
              · rename_i t1 parent h1
                split at h
                · exact absurd h (by simp)
                · rename_i t2 h2
                  exact ih _ _ _ (add_leaf_root_null (split_edge_root_null hr h1) h2) h
          · exact absurd h (by simp)

theorem add_prefix_root_null {t t' : suffix_tree} {i : Int} (hr : t.RootNull)
    (h : suffix_tree.add_prefix t i = some t') : t'.RootNull := by
  unfold suffix_tree.add_prefix at h
  split at h
  · exact absurd h (by simp)
  · rename_i t1 lp1 p1 h1
    have r1 := add_prefix_loop_root_null _ _ _ _ hr h1
    simp only at h
    have r2 := update_suffix_link_root_null r1 lp1 p1
    exact canonize_root_null (t := { t1.update_suffix_link lp1 p1 with
      active := (t1.update_suffix_link lp1 p1).active.inc_end_index }) r2 h

theorem add_character_root_null {t t' : suffix_tree} {c : Char} (hr : t.RootNull)
    (h : t.add_character c = some t') : t'.RootNull := by
  unfold suffix_tree.add_character at h
  exact add_prefix_root_null (t := { t with text := t.text ++ [c] }) hr h

theorem add_characters_root_null : ∀ (s : List Char) {t t' : suffix_tree}, t.RootNull →
    t.add_characters s = some t' → t'.RootNull
  | [], t, t', hr, h => by
    simp only [suffix_tree.add_characters, Option.some.injEq] at h
    subst h
    exact hr
  | c :: rest, t, t', hr, h => by
    rw [suffix_tree.add_characters] at h
    split at h
    · exact absurd h (by simp)
    · rename_i t1 h1
      exact add_characters_root_null rest (add_character_root_null hr h1) h

theorem init_root_null (d : Nat) : (suffix_tree.init d).RootNull :=
  ⟨by simp [suffix_tree.init], rfl⟩

end suffix_tree


/-! ## Invariants of the construction -/

namespace suffix_tree

variable {t : suffix_tree} {L : Nat → List Char}

theorem get_char_out_of_range (t : suffix_tree) (i : Int)
    (h : i < 0 ∨ (t.text.length : Int) ≤ i) : t.get_char i = none := by
  unfold get_char
  rcases h with h | h
  · rw [if_neg (by omega)]
  · rw [if_pos (by omega)]
    exact List.getElem?_eq_none (by omega)

theorem change_origin_node_null (h : (t.node t.active.origin_node).suffix_link = none) :
    t.change_origin_node = none := by
  unfold change_origin_node
  rw [h]

theorem canonize_suffix_null {s : suffix_tree_suffix} {ch : Char}
    (hs : s.is_explicit = false) (hc : t.get_char s.begin_index = some ch)
    (hf : (t.node s.origin_node).find_edge ch = none) : t.canonize_suffix s = none := by
  unfold canonize_suffix
  simp [hs, hc, hf]

theorem TreeInv.leaf_not_internal (h : t.TreeInv L) {e : Nat} (ho : t.is_open e) :
    ¬ t.Internal (e + 1) := by
  rintro (h0 | ⟨f, _, hf, hfo⟩)
  · omega
  · have : f = e := by omega
    rw [this] at hfo
    exact hfo ho

/-- The path from the root to an inner node spells its label, and no other word. -/
theorem TreeInv.path_label_unique (h : t.TreeInv L) {u : Nat} (hu : t.Internal u)
    {w : List Char} (hr : t.Reaches 0 w u) : w = L u := by
  rcases h.reaches_word hr (Or.inl rfl) with ⟨_, hl⟩ | ⟨e, _, ho, hue, _⟩
  · rw [hl, h.Lroot, List.nil_append]
  · rw [hue] at hu
    exact absurd hu (h.leaf_not_internal ho)

/-- A node with an outgoing edge is an inner node. -/
theorem TreeInv.internal_of_edges (h : t.TreeInv L) {u : Nat}
    (hne : (t.node u).edges ≠ []) : t.Internal u := by
  cases hE : (t.node u).edges with
  | nil => exact absurd hE hne
  | cons p rest =>
    obtain ⟨c, e⟩ := p
    have hm : (c, e) ∈ (t.node u).edges := by rw [hE]; simp
    obtain ⟨he, hes, _⟩ := h.mem_edges.mp hm
    rw [← hes]
    exact (h.edge_ok e he).start_int

end suffix_tree

/-- The tree after `add_character` on each symbol of `s` on a fresh tree: the
calls return, and the tree satisfies the invariant between two calls. -/
theorem reachable_inv (d : Nat) (s : List Char) (hs : (s.length : Int) ≤ INF) :
    ∃ (t : suffix_tree) (L : Nat → List Char) (j : Nat),
      (suffix_tree.init d).add_characters s = some t ∧ t.PhaseInv L j ∧ t.text = s ∧
      t.RootNull := by
  obtain ⟨t, ht, hg⟩ := suffix_tree.Good.add_characters s (suffix_tree.Good.init d)
    (by simpa [suffix_tree.init] using hs)
  obtain ⟨L, j, hp⟩ := hg
  have htext : t.text = s := by
    have := (suffix_tree.add_characters_text s ht).1
    simpa [suffix_tree.init] using this
  exact ⟨t, L, j, ht, hp, htext,
    suffix_tree.add_characters_root_null s (suffix_tree.init_root_null d) ht⟩

/-- C11: for every sequence of `add_character` calls on a fresh tree the
construction returns. In the embedding every edge lookup that the code
dereferences without a null check, every read of the text outside
`[0, length)` and the null suffix link followed by `change_origin_node` is the
failure `none`, so none of them occurs (the sequence within the range of the
`int` indices). -/
theorem construction_never_fails (d : Nat) (s : List Char) (hs : (s.length : Int) ≤ INF) :
    ∃ t, (suffix_tree.init d).add_characters s = some t := by
  obtain ⟨t, _, _, ht, _⟩ := reachable_inv d s hs
  exact ⟨t, ht⟩

theorem construction_never_fails_witness :
    (("abcabxabcd".data.length : Int) ≤ INF) ∧
    ∃ t, (suffix_tree.init 0).add_characters "abcabxabcd".data = some t :=
  ⟨by decide, construction_never_fails 0 "abcabxabcd".data (by decide)⟩

/-- C14: after the `add_character` calls on a fresh tree the suffix link of
the root is null, and every other node `u` with an outgoing edge has a suffix
link to a node `v` such that the path from the root to `u` spells a word `w`
(and no other word) and the path from the root to `v` spells `w` without its
first symbol (and no other word). -/
theorem suffix_links_correct (d : Nat) (s : List Char) (hs : (s.length : Int) ≤ INF) :
    ∃ t, (suffix_tree.init d).add_characters s = some t ∧
      (t.node t.root).suffix_link = none ∧
      ∀ u, u ≠ t.root → (t.node u).edges ≠ [] →
        ∃ v w, (t.node u).suffix_link = some v ∧
          t.Reaches t.root w u ∧ (∀ w2, t.Reaches t.root w2 u → w2 = w) ∧
          t.Reaches t.root w.tail v ∧ (∀ w2, t.Reaches t.root w2 v → w2 = w.tail) := by
  obtain ⟨t, L, j, ht, hp, _, hrn⟩ := reachable_inv d s hs
  refine ⟨t, ht, hrn.2, ?_⟩
  intro u hu hne
  rw [hp.inv.root0] at hu ⊢
  have hint := hp.inv.internal_of_edges hne
  obtain ⟨v, hlink, hv, hLv⟩ := hp.links u hint hu
  refine ⟨v, L u, hlink, hp.inv.reaches_label _ u hint rfl,
    fun w2 hw2 => hp.inv.path_label_unique hint hw2, ?_, ?_⟩
  · rw [← hLv]
    exact hp.inv.reaches_label _ v hv rfl
  · intro w2 hw2
    rw [← hLv]
    exact hp.inv.path_label_unique hv hw2

theorem suffix_links_correct_witness :
    (("abcabxabcd".data.length : Int) ≤ INF) ∧
    ∃ t, (suffix_tree.init 0).add_characters "abcabxabcd".data = some t ∧
      (t.node t.root).suffix_link = none ∧
      ∀ u, u ≠ t.root → (t.node u).edges ≠ [] →
        ∃ v w, (t.node u).suffix_link = some v ∧
          t.Reaches t.root w u ∧ (∀ w2, t.Reaches t.root w2 u → w2 = w) ∧
          t.Reaches t.root w.tail v ∧ (∀ w2, t.Reaches t.root w2 v → w2 = w.tail) :=
  ⟨by decide, suffix_links_correct 0 "abcabxabcd".data (by decide)⟩

/-- C15: after the `add_character` calls on a fresh tree `active.end_index`
is `len(text) - 1` and the active point is canonical: explicit, or strictly
inside the edge of `origin_node` keyed by `text[begin_index]`, the span of
the active point being less than the span of that edge. -/
theorem active_point_canonical (d : Nat) (s : List Char) (hs : (s.length : Int) ≤ INF) :
    ∃ t, (suffix_tree.init d).add_characters s = some t ∧
      t.active.end_index = (t.text.length : Int) - 1 ∧
      (t.active.begin_index > t.active.end_index ∨
        ∃ ch f, t.get_char t.active.begin_index = some ch ∧
          (t.node t.active.origin_node).find_edge ch = some f ∧
          t.active.get_span < (t.edge f).get_span) := by
  obtain ⟨t, L, j, ht, hp, _, _⟩ := reachable_inv d s hs
  exact ⟨t, ht, hp.act.end_eq, hp.can⟩

theorem active_point_canonical_witness :
    (("abcabxabcd".data.length : Int) ≤ INF) ∧
    ∃ t, (suffix_tree.init 0).add_characters "abcabxabcd".data = some t ∧
      t.active.end_index = (t.text.length : Int) - 1 ∧
      (t.active.begin_index > t.active.end_index ∨
        ∃ ch f, t.get_char t.active.begin_index = some ch ∧
          (t.node t.active.origin_node).find_edge ch = some f ∧
          t.active.get_span < (t.edge f).get_span) :=
  ⟨by decide, active_point_canonical 0 "abcabxabcd".data (by decide)⟩

/-- C16: after the `add_character` calls on a fresh tree the edge map of a
node `u` holds the pair `(c, e)` exactly if `e` is an allocated edge with
start node `u` and first symbol `c = text[e.begin_index]`. So every allocated
edge is stored in the map of its start node (no `insert` was dropped), and
two edges stored in the map of a node under the same symbol are the same
edge. -/
theorem edge_maps_consistent (d : Nat) (s : List Char) (hs : (s.length : Int) ≤ INF) :
    ∃ t, (suffix_tree.init d).add_characters s = some t ∧
      (∀ u c e, (c, e) ∈ (t.node u).edges ↔
        (e < t.edge_count ∧ (t.edge e).start_node = u ∧
          t.get_char (t.edge e).begin_index = some c)) ∧
      (∀ e, e < t.edge_count → ∃ c, t.get_char (t.edge e).begin_index = some c ∧
        (t.node (t.edge e).start_node).find_edge c = some e) ∧
      (∀ u c e f, (c, e) ∈ (t.node u).edges → (c, f) ∈ (t.node u).edges → e = f) := by
  obtain ⟨t, L, j, ht, hp, _, _⟩ := reachable_inv d s hs
  have hgc : ∀ e, e < t.edge_count →
      t.get_char (t.edge e).begin_index = t.text[t.eb e]? := by
    intro e he
    have hnn := (hp.inv.edge_ok e he).begin_nonneg
    unfold suffix_tree.get_char suffix_tree.eb
    rw [if_pos hnn]
  refine ⟨t, ht, ?_, ?_, ?_⟩
  · intro u c e
    rw [hp.inv.mem_edges]
    constructor
    · rintro ⟨he, hes, hc⟩
      exact ⟨he, hes, by rw [hgc e he]; exact hc⟩
    · rintro ⟨he, hes, hc⟩
      exact ⟨he, hes, by rw [← hgc e he]; exact hc⟩
  · intro e he
    have ok := hp.inv.edge_ok e he
    obtain ⟨c, hc⟩ : ∃ c, t.text[t.eb e]? = some c :=
      ⟨_, List.getElem?_eq_getElem ok.begin_lt⟩
    exact ⟨c, by rw [hgc e he]; exact hc, (hp.inv.find_iff _ c e).mpr ⟨he, rfl, hc⟩⟩
  · intro u c e f he hf
    have h1 := map_mem_find (hp.inv.sorted u) he
    have h2 := map_mem_find (hp.inv.sorted u) hf
    rw [h1] at h2
    exact Option.some.inj h2

theorem edge_maps_consistent_witness :
    (("abcabxabcd".data.length : Int) ≤ INF) ∧
    ∃ t, (suffix_tree.init 0).add_characters "abcabxabcd".data = some t ∧
      (∀ u c e, (c, e) ∈ (t.node u).edges ↔
        (e < t.edge_count ∧ (t.edge e).start_node = u ∧
          t.get_char (t.edge e).begin_index = some c)) ∧
      (∀ e, e < t.edge_count → ∃ c, t.get_char (t.edge e).begin_index = some c ∧
        (t.node (t.edge e).start_node).find_edge c = some e) ∧
      (∀ u c e f, (c, e) ∈ (t.node u).edges → (c, f) ∈ (t.node u).edges → e = f) :=
  ⟨by decide, edge_maps_consistent 0 "abcabxabcd".data (by decide)⟩

/-- C17: after the `add_character` calls on a fresh tree, for every allocated
edge `e` the path from the root to its start node spells one word `w`, of a
length `d ≤ e.begin_index`, and `w` is `text[e.begin_index - d ..
e.begin_index - 1]`; if `e` is closed, the path from the root to its end node
spells one word `w1`, of length `D = d + span + 1`, and `w1` is
`text.substr(e.end_index - D + 1, D)`, the slice `get_lcs` extracts. -/
theorem edge_indices_locate_labels (d : Nat) (s : List Char) (hs : (s.length : Int) ≤ INF) :
    ∃ t, (suffix_tree.init d).add_characters s = some t ∧
      ∀ e, e < t.edge_count →
        ∃ w, t.Reaches t.root w (t.edge e).start_node ∧
          (∀ w2, t.Reaches t.root w2 (t.edge e).start_node → w2 = w) ∧
          (w.length : Int) ≤ (t.edge e).begin_index ∧
          substr t.text (to_size_t ((t.edge e).begin_index - w.length)) (to_size_t w.length)
            = some w ∧
          ((t.edge e).end_index ≠ INF →
            ∃ w1, t.Reaches t.root w1 (t.edge e).end_node ∧
              (∀ w2, t.Reaches t.root w2 (t.edge e).end_node → w2 = w1) ∧
              (w1.length : Int) = w.length + (t.edge e).get_span + 1 ∧
              substr t.text (to_size_t ((t.edge e).end_index - w1.length + 1))
                (to_size_t w1.length) = some w1) := by
  obtain ⟨t, L, j, ht, hp, htext, _⟩ := reachable_inv d s hs
  have hlen : (t.text.length : Int) ≤ INF := by rw [htext]; exact hs
  refine ⟨t, ht, ?_⟩
  intro e he
  have ok := hp.inv.edge_ok e he
  have hnn := ok.begin_nonneg
  have hbl := ok.begin_lt
  have hdl := ok.depth_le
  have hpa := ok.pos_add
  have hes : (t.edge e).start_node = t.es e := rfl
  have heb : (t.edge e).begin_index = (t.eb e : Int) := by
    unfold suffix_tree.eb
    omega
  rw [hp.inv.root0, hes]
  refine ⟨L (t.es e), hp.inv.reaches_label _ _ ok.start_int rfl,
    fun w2 hw2 => hp.inv.path_label_unique ok.start_int hw2, by omega, ?_, ?_⟩
  · have hpos : (t.edge e).begin_index - ((L (t.es e)).length : Int)
        = (t.edge_pos L e : Int) := by omega
    rw [hpos, to_size_t_small (by omega) (by omega), to_size_t_small (by omega) (by omega)]
    simp only [Int.toNat_ofNat]
    unfold substr
    rw [if_neg (by omega)]
    exact congrArg some ok.occ_start
  · intro hcl
    have ho : ¬ t.is_open e := hcl
    have hint : t.Internal (e + 1) := Or.inr ⟨e, he, rfl, ho⟩
    have hcl_len := ok.closed_len ho
    have hll := suffix_tree.lab_len_closed ho
    have hle := ok.closed_le ho
    have hlt := ok.closed_lt ho
    have hocc := ok.closed_occ ho
    rw [ok.end_node]
    refine ⟨L (e + 1), hp.inv.reaches_label _ _ hint rfl,
      fun w2 hw2 => hp.inv.path_label_unique hint hw2, ?_, ?_⟩
    · unfold suffix_tree_edge.get_span
      omega
    · have hpos : (t.edge e).end_index - ((L (e + 1)).length : Int) + 1
          = (t.edge_pos L e : Int) := by omega
      rw [hpos, to_size_t_small (by omega) (by omega),
        to_size_t_small (by omega) (by have := occ_length hocc; omega)]
      simp only [Int.toNat_ofNat]
      unfold substr
      rw [if_neg (by omega)]
      exact congrArg some hocc

theorem edge_indices_locate_labels_witness :
    (("abcabxabcd".data.length : Int) ≤ INF) ∧
    ∃ t, (suffix_tree.init 0).add_characters "abcabxabcd".data = some t ∧
      ∀ e, e < t.edge_count →
        ∃ w, t.Reaches t.root w (t.edge e).start_node ∧
          (∀ w2, t.Reaches t.root w2 (t.edge e).start_node → w2 = w) ∧
          (w.length : Int) ≤ (t.edge e).begin_index ∧
          substr t.text (to_size_t ((t.edge e).begin_index - w.length)) (to_size_t w.length)
            = some w ∧
          ((t.edge e).end_index ≠ INF →
            ∃ w1, t.Reaches t.root w1 (t.edge e).end_node ∧
              (∀ w2, t.Reaches t.root w2 (t.edge e).end_node → w2 = w1) ∧
              (w1.length : Int) = w.length + (t.edge e).get_span + 1 ∧
              substr t.text (to_size_t ((t.edge e).end_index - w1.length + 1))
                (to_size_t w1.length) = some w1) :=
  ⟨by decide, edge_indices_locate_labels 0 "abcabxabcd".data (by decide)⟩


namespace suffix_tree

variable {t : suffix_tree} {L : Nat → List Char}

/-- If the last symbol of the text occurs nowhere else, the active point is
at the end of the text: every suffix has its leaf. -/
theorem PhaseInv.suffixes_explicit {j : Nat} (hp : t.PhaseInv L j)
    (u2 : ∀ y, t.text[y]? = t.text[t.text.length - 1]? → y = t.text.length - 1) :
    j = t.text.length := by
  have hle := hp.act.le
  by_contra hne
  have hjl : j < t.text.length := by omega
  have hsp := hp.act.spelled
  have hWl : (seg t.text j (t.text.length - j)).length = t.text.length - j :=
    seg_length_of_le (by omega)
  have hWocc : Occ t.text j (seg t.text j (t.text.length - j)) := occ_seg (by omega)
  rcases hsp with hnil | ⟨e, he, h2, h3, h4⟩
  · have := congrArg List.length hnil
    rw [hWl] at this
    simp only [List.length_nil] at this
    omega
  · rw [hWl] at h2 h3
    have ok := hp.inv.edge_ok e he
    have e1 := occ_iff.mp h4 (t.text.length - j - 1) (by rw [hWl]; omega)
    have e2 := occ_iff.mp hWocc (t.text.length - j - 1) (by rw [hWl]; omega)
    rw [← e2, show j + (t.text.length - j - 1) = t.text.length - 1 by omega] at e1
    have h5 := u2 _ e1
    have hpa := ok.pos_add
    by_cases ho : t.is_open e
    · have := hp.leaves.lt e he ho
      omega
    · rw [lab_len_closed ho] at h3
      have := ok.closed_lt ho
      have := ok.closed_le ho
      have := ok.begin_nonneg
      unfold eb at hpa
      omega

/-- Every allocated edge has a span that is not negative. -/
theorem PhaseInv.span_nonneg {j : Nat} (hp : t.PhaseInv L j)
    (hn : (t.text.length : Int) ≤ INF) {e : Nat} (he : e < t.edge_count) :
    0 ≤ (t.edge e).get_span := by
  have ok := hp.inv.edge_ok e he
  unfold suffix_tree_edge.get_span
  by_cases ho : t.is_open e
  · have h1 : (t.edge e).end_index = INF := ho
    have h2 := ok.begin_lt
    have h3 := ok.begin_nonneg
    unfold eb at h2
    omega
  · have := ok.closed_le ho
    omega

end suffix_tree

/-- C12: in every tree state reached from a fresh tree by `add_character`
calls, `add_character(c)` returns: the `while(true)` loop of `add_prefix` and
the loops of `canonize` end within the fuel `len(text) + 2`. The leaf edges
allocated by the call are at most `len(text)` (the length after the append),
and every edge has a span that is not negative, so `begin_index += edge_span
+ 1` is a strict increase (the text within the range of the `int` indices). -/
theorem add_character_terminates (d : Nat) (s : List Char) (c : Char)
    (hs : (s.length : Int) + 1 ≤ INF) :
    ∃ t t1, (suffix_tree.init d).add_characters s = some t ∧
      t.add_character c = some t1 ∧
      t1.new_leaf_count t.edge_count ≤ t1.text.length ∧
      ∀ e, e < t1.edge_count → 0 ≤ (t1.edge e).get_span := by
  obtain ⟨t, L, j, ht, hp, htext, _⟩ := reachable_inv d s (by omega)
  obtain ⟨t1, h1, g1⟩ := suffix_tree.Good.add_character ⟨L, j, hp⟩ c (by rw [htext]; exact hs)
  obtain ⟨L1, j1, hp1⟩ := g1
  have hlen : (t1.text.length : Int) ≤ INF := by
    rw [(suffix_tree.add_character_text h1).1, htext]
    simp only [List.length_append, List.length_singleton, Nat.cast_add, Nat.cast_one]
    exact hs
  refine ⟨t, t1, ht, h1, ?_, fun e he => hp1.span_nonneg hlen he⟩
  have h2 := suffix_tree.new_leaf_count_le t1 t.edge_count
  have h3 := hp1.inv.leaf_count_eq hp1.leaves
  have h4 := hp1.act.le
  omega

theorem add_character_terminates_witness :
    (("abcabxabc".data.length : Int) + 1 ≤ INF) ∧
    ∃ t t1, (suffix_tree.init 0).add_characters "abcabxabc".data = some t ∧
      t.add_character 'd' = some t1 ∧
      t1.new_leaf_count t.edge_count ≤ t1.text.length ∧
      ∀ e, e < t1.edge_count → 0 ≤ (t1.edge e).get_span :=
  ⟨by decide, add_character_terminates 0 "abcabxabc".data 'd' (by decide)⟩

/-- C18: on a tree reached from a fresh tree by `add_string` calls, if the
terminator that `add_string(s)` appends occurs nowhere else in the resulting
text, then `add_string(s)` returns, the active point is the empty suffix at
the root (`origin_node = root`, `begin_index = len(text)`, `end_index =
len(text) - 1`), the open leaf edges are exactly `len(text)`, and for every
index `q` of the text the path from the root that spells the suffix starting
at `q` ends at the end node of an open leaf edge (the text within the range
of the `int` indices). -/
theorem unique_terminator_all_leaves (d : Nat) (ss : List (List Char)) (t : suffix_tree)
    (s : List Char) (ht : (suffix_tree.init d).add_strings ss = some t)
    (hn : (t.text.length : Int) + s.length + 1 ≤ INF)
    (hu : delimiter t.delimiters_count ∉ t.text ++ s) :
    ∃ t1, t.add_string s = some t1 ∧
      t1.active.origin_node = t1.root ∧
      t1.active.begin_index = (t1.text.length : Int) ∧
      t1.active.end_index = (t1.text.length : Int) - 1 ∧
      t1.leaf_count = t1.text.length ∧
      ∀ q, q < t1.text.length → ∃ e, e < t1.edge_count ∧ (t1.edge e).end_index = INF ∧
        t1.Reaches t1.root (t1.text.drop q) (t1.edge e).end_node := by
  have hg := suffix_tree.Good.add_strings ss (suffix_tree.Good.init d) ht (by omega)
  obtain ⟨t1, h1, g1⟩ := hg.add_string s hn
  obtain ⟨L, j, hp⟩ := g1
  have htext := (suffix_tree.add_string_text h1).1
  have hlen : t1.text.length = (t.text ++ s).length + 1 := by
    rw [htext]
    simp only [List.length_append, List.length_singleton]
  have hlast : t1.text[t1.text.length - 1]? = some (delimiter t.delimiters_count) := by
    rw [hlen, htext, Nat.add_sub_cancel, List.getElem?_append_right (le_refl _), Nat.sub_self]
    exact List.getElem?_cons_zero
  have u2 : ∀ y, t1.text[y]? = t1.text[t1.text.length - 1]? → y = t1.text.length - 1 := by
    intro y hy
    rw [hlast] at hy
    by_contra hne
    have hyl : y < t1.text.length := by
      by_contra hcon
      rw [List.getElem?_eq_none (not_lt.mp hcon)] at hy
      exact absurd hy (by simp)
    have hy2 : y < (t.text ++ s).length := by omega
    rw [htext, List.getElem?_append_left hy2] at hy
    exact hu (List.mem_iff_getElem?.mpr ⟨y, hy⟩)
  have hj := hp.suffixes_explicit u2
  subst hj
  have hle := hp.act.le
  have hz : (L t1.active.origin_node).length = 0 := by omega
  have horig := hp.inv.eq_root hp.act.int hz
  have hbeg := hp.act.begin_eq
  rw [hz] at hbeg
  refine ⟨t1, h1, by rw [horig, hp.inv.root0], by simpa using hbeg, hp.act.end_eq,
    hp.inv.leaf_count_eq hp.leaves, ?_⟩
  intro q hq
  obtain ⟨e, he, ho, hpos⟩ := hp.leaves.ex q hq
  refine ⟨e, he, ho, ?_⟩
  rw [hp.inv.root0, ← hpos]
  exact hp.inv.leaf_path he ho

theorem unique_terminator_all_leaves_witness :
    (suffix_tree.init 0).add_strings [] = some (suffix_tree.init 0) ∧
    (((suffix_tree.init 0).text.length : Int) + "abab".data.length + 1 ≤ INF) ∧
    (delimiter (suffix_tree.init 0).delimiters_count ∉
      (suffix_tree.init 0).text ++ "abab".data) ∧
    ∃ t1, (suffix_tree.init 0).add_string "abab".data = some t1 ∧
      t1.active.origin_node = t1.root ∧
      t1.active.begin_index = (t1.text.length : Int) ∧
      t1.active.end_index = (t1.text.length : Int) - 1 ∧
      t1.leaf_count = t1.text.length ∧
      ∀ q, q < t1.text.length → ∃ e, e < t1.edge_count ∧ (t1.edge e).end_index = INF ∧
        t1.Reaches t1.root (t1.text.drop q) (t1.edge e).end_node :=
  ⟨rfl, by decide, by decide,
    unique_terminator_all_leaves 0 [] (suffix_tree.init 0) "abab".data rfl (by decide)
      (by decide)⟩


/-! ## The search for the two markers -/

namespace suffix_tree

variable {t : suffix_tree} {L : Nat → List Char} {m1 : Nat}

/-- In the state `QueryPre` the search that `get_lcs` starts at the root
returns, and its result meets the specification of the root. -/
theorem QueryPre.root_search (hq : t.QueryPre L m1) (l2 : Nat)
    (hl : m1 + l2 + 2 = t.text.length) :
    ∃ r, t.find_delimiters (to_int m1) (to_int (m1 + l2 + 1)) (t.text.length + 2) t.root 0
        = some r ∧ t.NodeSpec L m1 0 r := by
  have hn := hq.len_le
  obtain ⟨r, hr, hspec⟩ := hq.find_ok (t.text.length + 2) 0 (Or.inl rfl) (by omega)
  have hm2 : m1 + l2 + 1 = t.text.length - 1 := by omega
  refine ⟨r, ?_, hspec⟩
  rw [to_int_small (by omega), hm2, to_int_small (by omega), hq.inv.root0]
  rw [hq.inv.Lroot] at hr
  exact hr

end suffix_tree

/-- The root search when `delimiters_count` starts at `d`: for strings `a`
and `b` (empty ones too) without the two terminators that are appended, after
`add_string(a)`, `add_string(b)` the search `root->find_delimiters(|a|,
|a|+|b|+1, 0)` returns with `first = second = true` and `depth ≥ 0`; if
`depth > 0` then `0 ≤ end_index - depth + 1` and `end_index < len(text)`, so
`substr(end_index - depth + 1, depth)` stays inside the text (`a` and `b`
together within the range of the `int` indices). -/
theorem root_search_in_range (d : Nat) (a b : List Char) (ha1 : delimiter d ∉ a)
    (ha2 : delimiter (d + 1) ∉ a) (hb1 : delimiter d ∉ b) (hb2 : delimiter (d + 1) ∉ b)
    (h : (a.length : Int) + b.length + 2 ≤ INF) :
    ∃ t1 t2 r, (suffix_tree.init d).add_string a = some t1 ∧ t1.add_string b = some t2 ∧
      t2.find_delimiters (to_int a.length) (to_int (a.length + b.length + 1))
        (t2.text.length + 2) t2.root 0 = some r ∧
      r.first = true ∧ r.second = true ∧ 0 ≤ r.depth ∧
      (0 < r.depth → 0 ≤ r.end_index - r.depth + 1 ∧ r.end_index < (t2.text.length : Int)) := by
  obtain ⟨t1, t2, L, h1, h2, _, _, hlen, hq⟩ := two_strings_state d a b ha1 ha2 hb1 hb2 h
  obtain ⟨r, hr, hspec⟩ := hq.root_search b.length (by omega)
  have hm1 := hq.m1_lt
  have hr0 : t2.Internal 0 := Or.inl rfl
  have hA : t2.InFirst L a.length 0 :=
    ⟨0, by omega, by rw [hq.inv.Lroot]; exact occ_nil _ _⟩
  have hB : t2.InSecond L a.length 0 :=
    ⟨a.length + 1, by omega, by omega, by rw [hq.inv.Lroot]; exact occ_nil _ _⟩
  have hup := hspec.upper hA hB 0 (suffix_tree.Cand.self hr0 hA hB)
  rw [hq.inv.Lroot] at hup
  simp only [List.length_nil, Nat.cast_zero] at hup
  refine ⟨t1, t2, r, h1, h2, hr, hspec.first.mpr hA, hspec.second.mpr hB, hup, ?_⟩
  intro hpos
  rcases hspec.wit hA hB with ⟨hd, _⟩ | ⟨e1, hw, _⟩
  · rw [hq.inv.Lroot] at hd
    simp only [List.length_nil, Nat.cast_zero] at hd
    omega
  · have ok := hq.inv.edge_ok e1 hw.lt
    have hdep := hw.depth
    have hend := hw.end_index
    have hcl := ok.closed_len hw.closed
    have hll := suffix_tree.lab_len_closed hw.closed
    have hle := ok.closed_le hw.closed
    have hlt := ok.closed_lt hw.closed
    have hnn := ok.begin_nonneg
    have hdl := ok.depth_le
    unfold suffix_tree.eb at hdl
    constructor
    · omega
    · omega

theorem root_search_in_range_witness :
    (delimiter 0 ∉ "xaby".data) ∧ (delimiter 1 ∉ "xaby".data) ∧
    (delimiter 0 ∉ "abz".data) ∧ (delimiter 1 ∉ "abz".data) ∧
    (("xaby".data.length : Int) + "abz".data.length + 2 ≤ INF) ∧
    ∃ t1 t2 r, (suffix_tree.init 0).add_string "xaby".data = some t1 ∧
      t1.add_string "abz".data = some t2 ∧
      t2.find_delimiters (to_int "xaby".data.length)
        (to_int ("xaby".data.length + "abz".data.length + 1))
        (t2.text.length + 2) t2.root 0 = some r ∧
      r.first = true ∧ r.second = true ∧ 0 ≤ r.depth ∧
      (0 < r.depth → 0 ≤ r.end_index - r.depth + 1 ∧ r.end_index < (t2.text.length : Int)) :=
  ⟨by decide, by decide, by decide, by decide, by decide,
    root_search_in_range 0 "xaby".data "abz".data (by decide) (by decide) (by decide)
      (by decide) (by decide)⟩

/-- C13 (failing input): the constructor does not initialise
`delimiters_count`. On a fresh tree in which it holds 6 (terminators `'a'`
and `'b'`) the strings `"b"` and `"ba"` hold neither `'['` nor `'\\'`, and
after `add_string("b")`, `add_string("ba")` the search
`root->find_delimiters(1, 4, 0)` returns `second = false` and the sentinel
`depth = -1`, on which `get_lcs` calls `substr(1, npos)` and returns
`"abab"`. -/
theorem root_search_sentinel_uninitialised :
    ('[' ∉ "b".data ∧ '\\' ∉ "b".data ∧ '[' ∉ "ba".data ∧ '\\' ∉ "ba".data) ∧
    (((suffix_tree.init 6).add_string "b".data).bind (fun t => t.add_string "ba".data)).bind
        (fun t => t.find_delimiters (to_int 1) (to_int 4) (t.text.length + 2) t.root 0)
      = some ⟨-1, true, false, -1⟩ ∧
    lcs_main 6 "b".data "ba".data = some "abab".data := by
  decide

/-- The choice among ties when `delimiters_count` starts at `d`: for strings
`a` and `b` without the two terminators that are appended, the string that
`get_lcs(|a|, |b|)` returns is a common substring of maximal length, and
among the common substrings of that length it is the least in the
lexicographic order given by the key order of the edge maps (`a` and `b`
together within the range of the `int` indices). -/
theorem lcs_tie_break (d : Nat) (a b : List Char) (ha1 : delimiter d ∉ a)
    (ha2 : delimiter (d + 1) ∉ a) (hb1 : delimiter d ∉ b) (hb2 : delimiter (d + 1) ∉ b)
    (h : (a.length : Int) + b.length + 2 ≤ INF) :
    ∃ r, lcs_main d a b = some r ∧ r <:+: a ∧ r <:+: b ∧
      (∀ w, w <:+: a → w <:+: b → w.length ≤ r.length) ∧
      ∀ w, w <:+: a → w <:+: b → w.length = r.length → lex_le r w := by
  obtain ⟨r, hr, hra, hrb, hmax⟩ := lcs_main_spec d a b ha1 ha2 hb1 hb2 h
  exact ⟨r, hr, hra, hrb, fun w hwa hwb => (hmax w hwa hwb).1,
    fun w hwa hwb hl => (hmax w hwa hwb).2 hl⟩

theorem lcs_tie_break_witness :
    (delimiter 0 ∉ "cdxab".data) ∧ (delimiter 1 ∉ "cdxab".data) ∧
    (delimiter 0 ∉ "abycd".data) ∧ (delimiter 1 ∉ "abycd".data) ∧
    (("cdxab".data.length : Int) + "abycd".data.length + 2 ≤ INF) ∧
    lcs_main 0 "cdxab".data "abycd".data = some "ab".data ∧
    ∃ r, lcs_main 0 "cdxab".data "abycd".data = some r ∧ r <:+: "cdxab".data ∧
      r <:+: "abycd".data ∧
      (∀ w, w <:+: "cdxab".data → w <:+: "abycd".data → w.length ≤ r.length) ∧
      ∀ w, w <:+: "cdxab".data → w <:+: "abycd".data → w.length = r.length → lex_le r w :=
  ⟨by decide, by decide, by decide, by decide, by decide, by decide,
    lcs_tie_break 0 "cdxab".data "abycd".data (by decide) (by decide) (by decide) (by decide)
      (by decide)⟩

/-- C19 (failing input): the constructor does not initialise
`delimiters_count`. On a fresh tree in which it holds 6 (terminators `'a'`
and `'b'`) the strings `"ab"` and `"bba"` hold neither `'['` nor `'\\'`; their
common substrings of maximal length are `"a"` and `"b"`, and `get_lcs(2, 3)`
returns neither of them but `"ab"`, which is not a substring of `"bba"`. -/
theorem lcs_tie_uninitialised :
    ('[' ∉ "ab".data ∧ '\\' ∉ "ab".data ∧ '[' ∉ "bba".data ∧ '\\' ∉ "bba".data) ∧
    lcs_main 6 "ab".data "bba".data = some "ab".data ∧
    ("a".data <:+: "ab".data ∧ "a".data <:+: "bba".data) ∧
    ("b".data <:+: "ab".data ∧ "b".data <:+: "bba".data) ∧
    ¬ ("ab".data <:+: "bba".data) := by
  decide

/-- The markers on the edges. An edge whose index range holds both markers
returns `first = true`, `second = false`, `depth = -1`, `end_index = -1` for
every depth, whatever the search below the edge does. In the tree of two
strings `a` and `b` without the two terminators that are appended
(`delimiters_count` starting at `d`) a closed edge holds neither marker; an
open leaf edge ends the path of the suffix that starts at an index `q`, it
holds both markers exactly if `q ≤ |a|` (the suffix starts in the first
string or at its terminator) and then returns the result above, and if `q >
|a|` it returns `first = false`, `second = true`, `depth = -1`, `end_index =
-1`. -/
theorem edge_both_markers (e : suffix_tree_edge) (below : Int → Option search_result)
    (m1 m2 d : Int) (h1 : e.begin_index ≤ m1 ∧ m1 ≤ e.end_index)
    (h2 : e.begin_index ≤ m2 ∧ m2 ≤ e.end_index)
    (dc : Nat) (a b : List Char) (ha1 : delimiter dc ∉ a) (ha2 : delimiter (dc + 1) ∉ a)
    (hb1 : delimiter dc ∉ b) (hb2 : delimiter (dc + 1) ∉ b)
    (h : (a.length : Int) + b.length + 2 ≤ INF) :
    edge_find_delimiters e below m1 m2 d = some ⟨-1, true, false, -1⟩ ∧
    ∃ t1 t2, (suffix_tree.init dc).add_string a = some t1 ∧ t1.add_string b = some t2 ∧
      ∀ k, k < t2.edge_count →
        ((t2.edge k).end_index ≠ INF →
          (t2.edge k).contains (to_int a.length) = false ∧
          (t2.edge k).contains (to_int (a.length + b.length + 1)) = false) ∧
        ((t2.edge k).end_index = INF →
          ∃ q, q < t2.text.length ∧
            t2.Reaches t2.root (t2.text.drop q) (t2.edge k).end_node ∧
            (((t2.edge k).contains (to_int a.length) = true ∧
              (t2.edge k).contains (to_int (a.length + b.length + 1)) = true) ↔
                q ≤ a.length) ∧
            (q ≤ a.length → ∀ fuel d1,
              edge_find_delimiters (t2.edge k)
                (t2.find_delimiters (to_int a.length) (to_int (a.length + b.length + 1))
                  fuel (t2.edge k).end_node)
                (to_int a.length) (to_int (a.length + b.length + 1)) d1
                = some ⟨-1, true, false, -1⟩) ∧
            (a.length < q → ∀ fuel d1, 0 < fuel →
              edge_find_delimiters (t2.edge k)
                (t2.find_delimiters (to_int a.length) (to_int (a.length + b.length + 1))
                  fuel (t2.edge k).end_node)
                (to_int a.length) (to_int (a.length + b.length + 1)) d1
                = some ⟨-1, false, true, -1⟩)) := by
  constructor
  · apply edge_find_open_first
    · unfold suffix_tree_edge.contains
      simp [h1.1, h1.2]
    · unfold suffix_tree_edge.contains
      simp [h2.1, h2.2]
  obtain ⟨t1, t2, L, e1, e2, _, _, hlen, hq⟩ := two_strings_state dc a b ha1 ha2 hb1 hb2 h
  refine ⟨t1, t2, e1, e2, ?_⟩
  have hm2 : a.length + b.length + 1 = t2.text.length - 1 := by omega
  have hmk1 : to_int a.length = (a.length : Int) := suffix_tree.to_int_small (by omega)
  have hmk2 : to_int (a.length + b.length + 1) = ((t2.text.length - 1 : Nat) : Int) := by
    rw [hm2]
    exact suffix_tree.to_int_small (by omega)
  rw [hmk1, hmk2]
  intro k hk
  have ok := hq.inv.edge_ok k hk
  constructor
  · intro hcl
    exact hq.closed_contains hk hcl
  · intro hop
    have ho : t2.is_open k := hop
    obtain ⟨c1, c2⟩ := hq.open_contains hk ho
    have hpl := hq.open_pos_le hk
    have hlt := hq.leaves.lt k hk ho
    refine ⟨t2.edge_pos L k, hlt, ?_, ?_, ?_, ?_⟩
    · rw [hq.inv.root0]
      exact hq.inv.leaf_path hk ho
    · rw [c1, c2, ← hpl]
      simp
    · intro hle fuel d1
      rw [← hpl] at hle
      rw [decide_eq_true hle] at c1
      exact edge_find_open_first c1 c2
    · intro hgt fuel d1 hfuel
      have hnle : ¬ t2.eb k ≤ a.length := by
        rw [hpl]
        omega
      rw [decide_eq_false hnle] at c1
      apply edge_find_open_second c1 c2
      rw [ok.end_node]
      obtain ⟨f1, rfl⟩ : ∃ f1, fuel = f1 + 1 := ⟨fuel - 1, by omega⟩
      simp [suffix_tree.find_delimiters, hq.inv.leaf_no_edges hk ho, search_result.init]

theorem edge_both_markers_witness :
    ((⟨2, INF, 0, 1⟩ : suffix_tree_edge).begin_index ≤ 3 ∧
      3 ≤ (⟨2, INF, 0, 1⟩ : suffix_tree_edge).end_index) ∧
    ((⟨2, INF, 0, 1⟩ : suffix_tree_edge).begin_index ≤ 6 ∧
      6 ≤ (⟨2, INF, 0, 1⟩ : suffix_tree_edge).end_index) ∧
    (delimiter 0 ∉ "ab".data) ∧ (delimiter 1 ∉ "ab".data) ∧
    (delimiter 0 ∉ "b".data) ∧ (delimiter 1 ∉ "b".data) ∧
    (("ab".data.length : Int) + "b".data.length + 2 ≤ INF) ∧
    (edge_find_delimiters ⟨2, INF, 0, 1⟩ (fun _ => none) 3 6 0 = some ⟨-1, true, false, -1⟩ ∧
    ∃ t1 t2, (suffix_tree.init 0).add_string "ab".data = some t1 ∧
      t1.add_string "b".data = some t2 ∧
      ∀ k, k < t2.edge_count →
        ((t2.edge k).end_index ≠ INF →
          (t2.edge k).contains (to_int "ab".data.length) = false ∧
          (t2.edge k).contains (to_int ("ab".data.length + "b".data.length + 1)) = false) ∧
        ((t2.edge k).end_index = INF →
          ∃ q, q < t2.text.length ∧
            t2.Reaches t2.root (t2.text.drop q) (t2.edge k).end_node ∧
            (((t2.edge k).contains (to_int "ab".data.length) = true ∧
              (t2.edge k).contains (to_int ("ab".data.length + "b".data.length + 1)) = true) ↔
                q ≤ "ab".data.length) ∧
            (q ≤ "ab".data.length → ∀ fuel d1,
              edge_find_delimiters (t2.edge k)
                (t2.find_delimiters (to_int "ab".data.length)
                  (to_int ("ab".data.length + "b".data.length + 1))
                  fuel (t2.edge k).end_node)
                (to_int "ab".data.length) (to_int ("ab".data.length + "b".data.length + 1)) d1
                = some ⟨-1, true, false, -1⟩) ∧
            ("ab".data.length < q → ∀ fuel d1, 0 < fuel →
              edge_find_delimiters (t2.edge k)
                (t2.find_delimiters (to_int "ab".data.length)
                  (to_int ("ab".data.length + "b".data.length + 1))
                  fuel (t2.edge k).end_node)
                (to_int "ab".data.length) (to_int ("ab".data.length + "b".data.length + 1)) d1
                = some ⟨-1, false, true, -1⟩))) :=
  ⟨by decide, by decide, by decide, by decide, by decide, by decide, by decide,
    edge_both_markers ⟨2, INF, 0, 1⟩ (fun _ => none) 3 6 0 (by decide) (by decide)
      0 "ab".data "b".data (by decide) (by decide) (by decide) (by decide) (by decide)⟩

/-- C20 (failing input): the constructor does not initialise
`delimiters_count`. On a fresh tree in which it holds 6 (terminators `'a'`
and `'b'`) the strings `"x"` and `"xa"` hold neither `'['` nor `'\\'` and the
text is `"xaxab"`. The closed edge 2 leads from the root over `text[0..1]` to
the start node of the open leaf edge 0, which begins at index 2: edge 0 ends
the path of the suffix that starts at index 0, in the first string. It does
not hold the first marker, 1, and returns `first = false`, `second = true`,
while the closed edge 2 holds the first marker. -/
theorem leaf_edge_markers_uninitialised :
    ('[' ∉ "x".data ∧ '\\' ∉ "x".data ∧ '[' ∉ "xa".data ∧ '\\' ∉ "xa".data) ∧
    (((suffix_tree.init 6).add_string "x".data).bind (fun t => t.add_string "xa".data)).map
      (fun t => (t.text, t.root, (t.edge 2).start_node, (t.edge 2).begin_index,
        (t.edge 2).end_index, (t.edge 2).end_node))
      = some ("xaxab".data, 0, 0, 0, 1, 3) ∧
    (((suffix_tree.init 6).add_string "x".data).bind (fun t => t.add_string "xa".data)).map
      (fun t => ((t.edge 0).start_node, (t.edge 0).begin_index, (t.edge 0).end_index))
      = some (3, 2, INF) ∧
    (((suffix_tree.init 6).add_string "x".data).bind (fun t => t.add_string "xa".data)).map
      (fun t => ((t.edge 2).contains (to_int 1), (t.edge 0).contains (to_int 1),
        (t.edge 0).contains (to_int 4)))
      = some (true, false, true) ∧
    (((suffix_tree.init 6).add_string "x".data).bind (fun t => t.add_string "xa".data)).bind
      (fun t => edge_find_delimiters (t.edge 0)
        (t.find_delimiters (to_int 1) (to_int 4) (t.text.length + 2) (t.edge 0).end_node)
        (to_int 1) (to_int 4) 2)
      = some ⟨-1, false, true, -1⟩ :=
  ⟨by decide, by decide, by decide, by decide, by decide⟩


/-! ## The whole-string case: both strings are the same string -/

theorem node_loop_cons (find : Nat → Option search_result) (c : Char) (e : Nat)
    (rest : List (Char × Nat)) (acc temp : search_result) (h : find e = some temp) :
    node_loop find ((c, e) :: rest) acc = node_loop find rest
      (if acc.depth < temp.depth then
        ⟨temp.depth, acc.first || temp.first, acc.second || temp.second, temp.end_index⟩
      else ⟨acc.depth, acc.first || temp.first, acc.second || temp.second, acc.end_index⟩) := by
  simp only [node_loop, h]

/-- The loop over the edges of a node returns when every edge does: the flags
are the disjunctions of the flags of the edges, the depth is the greatest
depth seen, and the end index comes with the depth. -/
theorem node_loop_total (find : Nat → Option search_result) :
    ∀ (l : List (Char × Nat)) (acc : search_result),
      (∀ p, p ∈ l → ∃ x, find p.2 = some x) →
      ∃ r, node_loop find l acc = some r ∧
        (r.first = true ↔
          acc.first = true ∨ ∃ p, p ∈ l ∧ ∃ x, find p.2 = some x ∧ x.first = true) ∧
        (r.second = true ↔
          acc.second = true ∨ ∃ p, p ∈ l ∧ ∃ x, find p.2 = some x ∧ x.second = true) ∧
        acc.depth ≤ r.depth ∧
        (∀ p, p ∈ l → ∀ x, find p.2 = some x → x.depth ≤ r.depth) ∧
        ((r.depth = acc.depth ∧ r.end_index = acc.end_index) ∨
          ∃ p, p ∈ l ∧ ∃ x, find p.2 = some x ∧ r.depth = x.depth ∧ r.end_index = x.end_index)
  | [], acc, _ => ⟨acc, rfl, by simp, by simp, le_refl _, by simp, Or.inl ⟨rfl, rfl⟩⟩
  | (c, e) :: rest, acc, h => by
    obtain ⟨temp, ht⟩ := h (c, e) (by simp)
    simp only at ht
    rw [node_loop_cons find c e rest acc temp ht]
    have hrest : ∀ p, p ∈ rest → ∃ x, find p.2 = some x :=
      fun p hp => h p (List.mem_cons_of_mem _ hp)
    have hsome : ∀ x, find e = some x → x = temp := by
      intro x hx
      rw [ht] at hx
      exact (Option.some.inj hx).symm
    by_cases hlt : acc.depth < temp.depth
    · rw [if_pos hlt]
      obtain ⟨r, hr, h1, h2, h3, h4, h5⟩ := node_loop_total find rest
        ⟨temp.depth, acc.first || temp.first, acc.second || temp.second, temp.end_index⟩ hrest
      simp only [Bool.or_eq_true] at h1 h2 h3 h5
      refine ⟨r, hr, ?_, ?_, by omega, ?_, ?_⟩
      · rw [h1]
        constructor
        · rintro ((ha | hb) | ⟨p, hp, x, hx, hxf⟩)
          · exact Or.inl ha
          · exact Or.inr ⟨(c, e), by simp, temp, ht, hb⟩
          · exact Or.inr ⟨p, List.mem_cons_of_mem _ hp, x, hx, hxf⟩
        · rintro (ha | ⟨p, hp, x, hx, hxf⟩)
          · exact Or.inl (Or.inl ha)
          · rcases List.mem_cons.mp hp with rfl | hp
            · rw [hsome x hx] at hxf
              exact Or.inl (Or.inr hxf)
            · exact Or.inr ⟨p, hp, x, hx, hxf⟩
      · rw [h2]
        constructor
        · rintro ((ha | hb) | ⟨p, hp, x, hx, hxf⟩)
          · exact Or.inl ha
          · exact Or.inr ⟨(c, e), by simp, temp, ht, hb⟩
          · exact Or.inr ⟨p, List.mem_cons_of_mem _ hp, x, hx, hxf⟩
        · rintro (ha | ⟨p, hp, x, hx, hxf⟩)
          · exact Or.inl (Or.inl ha)
          · rcases List.mem_cons.mp hp with rfl | hp
            · rw [hsome x hx] at hxf
              exact Or.inl (Or.inr hxf)
            · exact Or.inr ⟨p, hp, x, hx, hxf⟩
      · intro p hp x hx
        rcases List.mem_cons.mp hp with rfl | hp
        · rw [hsome x hx]
          exact h3
        · exact h4 p hp x hx
      · rcases h5 with ⟨h5a, h5b⟩ | ⟨p, hp, x, hx, hxd⟩
        · exact Or.inr ⟨(c, e), by simp, temp, ht, h5a, h5b⟩
        · exact Or.inr ⟨p, List.mem_cons_of_mem _ hp, x, hx, hxd⟩
    · rw [if_neg hlt]
      obtain ⟨r, hr, h1, h2, h3, h4, h5⟩ := node_loop_total find rest
        ⟨acc.depth, acc.first || temp.first, acc.second || temp.second, acc.end_index⟩ hrest
      simp only [Bool.or_eq_true] at h1 h2 h3 h5
      refine ⟨r, hr, ?_, ?_, h3, ?_, ?_⟩
      · rw [h1]
        constructor
        · rintro ((ha | hb) | ⟨p, hp, x, hx, hxf⟩)
          · exact Or.inl ha
          · exact Or.inr ⟨(c, e), by simp, temp, ht, hb⟩
          · exact Or.inr ⟨p, List.mem_cons_of_mem _ hp, x, hx, hxf⟩
        · rintro (ha | ⟨p, hp, x, hx, hxf⟩)
          · exact Or.inl (Or.inl ha)
          · rcases List.mem_cons.mp hp with rfl | hp
            · rw [hsome x hx] at hxf
              exact Or.inl (Or.inr hxf)
            · exact Or.inr ⟨p, hp, x, hx, hxf⟩
      · rw [h2]
        constructor
        · rintro ((ha | hb) | ⟨p, hp, x, hx, hxf⟩)
          · exact Or.inl ha
          · exact Or.inr ⟨(c, e), by simp, temp, ht, hb⟩
          · exact Or.inr ⟨p, List.mem_cons_of_mem _ hp, x, hx, hxf⟩
        · rintro (ha | ⟨p, hp, x, hx, hxf⟩)
          · exact Or.inl (Or.inl ha)
          · rcases List.mem_cons.mp hp with rfl | hp
            · rw [hsome x hx] at hxf
              exact Or.inl (Or.inr hxf)
            · exact Or.inr ⟨p, hp, x, hx, hxf⟩
      · intro p hp x hx
        rcases List.mem_cons.mp hp with rfl | hp
        · rw [hsome x hx]
          omega
        · exact h4 p hp x hx
      · rcases h5 with ⟨h5a, h5b⟩ | ⟨p, hp, x, hx, hxd⟩
        · exact Or.inl ⟨h5a, h5b⟩
        · exact Or.inr ⟨p, List.mem_cons_of_mem _ hp, x, hx, hxd⟩

namespace suffix_tree

variable {t : suffix_tree} {L : Nat → List Char} {k : Nat}

theorem TreeInv.closed_char (h : t.TreeInv L) {e : Nat} (he : e < t.edge_count)
    (ho : ¬ t.is_open e) : (L (e + 1))[(L (t.es e)).length]? = t.text[t.eb e]? := by
  have ok := h.edge_ok e he
  have hlen := ok.closed_len ho
  have hpos := ok.lab_len_pos
  rw [← occ_iff.mp (ok.closed_occ ho) _ (by omega), ok.pos_add]

/-- An edge whose word is a prefix of the text starts at the depth of its
start node: its indices are those of the first occurrence of the word. -/
theorem Doubled.pos_zero (hd : t.Doubled L k) {e : Nat} (he : e < t.edge_count)
    (ho : Occ t.text 0 (L (t.es e))) (hc : t.text[(L (t.es e)).length]? = t.text[t.eb e]?) :
    t.eb e = (L (t.es e)).length := by
  have h1 := hd.first e he 0 ho (by rw [Nat.zero_add]; exact hc)
  have h2 := (hd.inv.edge_ok e he).pos_add
  omega

theorem Doubled.closed_on_path (hd : t.Doubled L k) {e : Nat} (he : e < t.edge_count)
    (ho : ¬ t.is_open e) (hp : Occ t.text 0 (L (e + 1))) :
    Occ t.text 0 (L (t.es e)) ∧ t.eb e = (L (t.es e)).length := by
  have ok := hd.inv.edge_ok e he
  have htake := hd.inv.take_parent he ho
  have h1 : Occ t.text 0 (L (t.es e)) := by
    rw [← htake]
    exact occ_take hp _
  refine ⟨h1, hd.pos_zero he h1 ?_⟩
  have hlen := ok.closed_len ho
  have hpos := ok.lab_len_pos
  rw [← hd.inv.closed_char he ho, ← occ_iff.mp hp _ (by omega), Nat.zero_add]

/-- The begin indices grow along every downward path. -/
theorem Doubled.begin_mono (hd : t.Doubled L k) {e f : Nat} (he : e < t.edge_count)
    (ho : ¬ t.is_open e) (hf : f < t.edge_count) (hfe : t.es f = e + 1) :
    t.eb e < t.eb f := by
  have oke := hd.inv.edge_ok e he
  have okf := hd.inv.edge_ok f hf
  have hpf := okf.pos_add
  rw [hfe] at hpf
  have hocc := okf.occ_start
  rw [hfe] at hocc
  have htake := hd.inv.take_parent he ho
  have hlen := oke.closed_len ho
  have hpos := oke.lab_len_pos
  have h1 : Occ t.text (t.edge_pos L f) (L (t.es e)) := by
    rw [← htake]
    exact occ_take hocc _
  have h2 : t.text[t.edge_pos L f + (L (t.es e)).length]? = t.text[t.eb e]? := by
    rw [occ_iff.mp hocc _ (by omega), hd.inv.closed_char he ho]
  have h3 := hd.first e he _ h1 h2
  have h4 := oke.pos_add
  omega

/-- A prefix of the doubled string occurs once more behind the first terminator. -/
theorem Doubled.occ_second (hd : t.Doubled L k) {w : List Char} (hw : Occ t.text 0 w)
    (hl : w.length ≤ k) : Occ t.text (k + 1) w := by
  rw [occ_iff] at hw ⊢
  intro x hx
  rw [hd.rep x (by omega), ← hw x hx, Nat.zero_add]

theorem Doubled.first_word (hd : t.Doubled L k) :
    t.Spelled L (seg t.text 0 (k + 1)) ∧ (seg t.text 0 (k + 1)).length = k + 1 ∧
      Occ t.text 0 (seg t.text 0 (k + 1)) := by
  have hn := hd.len
  exact ⟨hd.complete 0 (k + 1) (by omega), seg_length_of_le (by omega), occ_seg (by omega)⟩

theorem Doubled.second_word (hd : t.Doubled L k) :
    t.Spelled L (seg t.text (k + 1) (k + 1)) ∧ (seg t.text (k + 1) (k + 1)).length = k + 1 ∧
      Occ t.text (k + 1) (seg t.text (k + 1) (k + 1)) := by
  have hn := hd.len
  exact ⟨hd.complete (k + 1) (k + 1) (by omega), seg_length_of_le (by omega),
    occ_seg (by omega)⟩

theorem Doubled.edge_unique (hd : t.Doubled L k) {f g : Nat} (hf : f < t.edge_count)
    (hg : g < t.edge_count) (hs : t.es f = t.es g) (hc : t.text[t.eb f]? = t.text[t.eb g]?) :
    f = g := by
  obtain ⟨c, hcf⟩ : ∃ c, t.text[t.eb f]? = some c :=
    ⟨_, List.getElem?_eq_getElem (hd.inv.edge_ok f hf).begin_lt⟩
  have h1 := (hd.inv.find_iff (t.es f) c f).mpr ⟨hf, rfl, hcf⟩
  have h2 := (hd.inv.find_iff (t.es f) c g).mpr ⟨hg, hs.symm, by rw [← hc]; exact hcf⟩
  rw [h1] at h2
  exact Option.some.inj h2

/-- Below a node whose label is a proper prefix of the doubled string the
edge of the next symbol is closed and ends at a node whose label is a prefix
of the doubled string too. -/
theorem Doubled.path_child (hd : t.Doubled L k) {u : Nat} (hu : t.Internal u)
    (hp : Occ t.text 0 (L u)) (hlt : (L u).length < k) :
    ∃ e, e < t.edge_count ∧ t.es e = u ∧ ¬ t.is_open e ∧ t.OnPath L k (e + 1) ∧
      t.text[t.eb e]? = t.text[(L u).length]? := by
  obtain ⟨hs1, hl1, ho1⟩ := hd.first_word
  obtain ⟨hs2, hl2, ho2⟩ := hd.second_word
  have hpre1 : (seg t.text 0 (k + 1)).take (L u).length = L u :=
    occ_take_eq ho1 hp (by omega)
  obtain ⟨f, hf, hfu, hfc, hcase⟩ := hd.inv.trie hs1 hu hpre1 (by omega)
  rw [seg_getElem?, if_pos (by omega), Nat.zero_add] at hfc
  rcases hcase with hon | ⟨hcl, hl, htk⟩
  · exfalso
    have hpre2 : (seg t.text (k + 1) (k + 1)).take (L u).length = L u :=
      occ_take_eq ho2 (hd.occ_second hp (by omega)) (by omega)
    obtain ⟨g, hg, hgu, hgc, hcase2⟩ := hd.inv.trie hs2 hu hpre2 (by omega)
    rw [seg_getElem?, if_pos (by omega), hd.rep _ hlt] at hgc
    have hfg : g = f := hd.edge_unique hg hf (by rw [hgu, hfu]) (by rw [hgc, hfc])
    rw [hfg] at hcase2
    rcases hcase2 with hon2 | ⟨hcl2, hl2', _⟩
    · have heq := occ_eq_of_length hon.2.2.2 hon2.2.2.2 (by omega)
      have h1 := congrArg (fun l => l[k]?) heq
      simp only [seg_getElem?, if_pos (Nat.lt_succ_self k), Nat.zero_add] at h1
      apply hd.ne
      rw [h1]
      congr 1
      omega
    · have h1 := hon.2.2.1
      have h2 := (hd.inv.edge_ok f hf).closed_len hcl2
      omega
  · refine ⟨f, hf, hfu, hcl, ⟨?_, by omega⟩, hfc⟩
    rw [← htk]
    exact occ_take ho1 _

theorem Doubled.top_first (hd : t.Doubled L k) {u : Nat} (hu : t.Internal u)
    (hp : Occ t.text 0 (L u)) (hk : (L u).length = k) :
    ∃ f, f < t.edge_count ∧ t.es f = u ∧ t.eb f = k := by
  obtain ⟨hs1, hl1, ho1⟩ := hd.first_word
  have hpre1 : (seg t.text 0 (k + 1)).take (L u).length = L u :=
    occ_take_eq ho1 hp (by omega)
  obtain ⟨f, hf, hfu, hfc, _⟩ := hd.inv.trie hs1 hu hpre1 (by omega)
  rw [seg_getElem?, if_pos (by omega), Nat.zero_add] at hfc
  refine ⟨f, hf, hfu, ?_⟩
  rw [← hk, ← hfu]
  apply hd.pos_zero hf
  · rw [hfu]; exact hp
  · rw [hfu]; exact hfc.symm

theorem Doubled.top_second (hd : t.Doubled L k) {u : Nat} (hu : t.Internal u)
    (hp : Occ t.text 0 (L u)) (hk : (L u).length = k) :
    ∃ f, f < t.edge_count ∧ t.es f = u ∧ k < t.eb f := by
  obtain ⟨hs2, hl2, ho2⟩ := hd.second_word
  have hpre2 : (seg t.text (k + 1) (k + 1)).take (L u).length = L u :=
    occ_take_eq ho2 (hd.occ_second hp (by omega)) (by omega)
  obtain ⟨f, hf, hfu, hfc, _⟩ := hd.inv.trie hs2 hu hpre2 (by omega)
  rw [seg_getElem?, if_pos (by omega), hk] at hfc
  refine ⟨f, hf, hfu, ?_⟩
  have hdl := (hd.inv.edge_ok f hf).depth_le
  rw [hfu, hk] at hdl
  rcases Nat.lt_or_ge k (t.eb f) with h | h
  · exact h
  · exfalso
    have hkf : t.eb f = k := by omega
    apply hd.ne
    rw [← hkf, hfc]
    congr 1
    omega

theorem Doubled.node_has_edge (hd : t.Doubled L k) {u : Nat} (hu : t.Internal u) :
    (t.node u).edges.isEmpty = false := by
  have key : ∃ f, f < t.edge_count ∧ t.es f = u := by
    rcases hu with h0 | ⟨e, he, hue, ho⟩
    · have hp : Occ t.text 0 (L u) := by
        rw [h0, hd.inv.Lroot]
        exact occ_nil _ _
      have hl : (L u).length = 0 := by rw [h0, hd.inv.Lroot]; rfl
      rcases Nat.eq_zero_or_pos k with hk | hk
      · obtain ⟨f, hf, hfu, _⟩ := hd.top_first (Or.inl h0) hp (by omega)
        exact ⟨f, hf, hfu⟩
      · obtain ⟨f, hf, hfu, _⟩ := hd.path_child (Or.inl h0) hp (by omega)
        exact ⟨f, hf, hfu⟩
    · obtain ⟨f, _, hf, _, _, hfu, _⟩ := hd.branching e he ho
      exact ⟨f, hf, by rw [hfu, hue]⟩
  obtain ⟨f, hf, hfu⟩ := key
  obtain ⟨c, hc⟩ : ∃ c, t.text[t.eb f]? = some c :=
    ⟨_, List.getElem?_eq_getElem (hd.inv.edge_ok f hf).begin_lt⟩
  have hmem : (c, f) ∈ (t.node u).edges := hd.inv.mem_edges.mpr ⟨hf, hfu, hc⟩
  cases hE : (t.node u).edges with
  | nil => rw [hE] at hmem; simp at hmem
  | cons a as => rfl

end suffix_tree

theorem edge_find_marked {e : suffix_tree_edge} {below : Int → Option search_result}
    {m1 m2 d : Int} {temp : search_result} (h1 : e.contains m1 = true)
    (h2 : e.contains m2 = false) (hb : below (d + e.get_span + 1) = some temp) :
    ∃ r, edge_find_delimiters e below m1 m2 d = some r ∧ r.depth = -1 ∧ r.first = true := by
  cases hf : temp.first <;> cases hs : temp.second <;>
    simp [edge_find_delimiters, h1, h2, hb, hf, hs, search_result.init]

namespace suffix_tree

variable {t : suffix_tree} {L : Nat → List Char} {k : Nat}

theorem Doubled.open_markers (hd : t.Doubled L k) {e : Nat} (he : e < t.edge_count)
    (ho : t.is_open e) :
    (t.edge e).contains (k : Int) = decide (t.eb e ≤ k) ∧
      (t.edge e).contains ((2 * k + 1 : Nat) : Int) = true := by
  have ok := hd.inv.edge_ok e he
  have hnn := ok.begin_nonneg
  have hbl := ok.begin_lt
  have hb : (t.edge e).begin_index = (t.eb e : Int) := by unfold eb; omega
  have hn := hd.len_le
  have hl := hd.len
  unfold is_open at ho
  constructor
  · simp only [suffix_tree_edge.contains, ho, hb]
    by_cases h : t.eb e ≤ k
    · simp only [h, decide_True, Bool.and_eq_true, decide_eq_true_eq]
      omega
    · simp only [h, decide_False, Bool.and_eq_false_imp, decide_eq_true_eq,
        decide_eq_false_iff_not]
      omega
  · simp only [suffix_tree_edge.contains, ho, hb, Bool.and_eq_true, decide_eq_true_eq]
    omega

theorem Doubled.closed_bounds (hd : t.Doubled L k) {e : Nat} (he : e < t.edge_count)
    (ho : ¬ t.is_open e) :
    (t.edge e).begin_index = (t.eb e : Int) ∧
      (t.edge e).end_index + 1 = (t.eb e : Int) + (t.lab_len e : Int) ∧
      (t.edge e).end_index + 2 ≤ 2 * (k : Int) + 2 ∧ 0 < t.lab_len e ∧
      (L (e + 1)).length = (L (t.es e)).length + t.lab_len e := by
  have ok := hd.inv.edge_ok e he
  have hlt := ok.closed_lt ho
  have hle := ok.closed_le ho
  have hnn := ok.begin_nonneg
  have hll := lab_len_closed ho
  have hl := hd.len
  have hb : (t.edge e).begin_index = (t.eb e : Int) := by unfold eb; omega
  refine ⟨hb, by omega, by omega, ok.lab_len_pos, ok.closed_len ho⟩

theorem Doubled.edge_open (hd : t.Doubled L k) {e : Nat} (he : e < t.edge_count)
    (ho : t.is_open e) {below : Int → Option search_result} {d : Int}
    (hb : ∀ x, below x = some ⟨-1, false, false, -1⟩) :
    ∃ r, edge_find_delimiters (t.edge e) below (k : Int) ((2 * k + 1 : Nat) : Int) d
        = some r ∧ t.DoubledEdge L k e r := by
  obtain ⟨h1, h2⟩ := hd.open_markers he ho
  by_cases hle : t.eb e ≤ k
  · rw [decide_eq_true hle] at h1
    refine ⟨_, edge_find_open_first h1 h2, ?_⟩
    constructor
    · intro h; omega
    · intro _
      show (-1 : Int) < (k : Int)
      omega
    · intro hcl
      exact absurd ho hcl
    · intro _; rfl
  · rw [decide_eq_false hle] at h1
    refine ⟨_, edge_find_open_second h1 h2 (hb _), ?_⟩
    constructor
    · intro _; rfl
    · intro _
      show (-1 : Int) < (k : Int)
      omega
    · intro hcl
      exact absurd ho hcl
    · intro h; omega

theorem Doubled.edge_closed (hd : t.Doubled L k) {e : Nat} (he : e < t.edge_count)
    (ho : ¬ t.is_open e) {below : Int → Option search_result} {d : Int} {rw : search_result}
    (hb : below (d + (t.edge e).get_span + 1) = some rw) (hn : t.DoubledNode L k (e + 1) rw) :
    ∃ r, edge_find_delimiters (t.edge e) below (k : Int) ((2 * k + 1 : Nat) : Int) d
        = some r ∧ t.DoubledEdge L k e r := by
  obtain ⟨hbeg, hend, hlt, hpos, hlen⟩ := hd.closed_bounds he ho
  have h2 : (t.edge e).contains ((2 * k + 1 : Nat) : Int) = false := by
    simp only [suffix_tree_edge.contains, Bool.and_eq_false_imp, decide_eq_true_eq,
      decide_eq_false_iff_not]
    intro _
    push_cast
    omega
  have hpath : t.OnPath L k (e + 1) → (t.edge e).end_index + 1 = ((L (e + 1)).length : Int) := by
    intro hp
    have := (hd.closed_on_path he ho hp.1).2
    omega
  cases h1 : (t.edge e).contains (k : Int) with
  | true =>
    have h1' : (t.edge e).begin_index ≤ (k : Int) ∧ (k : Int) ≤ (t.edge e).end_index := by
      simpa [suffix_tree_edge.contains] using h1
    obtain ⟨r, hr, hdep, hfirst⟩ := edge_find_marked h1 h2 hb
    refine ⟨r, hr, ?_⟩
    constructor
    · intro h; omega
    · intro _
      rw [hdep]
      omega
    · intro _ hp
      have := hpath hp
      have := hp.2
      omega
    · intro _; exact hfirst
  | false =>
    have h1' : ¬ ((t.edge e).begin_index ≤ (k : Int) ∧ (k : Int) ≤ (t.edge e).end_index) := by
      simpa [suffix_tree_edge.contains] using h1
    rw [edge_find_closed h1 h2, hb]
    refine ⟨_, rfl, ?_⟩
    constructor
    · intro h
      have := hn.far (fun f hf hfe => lt_trans h (hd.begin_mono he ho hf hfe))
      rw [this]
      rfl
    · intro hnot
      have := hn.off (fun hp => hnot ⟨ho, hp⟩)
      split
      · exact this
      · exact this
    · intro _ hp
      have hpe := hpath hp
      rcases Nat.lt_or_ge (L (e + 1)).length k with hlk | hlk
      · rw [hn.path hp hlk]
        simp only [Bool.and_self, if_true]
        rw [if_neg (by omega)]
      · have hk : (L (e + 1)).length = k := by have := hp.2; omega
        rw [hn.top hp hk]
        simp only [Bool.and_self, if_true]
        have : (t.edge e).end_index = (k : Int) - 1 := by omega
        rw [this]
    · intro h
      exfalso
      apply h1'
      omega

end suffix_tree

namespace suffix_tree

variable {t : suffix_tree} {L : Nat → List Char} {k : Nat}

theorem Doubled.label_le (hd : t.Doubled L k) {u : Nat} (hu : t.Internal u) :
    (L u).length ≤ t.text.length := by
  rcases hu with rfl | ⟨e, he, rfl, ho⟩
  · rw [hd.inv.Lroot]
    exact Nat.zero_le _
  · have := occ_length ((hd.inv.edge_ok e he).closed_occ ho)
    omega

/-- The result of the loop of `find_delimiters` over the edges of the inner
node `u`, from the results of the edges. -/
theorem Doubled.node_of_loop (hd : t.Doubled L k) {u : Nat} (hu : t.Internal u)
    (find : Nat → Option search_result)
    (hfind : ∀ p, p ∈ (t.node u).edges → ∃ r, find p.2 = some r ∧ t.DoubledEdge L k p.2 r) :
    ∃ r, node_loop find (t.node u).edges ⟨((L u).length : Int), false, false, -1⟩ = some r ∧
      t.DoubledNode L k u (if !r.first || !r.second then { r with depth := -1 } else r) := by
  obtain ⟨r, hr, h1, h2, h3, h4, h5⟩ := node_loop_total find (t.node u).edges
    ⟨((L u).length : Int), false, false, -1⟩ (fun p hp => (hfind p hp).imp (fun _ h => h.1))
  simp only [Bool.false_eq_true, false_or] at h1 h2
  simp only at h3 h5
  refine ⟨r, hr, ?_⟩
  have spec : ∀ p, p ∈ (t.node u).edges → ∀ x, find p.2 = some x → t.DoubledEdge L k p.2 x := by
    intro p hp x hx
    obtain ⟨y, hy, hs⟩ := hfind p hp
    rw [hx] at hy
    rw [Option.some.inj hy]
    exact hs
  have hedge : ∀ p, p ∈ (t.node u).edges → p.2 < t.edge_count ∧ t.es p.2 = u := by
    rintro ⟨c, e⟩ hp
    obtain ⟨a, b, _⟩ := hd.inv.mem_edges.mp hp
    exact ⟨a, b⟩
  have hmem : ∀ f, f < t.edge_count → t.es f = u →
      ∃ p, p ∈ (t.node u).edges ∧ p.2 = f ∧ ∃ x, find f = some x ∧ t.DoubledEdge L k f x := by
    intro f hf hfu
    obtain ⟨c, hc⟩ : ∃ c, t.text[t.eb f]? = some c :=
      ⟨_, List.getElem?_eq_getElem (hd.inv.edge_ok f hf).begin_lt⟩
    have hm : (c, f) ∈ (t.node u).edges := hd.inv.mem_edges.mpr ⟨hf, hfu, hc⟩
    obtain ⟨x, hx, hs⟩ := hfind (c, f) hm
    exact ⟨(c, f), hm, rfl, x, hx, hs⟩
  have hfar : (∀ f, f < t.edge_count → t.es f = u → k < t.eb f) →
      (if !r.first || !r.second then { r with depth := -1 } else r)
        = (⟨-1, false, true, -1⟩ : search_result) := by
    intro hall
    have hx : ∀ p, p ∈ (t.node u).edges → ∀ x, find p.2 = some x →
        x = (⟨-1, false, true, -1⟩ : search_result) := by
      intro p hp x hx
      exact (spec p hp x hx).far (hall _ (hedge p hp).1 (hedge p hp).2)
    have hf : r.first = false := by
      cases hrf : r.first with
      | false => rfl
      | true =>
        obtain ⟨p, hp, x, hx1, hx2⟩ := h1.mp hrf
        rw [hx p hp x hx1] at hx2
        exact absurd hx2 (by simp)
    have hs : r.second = true := by
      rw [h2]
      have hne := hd.node_has_edge hu
      cases hE : (t.node u).edges with
      | nil => rw [hE] at hne; simp at hne
      | cons p rest =>
        have hp : p ∈ (t.node u).edges := by rw [hE]; simp
        obtain ⟨x, hx1, _⟩ := hfind p hp
        refine ⟨p, List.mem_cons_self _ _, x, hx1, ?_⟩
        rw [hx p hp x hx1]
    have hde : r.depth = ((L u).length : Int) ∧ r.end_index = -1 := by
      rcases h5 with h | ⟨p, hp, x, hx1, hx2, _⟩
      · exact h
      · rw [hx p hp x hx1] at hx2
        simp only at hx2
        omega
    obtain ⟨rd, rf, rs, re⟩ := r
    simp only at hf hs hde
    obtain ⟨_, hre⟩ := hde
    subst hf hs hre
    rfl
  constructor
  · exact hfar
  · intro hoff
    rcases Nat.lt_or_ge (L u).length k with hlk | hlk
    · have hdep : r.depth < (k : Int) := by
        rcases h5 with h | ⟨p, hp, x, hx1, hx2, _⟩
        · rw [h.1]; omega
        · rw [hx2]
          apply (spec p hp x hx1).off
          rintro ⟨hcl, hon⟩
          apply hoff
          have := hd.closed_on_path (hedge p hp).1 hcl hon.1
          rw [(hedge p hp).2] at this
          exact ⟨this.1, by omega⟩
      split
      · show (-1 : Int) < (k : Int)
        omega
      · exact hdep
    · rw [hfar ?_]
      · show (-1 : Int) < (k : Int)
        omega
      · intro f hf hfu
        have ok := hd.inv.edge_ok f hf
        have hdl := ok.depth_le
        have hpa := ok.pos_add
        have hocc := ok.occ_start
        rw [hfu] at hdl hpa hocc
        by_contra hcon
        apply hoff
        have hz : t.edge_pos L f = 0 := by omega
        rw [hz] at hocc
        exact ⟨hocc, by omega⟩
  · intro hp hlt
    obtain ⟨e, he, heu, hcl, hon, _⟩ := hd.path_child hu hp.1 hlt
    obtain ⟨p, hpm, hpe, x, hx, hs⟩ := hmem e he heu
    have hxe := hs.path hcl hon
    have hf : r.first = true := by
      rw [h1]
      exact ⟨p, hpm, x, by rw [hpe]; exact hx, by rw [hxe]⟩
    have hsd : r.second = true := by
      rw [h2]
      exact ⟨p, hpm, x, by rw [hpe]; exact hx, by rw [hxe]⟩
    have hge : (k : Int) ≤ r.depth := by
      have := h4 p hpm x (by rw [hpe]; exact hx)
      rw [hxe] at this
      exact this
    have hde : r.depth = (k : Int) ∧ r.end_index = (k : Int) - 1 := by
      rcases h5 with h | ⟨q, hq, y, hy1, hy2, hy3⟩
      · have := h.1
        omega
      · have hq2 : ¬ t.is_open q.2 ∧ t.OnPath L k (q.2 + 1) := by
          by_contra hcon
          have := (spec q hq y hy1).off hcon
          omega
        have hye := (spec q hq y hy1).path hq2.1 hq2.2
        rw [hye] at hy2 hy3
        exact ⟨hy2, hy3⟩
    obtain ⟨rd, rf, rs, re⟩ := r
    simp only at hf hsd hde
    obtain ⟨hrd, hre⟩ := hde
    subst hf hsd hrd hre
    rfl
  · intro hp hk
    obtain ⟨f1, hf1, hfu1, hb1⟩ := hd.top_first hu hp.1 hk
    obtain ⟨f2, hf2, hfu2, hb2⟩ := hd.top_second hu hp.1 hk
    obtain ⟨p1, hpm1, hpe1, x1, hx1, hs1⟩ := hmem f1 hf1 hfu1
    obtain ⟨p2, hpm2, hpe2, x2, hx2, hs2⟩ := hmem f2 hf2 hfu2
    have hf : r.first = true := by
      rw [h1]
      exact ⟨p1, hpm1, x1, by rw [hpe1]; exact hx1, hs1.mark hb1⟩
    have hsd : r.second = true := by
      rw [h2]
      exact ⟨p2, hpm2, x2, by rw [hpe2]; exact hx2, by rw [hs2.far hb2]⟩
    have hde : r.depth = (k : Int) ∧ r.end_index = -1 := by
      rcases h5 with h | ⟨q, hq, y, hy1, hy2, _⟩
      · rw [h.1, h.2, hk]
        exact ⟨rfl, rfl⟩
      · exfalso
        have hlow : y.depth < (k : Int) := by
          apply (spec q hq y hy1).off
          rintro ⟨hcl, hon⟩
          obtain ⟨_, _, _, hpos, hlen⟩ := hd.closed_bounds (hedge q hq).1 hcl
          rw [(hedge q hq).2] at hlen
          have := hon.2
          omega
        omega
    obtain ⟨rd, rf, rs, re⟩ := r
    simp only at hf hsd hde
    obtain ⟨hrd, hre⟩ := hde
    subst hf hsd hrd hre
    rfl

/-- The search returns at every inner node of the tree of a doubled string. -/
theorem Doubled.search_ok (hd : t.Doubled L k) : ∀ (fuel u : Nat), t.Internal u →
    t.text.length + 2 ≤ fuel + (L u).length →
    ∃ r, t.find_delimiters (k : Int) ((2 * k + 1 : Nat) : Int) fuel u
        ((L u).length : Int) = some r ∧ t.DoubledNode L k u r
  | 0, u, hu, hf => by
    have := hd.label_le hu
    omega
  | fuel + 1, u, hu, hf => by
    have hne := hd.node_has_edge hu
    have hfind : ∀ p, p ∈ (t.node u).edges → ∃ r,
        (fun e => edge_find_delimiters (t.edge e)
          (t.find_delimiters (k : Int) ((2 * k + 1 : Nat) : Int) fuel (t.edge e).end_node)
          (k : Int) ((2 * k + 1 : Nat) : Int) ((L u).length : Int)) p.2 = some r ∧
        t.DoubledEdge L k p.2 r := by
      rintro ⟨c, e⟩ hp
      obtain ⟨he, hes, hc⟩ := hd.inv.mem_edges.mp hp
      have ok := hd.inv.edge_ok e he
      have hdl := ok.depth_le
      have hbl := ok.begin_lt
      rw [hes] at hdl
      by_cases ho : t.is_open e
      · apply hd.edge_open he ho
        intro x
        rw [ok.end_node]
        obtain ⟨f', rfl⟩ : ∃ f', fuel = f' + 1 := ⟨fuel - 1, by omega⟩
        simp [find_delimiters, hd.inv.leaf_no_edges he ho, search_result.init]
      · have hcl := ok.closed_len ho
        have hll := lab_len_closed ho
        have hle := ok.closed_le ho
        rw [hes] at hcl
        obtain ⟨rw, hrw, hn⟩ := Doubled.search_ok hd fuel (e + 1) (Or.inr ⟨e, he, rfl, ho⟩)
          (by omega)
        apply hd.edge_closed he ho _ hn
        rw [ok.end_node]
        have harg : ((L u).length : Int) + (t.edge e).get_span + 1
            = ((L (e + 1)).length : Int) := by
          unfold suffix_tree_edge.get_span
          omega
        rw [harg]
        exact hrw
    obtain ⟨r, hr, hspec⟩ := hd.node_of_loop hu
      (fun e => edge_find_delimiters (t.edge e)
          (t.find_delimiters (k : Int) ((2 * k + 1 : Nat) : Int) fuel (t.edge e).end_node)
          (k : Int) ((2 * k + 1 : Nat) : Int) ((L u).length : Int))
      hfind
    refine ⟨_, ?_, hspec⟩
    unfold find_delimiters
    simp only [hne, Bool.false_eq_true, if_false, search_result.init]
    rw [hr]
    simp only
    split <;> rfl

/-- On the tree of a doubled string `get_lcs` returns the string. -/
theorem Doubled.get_lcs_eq (hd : t.Doubled L k) : t.get_lcs k k = some (t.text.take k) := by
  have hn := hd.len_le
  have hl := hd.len
  have hr0 : t.Internal 0 := Or.inl rfl
  have hL0 : (L 0).length = 0 := by rw [hd.inv.Lroot]; rfl
  have hon : t.OnPath L k 0 := by
    refine ⟨?_, by omega⟩
    rw [hd.inv.Lroot]
    exact occ_nil _ _
  obtain ⟨r, hr, hspec⟩ := hd.search_ok (t.text.length + 2) 0 hr0 (by omega)
  have hfd : t.find_delimiters (to_int k) (to_int (k + k + 1)) (t.text.length + 2) t.root 0
      = some r := by
    rw [to_int_small (by omega), to_int_small (by omega), hd.inv.root0,
      show k + k + 1 = 2 * k + 1 by omega]
    rw [hL0] at hr
    exact hr
  unfold get_lcs
  rw [hfd]
  simp only
  rcases Nat.eq_zero_or_pos k with hk | hk
  · rw [hspec.top hon (by omega)]
    simp only
    rw [if_pos (by omega), hk]
    rfl
  · rw [hspec.path hon (by omega)]
    simp only
    have h0 : to_size_t 0 = 0 := by decide
    have hk' : to_size_t (k : Int) = k := by
      rw [to_size_t_small (by omega) (by omega)]
      simp
    rw [if_neg (by omega), show (k : Int) - 1 - (k : Int) + 1 = 0 by omega, h0, hk']
    unfold substr
    rw [if_neg (by omega)]
    simp

end suffix_tree

/-- The state of `main` before the query when both strings are the string
`s`, `delimiters_count` starting at `d`: both `add_string` calls return and
the tree is the complete tree of the doubled string. -/
theorem equal_strings_state (d : Nat) (s : List Char)
    (h : (s.length : Int) + s.length + 2 ≤ INF) :
    ∃ (t1 t2 : suffix_tree) (L : Nat → List Char),
      (suffix_tree.init d).add_string s = some t1 ∧ t1.add_string s = some t2 ∧
      t2.text = s ++ delimiter d :: (s ++ [delimiter (d + 1)]) ∧ t2.Doubled L s.length := by
  obtain ⟨t1, h1, g1⟩ := (suffix_tree.Good.init d).add_string s
    (by simp only [suffix_tree.init, List.length_nil]; omega)
  have f1 := suffix_tree.add_string_text h1
  have e1 : t1.text = s ++ [delimiter d] := by
    rw [f1.1]
    simp only [suffix_tree.init, List.nil_append]
  have d1 : t1.delimiters_count = d + 1 := f1.2
  obtain ⟨t2, h2, g2⟩ := g1.add_string s (by
    rw [e1]
    simp only [List.length_append, List.length_singleton, Nat.cast_add, Nat.cast_one]
    omega)
  have f2 := suffix_tree.add_string_text h2
  have e2 : t2.text = s ++ delimiter d :: (s ++ [delimiter (d + 1)]) := by
    rw [f2.1, e1, d1]
    simp
  have hlen : t2.text.length = 2 * s.length + 2 := by
    rw [e2]
    simp only [List.length_append, List.length_cons, List.length_singleton, List.length_nil]
    omega
  obtain ⟨L, j, hp⟩ := g2
  refine ⟨t1, t2, L, h1, h2, e2, ?_⟩
  constructor
  · exact hp.inv
  · exact hp.branching
  · exact hp.complete
  · exact hp.first
  · exact hlen
  · rw [hlen]
    push_cast
    omega
  · intro x hx
    rw [e2, List.getElem?_append_right (by omega),
      show s.length + 1 + x - s.length = x + 1 by omega, List.getElem?_cons_succ,
      List.getElem?_append_left hx, List.getElem?_append_left hx]
  · rw [e2, List.getElem?_append_right (le_refl _), Nat.sub_self,
      List.getElem?_append_right (by omega),
      show 2 * s.length + 1 - s.length = s.length + 1 by omega, List.getElem?_cons_succ,
      List.getElem?_append_right (le_refl _), Nat.sub_self]
    simp only [List.getElem?_cons_zero]
    intro hc
    exact delimiter_succ_ne d (Option.some.inj hc)

/-- C4: the whole-string case. For every string `s` (empty or not, with or
without the symbols `[` and `\\`) and for every value `d` that the counter
`delimiters_count`, which the constructor leaves unset, may hold in a fresh
tree, `add_string(s)` twice and `get_lcs(|s|, |s|)` return exactly `s`: the
answer is neither shortened nor lengthened (twice the length of `s` and the
two terminators within the range of the `int` indices). -/
theorem lcs_whole_string (d : Nat) (s : List Char)
    (h : (s.length : Int) + s.length + 2 ≤ INF) : lcs_main d s s = some s := by
  obtain ⟨t1, t2, L, h1, h2, e2, hd⟩ := equal_strings_state d s h
  simp only [lcs_main, h1, h2]
  rw [hd.get_lcs_eq, e2]
  simp

theorem lcs_whole_string_witness :
    (("banana".data.length : Int) + "banana".data.length + 2 ≤ INF) ∧
    lcs_main 0 "banana".data "banana".data = some "banana".data :=
  ⟨by decide, lcs_whole_string 0 "banana".data (by decide)⟩
